import Mathlib

/-!
Pintos (KAIST) project 3: hash table, file-backed pages and memory copies.

A shallow embedding of `lib/kernel/hash.c`, of `vm/file.c` and of `memcpy` and
`memmove` of `lib/string.c`.

* A `struct hash_elem *` is a value of an arbitrary type `α` with decidable
  equality: equality of values is pointer identity, so two distinct values may
  well be equivalent under the table's `less`.
* A bucket (`struct list`) is the list of the elements linked in it, front
  first.  The bucket array is a list of buckets; a `struct list *` into the
  array is its index.
* `size_t` and `uint64_t` are naturals reduced modulo `2 ^ 64`.
* `malloc` may fail: every call site takes the outcome as a Boolean.
* A pointer into memory is its address, and the memory a function from
  addresses to bytes.
-/

set_option linter.unusedSectionVars false
set_option maxRecDepth 100000

namespace Pintos

variable {α : Type} [DecidableEq α]

/-! ## lib/kernel/hash.c -/

/-- Number of values of a `size_t` (and of a `uint64_t`). -/
def SIZE_MOD : Nat := 2 ^ 64

/-- The decrement `x - 1` of a `size_t`: zero wraps to the largest value. -/
def size_pred (x : Nat) : Nat :=
  if x = 0 then SIZE_MOD - 1 else x - 1

/-- The `struct hash` of hash.h.  The `aux` pointer is part of the closures
`hash` and `less`. -/
structure Hash (α : Type) where
  elem_cnt : Nat
  bucket_cnt : Nat
  buckets : List (List α)
  hash : α → Nat
  less : α → α → Bool

/-- The chain stored in bucket `i` of a bucket array. -/
def bucket_at (buckets : List (List α)) (i : Nat) : List α :=
  buckets.getD i []

/-- The function `list_push_front (&buckets[i], e)`. -/
def list_push_front (buckets : List (List α)) (i : Nat) (e : α) : List (List α) :=
  buckets.set i (e :: bucket_at buckets i)

/-- The function `list_remove (&e->list_elem)`: unlinks `e` from the chain it is
linked in. -/
def list_remove (buckets : List (List α)) (e : α) : List (List α) :=
  buckets.map (fun b => b.erase e)

/-- The function `find_bucket`: the index `hash (e) & (bucket_cnt - 1)`, computed
on `size_t`. -/
def find_bucket (h : Hash α) (e : α) : Nat :=
  (h.hash e % SIZE_MOD) &&& size_pred h.bucket_cnt

/-- The function `find_elem`: the first element of the bucket that is neither
less than `e` nor greater; a null probe finds nothing. -/
def find_elem (h : Hash α) (bucket : Nat) : Option α → Option α
  | none => none
  | some e => (bucket_at h.buckets bucket).find? (fun hi => !h.less hi e && !h.less e hi)

/-- The function `insert_elem`. -/
def insert_elem (h : Hash α) (bucket : Nat) (e : α) : Hash α :=
  { h with elem_cnt := (h.elem_cnt + 1) % SIZE_MOD,
           buckets := list_push_front h.buckets bucket e }

/-- The function `remove_elem`. -/
def remove_elem (h : Hash α) (e : α) : Hash α :=
  { h with elem_cnt := size_pred h.elem_cnt,
           buckets := list_remove h.buckets e }

/-- The function `turn_off_least_1bit`. -/
def turn_off_least_1bit (x : Nat) : Nat :=
  x &&& size_pred x

/-- The function `is_power_of_2`. -/
def is_power_of_2 (x : Nat) : Bool :=
  x != 0 && turn_off_least_1bit x == 0

/-- The macro `BEST_ELEMS_PER_BUCKET`: the ideal number of elements per bucket. -/
def BEST_ELEMS_PER_BUCKET : Nat := 2

/-- The loop `while (!is_power_of_2 (n)) n = turn_off_least_1bit (n);` of
`rehash`, run for at most `fuel` iterations. -/
def rehash_round : Nat → Nat → Nat
  | 0, n => n
  | fuel + 1, n => if is_power_of_2 n then n else rehash_round fuel (turn_off_least_1bit n)

/-- The bucket count `rehash` aims at for a table of `elem_cnt` elements.  The
loop runs with fuel equal to its starting value: every iteration that does not
stop strictly decreases the value. -/
def rehash_target (elem_cnt : Nat) : Nat :=
  let new_bucket_cnt := elem_cnt / BEST_ELEMS_PER_BUCKET
  let new_bucket_cnt := if new_bucket_cnt < 4 then 4 else new_bucket_cnt
  rehash_round new_bucket_cnt new_bucket_cnt

/-- The relinking loop of `rehash`: every element of the old buckets
`0 .. old_bucket_cnt - 1`, in chain order, is pushed onto the front of its
bucket in the table `h`, whose `bucket_cnt` is already the new one. -/
def rehash_move (h : Hash α) (old_buckets : List (List α)) (old_bucket_cnt : Nat) :
    List (List α) :=
  (List.range old_bucket_cnt).foldl
    (fun bs i => (bucket_at old_buckets i).foldl
      (fun bs e => list_push_front bs (find_bucket h e) e) bs)
    h.buckets

/-- The function `rehash`.  `malloc_ok` is the outcome of the allocation of the new bucket
array, consulted only when the bucket count has to change. -/
def rehash (malloc_ok : Bool) (h : Hash α) : Hash α :=
  let old_buckets := h.buckets
  let old_bucket_cnt := h.bucket_cnt
  let new_bucket_cnt := rehash_target h.elem_cnt
  if new_bucket_cnt = old_bucket_cnt then h
  else if !malloc_ok then h
  else
    let h1 : Hash α :=
      { h with buckets := List.replicate new_bucket_cnt [], bucket_cnt := new_bucket_cnt }
    { h1 with buckets := rehash_move h1 old_buckets old_bucket_cnt }

/-- The function `hash_clear`.  `destructor` tells whether a destructor was passed; the
second component lists the elements it was called on, in call order. -/
def hash_clear (h : Hash α) (destructor : Bool) : Hash α × List α :=
  let r := (List.range h.bucket_cnt).foldl
    (fun (acc : List (List α) × List α) i =>
      (acc.1.set i [], acc.2 ++ (if destructor then bucket_at acc.1 i else [])))
    (h.buckets, [])
  ({ h with buckets := r.1, elem_cnt := 0 }, r.2)

/-- The function `hash_init`: `none` is the `false` return on allocation failure. -/
def hash_init (malloc_ok : Bool) (hash : α → Nat) (less : α → α → Bool) : Option (Hash α) :=
  let h : Hash α :=
    { elem_cnt := 0, bucket_cnt := 4, buckets := List.replicate 4 [], hash := hash, less := less }
  if malloc_ok then some (hash_clear h false).1 else none

/-- The function `hash_insert`: the table afterwards and the returned element. -/
def hash_insert (malloc_ok : Bool) (h : Hash α) (new : α) : Hash α × Option α :=
  let bucket := find_bucket h new
  let old := find_elem h bucket (some new)
  let h := if old = none then insert_elem h bucket new else h
  (rehash malloc_ok h, old)

/-- The function `hash_replace`. -/
def hash_replace (malloc_ok : Bool) (h : Hash α) (new : α) : Hash α × Option α :=
  let bucket := find_bucket h new
  let old := find_elem h bucket (some new)
  let h := match old with
    | some o => remove_elem h o
    | none => h
  let h := insert_elem h bucket new
  (rehash malloc_ok h, old)

/-- The function `hash_size`. -/
def hash_size (h : Hash α) : Nat := h.elem_cnt

/-- The function `hash_empty`. -/
def hash_empty (h : Hash α) : Bool := h.elem_cnt == 0

/-- The function `hash_find`: the table afterwards (no statement of the function writes to
it) and the returned element. -/
def hash_find (h : Hash α) (e : α) : Hash α × Option α :=
  if hash_empty h then (h, none)
  else (h, find_elem h (find_bucket h e) (some e))

/-- The function `hash_delete`. -/
def hash_delete (malloc_ok : Bool) (h : Hash α) (e : α) : Hash α × Option α :=
  let found := find_elem h (find_bucket h e) (some e)
  match found with
  | some f => (rehash malloc_ok (remove_elem h f), found)
  | none => (h, found)

/-- A `struct hash_iterator`: the index of the current bucket and the position
of `elem` in its chain.  Position `0` is the head sentinel, `j + 1` the `j`-th
element, `length + 1` the tail sentinel; `none` is the null pointer. -/
structure hash_iterator where
  bucket : Nat
  elem : Option Nat
deriving DecidableEq, Repr

/-- The function `hash_first`. -/
def hash_first (_h : Hash α) : hash_iterator :=
  { bucket := 0, elem := some 0 }

/-- The `while` loop of `hash_next`, for at most `fuel` tests of its condition. -/
def hash_next_loop (h : Hash α) : Nat → hash_iterator → hash_iterator
  | 0, i => i
  | fuel + 1, i =>
    if i.elem = some ((bucket_at h.buckets i.bucket).length + 1) then
      if i.bucket + 1 ≥ h.bucket_cnt then { bucket := i.bucket + 1, elem := none }
      else hash_next_loop h fuel { bucket := i.bucket + 1, elem := some 1 }
    else i

/-- The element an iterator position designates. -/
def hash_cur (h : Hash α) (i : hash_iterator) : Option α :=
  match i.elem with
  | none => none
  | some p => if p = 0 then none else (bucket_at h.buckets i.bucket)[p - 1]?

/-- The function `hash_next`: the advanced iterator and the returned element.  Advancing an
iterator whose `elem` is null is undefined in C; here it stays put. -/
def hash_next (h : Hash α) (i : hash_iterator) : hash_iterator × Option α :=
  match i.elem with
  | none => (i, none)
  | some p =>
    let i1 := hash_next_loop h (h.bucket_cnt + 1) { i with elem := some (p + 1) }
    (i1, hash_cur h i1)

/-- The documented iteration idiom
`hash_first (&i, h); while (hash_next (&i)) ...`: the elements returned, or
`none` when `fuel` calls of `hash_next` did not reach the end. -/
def hash_iterate_loop (h : Hash α) : Nat → hash_iterator → Option (List α)
  | 0, _ => none
  | fuel + 1, i =>
    match hash_next h i with
    | (_, none) => some []
    | (i1, some e) => (hash_iterate_loop h fuel i1).map (fun es => e :: es)

/-- The iteration idiom started by `hash_first`. -/
def hash_iterate (fuel : Nat) (h : Hash α) : Option (List α) :=
  hash_iterate_loop h fuel (hash_first h)

/-! ### Vocabulary of the claims -/

/-- The elements held in the table: bucket order, then chain order. -/
def elems (h : Hash α) : List α := h.buckets.flatten

/-- Equivalence under the table's ordering: neither element is less. -/
def equiv (h : Hash α) (a b : α) : Bool := !h.less a b && !h.less b a

/-- A strict weak order: irreflexive, transitive, with transitive
incomparability. -/
structure StrictWeakOrder (less : α → α → Bool) : Prop where
  irrefl : ∀ a, less a a = false
  trans : ∀ a b c, less a b = true → less b c = true → less a c = true
  incomp_trans : ∀ a b c, less a b = false → less b a = false →
    less b c = false → less c b = false → less a c = false ∧ less c a = false

/-- A mutation of the table, with the outcome of the allocation in `rehash`
(for `clear`: whether a destructor is passed). -/
inductive Op (α : Type) where
  | insert (new : α) (malloc_ok : Bool)
  | replace (new : α) (malloc_ok : Bool)
  | delete (e : α) (malloc_ok : Bool)
  | clear (destructor : Bool)

/-- The table after one mutation. -/
def Op.apply (h : Hash α) : Op α → Hash α
  | .insert new ok => (hash_insert ok h new).1
  | .replace new ok => (hash_replace ok h new).1
  | .delete e ok => (hash_delete ok h e).1
  | .clear d => (hash_clear h d).1

/-- The table after a sequence of mutations. -/
def run (h : Hash α) (ops : List (Op α)) : Hash α :=
  ops.foldl Op.apply h

/-- The table `hash_init` produces when its allocation succeeds. -/
def init_table (hash : α → Nat) (less : α → α → Bool) : Hash α :=
  { elem_cnt := 0, bucket_cnt := 4, buckets := List.replicate 4 [], hash := hash, less := less }

/-- The data invariant of the table: a strict weak order whose equivalent
elements hash equally, a power-of-two bucket count of at least 4 that is the
length of the bucket array, every element linked once and in the bucket its
hash selects, no two distinct elements equivalent, and `elem_cnt` the number of
linked elements (as a `size_t`). -/
structure Inv (h : Hash α) : Prop where
  swo : StrictWeakOrder h.less
  hash_compat : ∀ a b, equiv h a b = true → h.hash a = h.hash b
  pow2 : ∃ k, 2 ≤ k ∧ k < 64 ∧ h.bucket_cnt = 2 ^ k
  len : h.buckets.length = h.bucket_cnt
  placed : ∀ i e, e ∈ bucket_at h.buckets i → find_bucket h e = i
  nodup : (elems h).Nodup
  noequiv : ∀ a ∈ elems h, ∀ b ∈ elems h, equiv h a b = true → a = b
  cnt : h.elem_cnt = (elems h).length % SIZE_MOD

/-- A well-formed table: the invariant holds and the number of elements is
below the largest `size_t`, so that counting one more element does not wrap. -/
def WF (h : Hash α) : Prop :=
  Inv h ∧ (elems h).length + 1 < SIZE_MOD

/-- The elements an iteration still has to return after the cursor `i`: the
rest of the current chain, then the chains of the buckets that follow. -/
def remaining (h : Hash α) (i : hash_iterator) : List α :=
  match i.elem with
  | none => []
  | some p => (bucket_at h.buckets i.bucket).drop p ++ (h.buckets.drop (i.bucket + 1)).flatten

/-- A cursor that stands on the head sentinel or on an element of the chain of
one of the table's buckets. -/
def valid_iterator (h : Hash α) (i : hash_iterator) : Prop :=
  i.bucket < h.buckets.length ∧
    ∃ p, i.elem = some p ∧ p ≤ (bucket_at h.buckets i.bucket).length

/-! ### A concrete instance: records ordered and hashed by their first component -/

/-- The hash function of the example tables: the key of the record. -/
def key_hash (a : Nat × Nat) : Nat := a.1

/-- The ordering of the example tables: records compare by their key, so two
records with the same key and different payloads are equivalent. -/
def key_less (a b : Nat × Nat) : Bool := decide (a.1 < b.1)

/-- An example table holding the records `(1, 0)`, `(2, 0)` and `(5, 0)`. -/
def key_table : Hash (Nat × Nat) :=
  run (init_table key_hash key_less)
    [Op.insert (1, 0) true, Op.insert (2, 0) true, Op.insert (5, 0) true]

/-- The number `p` is the largest power of two that does not exceed `m`. -/
def largest_pow2_le (p m : Nat) : Prop :=
  ∃ k, p = 2 ^ k ∧ 2 ^ k ≤ m ∧ m < 2 ^ (k + 1)

/-- The number `p` is a power of two nearest to `n`: no power of two is closer to `n`. -/
def nearest_pow2 (p n : Nat) : Prop :=
  (∃ k, p = 2 ^ k) ∧ ∀ k, (p - n) + (n - p) ≤ (2 ^ k - n) + (n - 2 ^ k)

/-- The example table holding the records `(0, 0)`, ..., `(n - 1, 0)`, built by
`n` inserts whose allocations all succeed. -/
def key_table_upto (n : Nat) : Hash (Nat × Nat) :=
  run (init_table key_hash key_less) ((List.range n).map (fun i => Op.insert (i, 0) true))

/-! ## vm/file.c

The declarations of vm/vm.h, vm/file.h, threads/vaddr.h, threads/mmu.h and
filesys/file.h that file.c uses are modelled from the spec; the functions of
file.c itself follow the source. -/

/-- Modelled from the spec: `PGSIZE` of threads/vaddr.h, the size of a page in
bytes. -/
def PGSIZE : Nat := 4096

/-- The conversion of an integer to a 32-bit signed type: `int`, and `off_t`,
which filesys/off_t.h of Pintos declares as `int32_t`. -/
def to_int32 (x : Int) : Int :=
  (x + 2147483648) % 4294967296 - 2147483648

/-- The subtraction `a - b` of two `size_t`. -/
def size_sub (a b : Nat) : Nat :=
  if b ≤ a then a - b else SIZE_MOD - (b - a)

/-- Modelled from the spec: `enum vm_type` of vm/vm.h, the variant tag of a page
descriptor (uninitialized, anonymous, file-backed). -/
inductive vm_type where
  | VM_UNINIT
  | VM_ANON
  | VM_FILE
deriving DecidableEq, Repr

/-- Modelled from the spec: `struct lazy_load_arg`, the argument bundle of a
deferred initialization (file handle, offset, read and zero byte counts). -/
structure lazy_load_arg where
  file : Nat
  ofs : Int
  read_bytes : Nat
  zero_bytes : Nat
deriving DecidableEq, Repr

/-- Modelled from the spec: `struct file_page` of vm/file.h, the payload of the
file-backed variant. -/
structure file_page where
  file : Nat
  ofs : Int
  read_bytes : Nat
  zero_bytes : Nat
deriving DecidableEq, Repr

/-- Modelled from the spec: `struct page` of vm/vm.h, with the fields file.c
reads and writes.  `operations` is the `type` of the operations table the
descriptor points to, that is its current variant; `uninit_type` and
`uninit_aux` are the target variant and the argument bundle of a pending
page. -/
structure page where
  va : Nat
  operations : vm_type
  uninit_type : vm_type
  uninit_aux : lazy_load_arg
  file : file_page
  writable : Bool
  mapped_page_count : Int
deriving DecidableEq, Repr

/-- One call of `file_write_at (file, buffer, size, file_ofs)`. -/
structure file_write where
  file : Nat
  buffer : Nat
  size : Nat
  ofs : Int
deriving DecidableEq, Repr

/-- One call of `file_read_at (file, buffer, size, file_ofs)`. -/
structure file_read where
  file : Nat
  buffer : Nat
  size : Nat
  ofs : Int
deriving DecidableEq, Repr

/-- The state file.c works on: the supplemental page table of the current
thread, the dirty bits and the installed mappings of its `pml4`, the writes
and the reads issued to the file system and the addresses of the pages
`destroy` was invoked on, all three in call order. -/
structure vm_state where
  spt : List page
  dirty : List Nat
  present : List Nat
  writes : List file_write
  destroyed : List Nat
  reads : List file_read
deriving DecidableEq, Repr

/-- Modelled from the spec: `spt_find_page` of vm/vm.c, the lookup of the page
descriptor registered at a virtual address. -/
def spt_find_page (s : vm_state) (va : Nat) : Option page :=
  s.spt.find? (fun p => p.va == va)

/-- Modelled from the spec: `page_get_type` of vm/vm.c, which returns the
current variant tag of a descriptor; a pending page reports the uninitialized
variant until its first swap-in. -/
def page_get_type (p : page) : vm_type :=
  p.operations

/-- Modelled from the spec: `vm_alloc_page_with_initializer` of vm/vm.c.  It
registers a page in the uninitialized variant with its target variant and
argument bundle, without I/O or frame allocation, and fails when a page is
already registered at the address or when the allocation (`alloc_ok`) fails. -/
def vm_alloc_page_with_initializer (alloc_ok : Bool) (s : vm_state) (type : vm_type)
    (upage : Nat) (writable : Bool) (aux : lazy_load_arg) : vm_state × Bool :=
  if !alloc_ok || (spt_find_page s upage).isSome then (s, false)
  else
    ({ s with spt := s.spt ++ [{ va := upage, operations := vm_type.VM_UNINIT,
                                 uninit_type := type, uninit_aux := aux,
                                 file := { file := 0, ofs := 0, read_bytes := 0, zero_bytes := 0 },
                                 writable := writable, mapped_page_count := 0 }] }, true)

/-- Modelled from the spec: `pml4_is_dirty` of threads/mmu.c. -/
def pml4_is_dirty (s : vm_state) (va : Nat) : Bool :=
  s.dirty.contains va

/-- Modelled from the spec: `pml4_set_dirty` of threads/mmu.c. -/
def pml4_set_dirty (s : vm_state) (va : Nat) (dirty : Bool) : vm_state :=
  { s with dirty := if dirty then va :: s.dirty else s.dirty.filter (fun a => a != va) }

/-- Modelled from the spec: `pml4_clear_page` of threads/mmu.c, which removes
the hardware mapping of a virtual address. -/
def pml4_clear_page (s : vm_state) (va : Nat) : vm_state :=
  { s with present := s.present.filter (fun a => a != va) }

/-- Modelled from the spec: `file_write_at` of filesys/file.c, recorded as a
call. -/
def file_write_at (s : vm_state) (file buffer size : Nat) (file_ofs : Int) : vm_state :=
  { s with writes := s.writes ++ [{ file := file, buffer := buffer, size := size,
                                    ofs := file_ofs }] }

/-- The function `file_backed_initializer`: the descriptor becomes file-backed
and takes its payload from the argument bundle of the pending page. -/
def file_backed_initializer (p : page) : page :=
  { p with operations := vm_type.VM_FILE,
           file := { file := p.uninit_aux.file, ofs := p.uninit_aux.ofs,
                     read_bytes := p.uninit_aux.read_bytes,
                     zero_bytes := p.uninit_aux.zero_bytes } }

/-- The function `file_backed_destroy`. -/
def file_backed_destroy (s : vm_state) (p : page) : vm_state :=
  let s :=
    if pml4_is_dirty s p.va then
      let s := file_write_at s p.file.file p.va p.file.read_bytes p.file.ofs
      pml4_set_dirty s p.va false
    else s
  pml4_clear_page s p.va

/-- Modelled from the spec: the `destroy (page)` macro of vm/vm.h, which calls
the `destroy` operation of the descriptor's current variant: for a file-backed
page `file_backed_destroy`, for the other variants the operation
`other_destroy` of code that is not part of file.c. -/
def destroy (other_destroy : page → vm_state → vm_state) (s : vm_state) (p : page) : vm_state :=
  let s := { s with destroyed := s.destroyed ++ [p.va] }
  match p.operations with
  | vm_type.VM_FILE => file_backed_destroy s p
  | _ => other_destroy p s

/-- The assignment `p->mapped_page_count = total_page_count` on the descriptor
registered at `va`. -/
def set_mapped_page_count (s : vm_state) (va : Nat) (count : Int) : vm_state :=
  { s with spt := s.spt.map (fun p =>
      if p.va == va ∧ (spt_find_page s va) = some p then { p with mapped_page_count := count }
      else p) }

/-- How a call of `do_mmap` ends. -/
inductive mmap_result where
  | panic
  | out_of_fuel
  | returned (s : vm_state) (ret : Option Nat)
deriving DecidableEq, Repr

/-- The `while (read_bytes > 0 || zero_bytes > 0)` loop of `do_mmap`, for at
most `fuel` iterations.  `alloc_ok` gives the outcome of the allocations of a
registration by its address. -/
def do_mmap_loop (alloc_ok : Nat → Bool) (start_addr : Nat) (total_page_count : Int)
    (writable : Bool) (f : Nat) :
    Nat → vm_state → Nat → Nat → Nat → Int → mmap_result
  | 0, s, read_bytes, zero_bytes, _, _ =>
    if read_bytes > 0 ∨ zero_bytes > 0 then mmap_result.out_of_fuel
    else mmap_result.returned s (some start_addr)
  | fuel + 1, s, read_bytes, zero_bytes, addr, offset =>
    if read_bytes > 0 ∨ zero_bytes > 0 then
      let page_read_bytes := if read_bytes < PGSIZE then read_bytes else PGSIZE
      let page_zero_bytes := size_sub PGSIZE page_read_bytes
      let aux : lazy_load_arg :=
        { file := f, ofs := offset, read_bytes := page_read_bytes,
          zero_bytes := page_zero_bytes }
      match vm_alloc_page_with_initializer (alloc_ok addr) s vm_type.VM_FILE addr writable aux with
      | (s1, false) => mmap_result.returned s1 none
      | (s1, true) =>
        do_mmap_loop alloc_ok start_addr total_page_count writable f fuel
          (set_mapped_page_count s1 start_addr total_page_count)
          (size_sub read_bytes page_read_bytes) (size_sub zero_bytes page_zero_bytes)
          ((addr + PGSIZE) % SIZE_MOD) (to_int32 (offset + page_read_bytes))
    else mmap_result.returned s (some start_addr)

/-- The function `do_mmap`.  `f` is the handle `file_reopen (file)` returns and
`file_length` the length of that file; `fuel` bounds the iterations of the
loop. -/
def do_mmap (fuel : Nat) (alloc_ok : Nat → Bool) (f file_length : Nat) (s : vm_state)
    (addr length : Nat) (writable : Bool) (offset : Int) : mmap_result :=
  let start_addr := addr
  let total_page_count : Int :=
    to_int32 (if length ≤ PGSIZE then 1
      else if length % PGSIZE ≠ 0 then (length / PGSIZE + 1) % SIZE_MOD else length / PGSIZE)
  let read_bytes := if file_length < length then file_length else length
  let zero_bytes := size_sub PGSIZE (read_bytes % PGSIZE)
  if (read_bytes + zero_bytes) % SIZE_MOD % PGSIZE ≠ 0 then mmap_result.panic
  else if addr % PGSIZE ≠ 0 then mmap_result.panic
  else if offset % PGSIZE ≠ 0 then mmap_result.panic
  else
    do_mmap_loop alloc_ok start_addr total_page_count writable f fuel s read_bytes zero_bytes
      addr offset

/-- The `for (int i = 0; i < count; i++)` loop of `do_munmap`, with `n`
iterations left. -/
def do_munmap_loop (other_destroy : page → vm_state → vm_state) :
    Nat → vm_state → Nat → vm_state
  | 0, s, _ => s
  | n + 1, s, addr =>
    let s :=
      match spt_find_page s addr with
      | some cur => if page_get_type cur = vm_type.VM_FILE then destroy other_destroy s cur else s
      | none => s
    do_munmap_loop other_destroy n s ((addr + PGSIZE) % SIZE_MOD)

/-- The function `do_munmap`. -/
def do_munmap (other_destroy : page → vm_state → vm_state) (s : vm_state) (addr : Nat) :
    vm_state :=
  match spt_find_page s addr with
  | none => s
  | some p =>
    if page_get_type p ≠ vm_type.VM_FILE then s
    else
      let count := p.mapped_page_count
      do_munmap_loop other_destroy count.toNat s addr

/-- Modelled from the spec: the first fault on a pending page, which turns the
descriptor registered at `va` into its target variant (for a file-backed
target through `file_backed_initializer`) and installs its mapping. -/
def fault_in (s : vm_state) (va : Nat) : vm_state :=
  { s with spt := s.spt.map (fun p =>
      if p.va == va ∧ p.operations = vm_type.VM_UNINIT ∧ p.uninit_type = vm_type.VM_FILE
      then file_backed_initializer p else p),
           present := va :: s.present }

/-- The state of a thread that has mapped no page. -/
def empty_vm : vm_state :=
  { spt := [], dirty := [], present := [], writes := [], destroyed := [], reads := [] }

/-- The state after `do_mmap`, when it returned. -/
def mmap_result.state : mmap_result → vm_state
  | mmap_result.returned s _ => s
  | _ => empty_vm

/-- The state after the example call
`do_mmap (65536, 5000, writable, file, 0)` on a thread without pages, for a
file of 10000 bytes reopened as handle 7. -/
def mapped_example : vm_state :=
  (do_mmap 10 (fun _ => true) 7 10000 empty_vm 65536 5000 true 0).state

/-! ## Hash functions of lib/kernel/hash.c -/

/-- The macro `FNV_64_PRIME`. -/
def FNV_64_PRIME : Nat := 0x00000100000001B3

/-- The macro `FNV_64_BASIS`. -/
def FNV_64_BASIS : Nat := 0xcbf29ce484222325

/-- The loop `while (size-- > 0) hash = (hash * FNV_64_PRIME) ^ *buf++;` of
`hash_bytes` on `uint64_t`: the list is the memory from `buf` on, one
`unsigned char` an entry, and `*buf++` takes its head.  Reading past the
modelled memory is outside the model and ends the loop. -/
def hash_bytes_loop : List Nat → Nat → Nat → Nat
  | _, 0, hash => hash
  | [], _ + 1, hash => hash
  | b :: buf, size + 1, hash =>
    hash_bytes_loop buf size (((hash * FNV_64_PRIME) % SIZE_MOD) ^^^ (b % 256))

/-- The function `hash_bytes`. -/
def hash_bytes (buf : List Nat) (size : Nat) : Nat :=
  hash_bytes_loop buf size FNV_64_BASIS

/-- The loop `while (*s != 0) hash = (hash * FNV_64_PRIME) ^ *s++;` of
`hash_string`; `none` when the modelled memory holds no terminator. -/
def hash_string_loop : List Nat → Nat → Option Nat
  | [], _ => none
  | c :: s, hash =>
    if c % 256 = 0 then some hash
    else hash_string_loop s (((hash * FNV_64_PRIME) % SIZE_MOD) ^^^ (c % 256))

/-- The function `hash_string`. -/
def hash_string (s : List Nat) : Option Nat :=
  hash_string_loop s FNV_64_BASIS

/-- The four bytes of an `int` in memory (two's complement, least significant
byte first, as on x86-64). -/
def int_bytes (i : Int) : List Nat :=
  let u := (i % 4294967296).toNat
  [u % 256, u / 256 % 256, u / 65536 % 256, u / 16777216 % 256]

/-- The function `hash_int`: `hash_bytes (&i, sizeof i)`. -/
def hash_int (i : Int) : Nat :=
  hash_bytes (int_bytes i) 4

/-- The 64-bit FNV-1 hash of a byte sequence: from the offset basis, for each
byte in order, multiply by the prime modulo `2 ^ 64`, then XOR the byte in. -/
def fnv1_64 (bytes : List Nat) : Nat :=
  bytes.foldl (fun hash b => ((hash * FNV_64_PRIME) % SIZE_MOD) ^^^ b) FNV_64_BASIS

/-- The 64-bit FNV-1a hash of a byte sequence: from the offset basis, for each
byte in order, XOR the byte in, then multiply by the prime modulo `2 ^ 64`. -/
def fnv1a_64 (bytes : List Nat) : Nat :=
  bytes.foldl (fun hash b => ((hash ^^^ b) * FNV_64_PRIME) % SIZE_MOD) FNV_64_BASIS

/-! ## vm/file.c: swap operations and the pages of a mapping -/

/-- The function `file_backed_swap_in`: its body declares a buffer and ends, so
it issues no call, changes nothing and returns no value (`none`). -/
def file_backed_swap_in (s : vm_state) (_page : page) (_kva : Nat) : vm_state × Option Bool :=
  (s, none)

/-- The function `file_backed_swap_out`: its body ends at once, so it issues no
call, changes nothing and returns no value (`none`). -/
def file_backed_swap_out (s : vm_state) (_page : page) : vm_state × Option Bool :=
  (s, none)

/-- The descriptor `vm_alloc_page_with_initializer` registers for a file-backed
target. -/
def pending_file_page (va : Nat) (writable : Bool) (aux : lazy_load_arg) : page :=
  { va := va, operations := vm_type.VM_UNINIT, uninit_type := vm_type.VM_FILE,
    uninit_aux := aux, file := { file := 0, ofs := 0, read_bytes := 0, zero_bytes := 0 },
    writable := writable, mapped_page_count := 0 }

/-- The descriptors `n` iterations of the loop of `do_mmap` register, from the
loop variables `addr`, `offset` and `read_bytes`, in the arithmetic of the
loop. -/
def mmap_pages (writable : Bool) (f : Nat) : Nat → Nat → Int → Nat → List page
  | 0, _, _, _ => []
  | n + 1, addr, offset, read_bytes =>
    let page_read_bytes := if read_bytes < PGSIZE then read_bytes else PGSIZE
    pending_file_page addr writable
        { file := f, ofs := offset, read_bytes := page_read_bytes,
          zero_bytes := size_sub PGSIZE page_read_bytes } ::
      mmap_pages writable f n ((addr + PGSIZE) % SIZE_MOD) (to_int32 (offset + page_read_bytes))
        (size_sub read_bytes page_read_bytes)

/-- The value `do_mmap` computes for `total_page_count`, as an `int`. -/
def mmap_page_count (length : Nat) : Int :=
  to_int32 (if length ≤ PGSIZE then 1
    else if length % PGSIZE ≠ 0 then (length / PGSIZE + 1) % SIZE_MOD else length / PGSIZE)

/-- The quotient `length / PGSIZE` rounded up. -/
def pages_ceil (length : Nat) : Nat :=
  (length + PGSIZE - 1) / PGSIZE

/-- The state after the example call `do_mmap (65536, 4096, writable, file, 0)`
on a thread without pages, for a file of 10000 bytes reopened as handle 7. -/
def mapped_one_page : vm_state :=
  (do_mmap 10 (fun _ => true) 7 10000 empty_vm 65536 4096 true 0).state

/-- The state after the example call `do_mmap (65536, 4097, writable, file, 0)`
on a thread without pages, for a file of 100 bytes reopened as handle 7. -/
def mapped_short_file : vm_state :=
  (do_mmap 10 (fun _ => true) 7 100 empty_vm 65536 4097 true 0).state

/-- A state with one resident, dirty, file-backed page at 65536 backed by
4096 bytes at offset 0 of file 7. -/
def dirty_example : vm_state :=
  { spt := [{ va := 65536, operations := vm_type.VM_FILE, uninit_type := vm_type.VM_FILE,
              uninit_aux := { file := 7, ofs := 0, read_bytes := 4096, zero_bytes := 0 },
              file := { file := 7, ofs := 0, read_bytes := 4096, zero_bytes := 0 },
              writable := true, mapped_page_count := 1 }],
    dirty := [65536], present := [65536], writes := [], destroyed := [], reads := [] }

/-- The page of `dirty_example`. -/
def dirty_page : page :=
  { va := 65536, operations := vm_type.VM_FILE, uninit_type := vm_type.VM_FILE,
    uninit_aux := { file := 7, ofs := 0, read_bytes := 4096, zero_bytes := 0 },
    file := { file := 7, ofs := 0, read_bytes := 4096, zero_bytes := 0 },
    writable := true, mapped_page_count := 1 }

/-- The descriptors `l` are registered at addresses that are pairwise distinct
and at which the page table of `s` holds no descriptor. -/
def fresh_pages (s : vm_state) (l : List page) : Prop :=
  (∀ p ∈ l, spt_find_page s p.va = none) ∧ (l.map (fun p => p.va)).Nodup

/-- The descriptor registered at 65536 in `mapped_example`: pending, with the
page count 2. -/
def mapped_example_first : page :=
  { pending_file_page 65536 true { file := 7, ofs := 0, read_bytes := 4096, zero_bytes := 0 }
    with mapped_page_count := 2 }

/-! ## The calls of `rehash` -/

/-- The table an operation called on `h` hands to `rehash`, as the statements
before the call `rehash (h)` in `hash_insert`, `hash_replace` and `hash_delete`
leave it; `none` when the operation does not call `rehash` (`hash_delete`
without a match, `hash_clear`). -/
def rehash_arg (h : Hash α) : Op α → Option (Hash α)
  | .insert new _ =>
    let bucket := find_bucket h new
    let old := find_elem h bucket (some new)
    some (if old = none then insert_elem h bucket new else h)
  | .replace new _ =>
    let bucket := find_bucket h new
    let old := find_elem h bucket (some new)
    let h := match old with
      | some o => remove_elem h o
      | none => h
    some (insert_elem h bucket new)
  | .delete e _ =>
    match find_elem h (find_bucket h e) (some e) with
    | some f => some (remove_elem h f)
    | none => none
  | .clear _ => none

/-- The outcome of the allocation an operation meets in `rehash`. -/
def Op.malloc_ok : Op α → Bool
  | .insert _ ok => ok
  | .replace _ ok => ok
  | .delete _ ok => ok
  | .clear _ => true

/-! ## lib/string.c -/

/-- The assignment `*p = v` of an `unsigned char`: a memory gives the byte
stored at every address. -/
def store_byte (m : Nat → Nat) (p v : Nat) : Nat → Nat :=
  fun x => if x = p then v else m x

/-- The loop `while (size-- > 0) *dst++ = *src++;` of `memcpy` and of
`memmove`: the memory afterwards and the final value of `dst`. -/
def copy_forward : Nat → (Nat → Nat) → Nat → Nat → (Nat → Nat) × Nat
  | 0, m, dst, _ => (m, dst)
  | size + 1, m, dst, src =>
    copy_forward size (store_byte m dst (m src)) ((dst + 1) % SIZE_MOD) ((src + 1) % SIZE_MOD)

/-- The loop `while (size-- > 0) *--dst = *--src;` of `memmove`: the memory
afterwards and the final value of `dst`. -/
def copy_backward : Nat → (Nat → Nat) → Nat → Nat → (Nat → Nat) × Nat
  | 0, m, dst, _ => (m, dst)
  | size + 1, m, dst, src =>
    copy_backward size (store_byte m (size_pred dst) (m (size_pred src)))
      (size_pred dst) (size_pred src)

/-- The function `memcpy`: the memory afterwards and the returned pointer;
`none` when an assertion fails. -/
def memcpy (m : Nat → Nat) (dst_ src_ size : Nat) : Option ((Nat → Nat) × Nat) :=
  let dst := dst_
  let src := src_
  if ¬ (dst ≠ 0 ∨ size = 0) then none
  else if ¬ (src ≠ 0 ∨ size = 0) then none
  else some ((copy_forward size m dst src).1, dst_)

/-- The function `memmove`: the memory afterwards and the returned pointer,
which is the final value of the local `dst`; `none` when an assertion fails. -/
def memmove (m : Nat → Nat) (dst_ src_ size : Nat) : Option ((Nat → Nat) × Nat) :=
  let dst := dst_
  let src := src_
  if ¬ (dst ≠ 0 ∨ size = 0) then none
  else if ¬ (src ≠ 0 ∨ size = 0) then none
  else if dst < src then some (copy_forward size m dst src)
  else some (copy_backward size m ((dst + size) % SIZE_MOD) ((src + size) % SIZE_MOD))

/-- An example memory: the byte at address `a` is `7 * a` modulo 256. -/
def example_memory : Nat → Nat :=
  fun a => (7 * a) % 256

/-- What a caller sees of a call of `memmove` or `memcpy`: the returned pointer
and the bytes at the four addresses from `p` on. -/
def returned_and_bytes (r : Option ((Nat → Nat) × Nat)) (p : Nat) : Option (Nat × List Nat) :=
  r.map (fun x => (x.2, [x.1 p, x.1 (p + 1), x.1 (p + 2), x.1 (p + 3)]))

/-! ## vm/file.c: the counters of the loop of `do_mmap` -/

/-- The initial value of `read_bytes` in `do_mmap`:
`file_length (f) < length ? file_length (f) : length`. -/
def mmap_read_bytes (file_length length : Nat) : Nat :=
  if file_length < length then file_length else length

/-- The values of `read_bytes` and `zero_bytes` at the successive tests of the
condition of the loop of `do_mmap`: the loop of `do_mmap_loop`, step for step,
recording the two counters at every test instead of the outcome. -/
def do_mmap_loop_counters (alloc_ok : Nat → Bool) (start_addr : Nat) (total_page_count : Int)
    (writable : Bool) (f : Nat) :
    Nat → vm_state → Nat → Nat → Nat → Int → List (Nat × Nat)
  | 0, _, read_bytes, zero_bytes, _, _ => [(read_bytes, zero_bytes)]
  | fuel + 1, s, read_bytes, zero_bytes, addr, offset =>
    if read_bytes > 0 ∨ zero_bytes > 0 then
      let page_read_bytes := if read_bytes < PGSIZE then read_bytes else PGSIZE
      let page_zero_bytes := size_sub PGSIZE page_read_bytes
      let aux : lazy_load_arg :=
        { file := f, ofs := offset, read_bytes := page_read_bytes,
          zero_bytes := page_zero_bytes }
      match vm_alloc_page_with_initializer (alloc_ok addr) s vm_type.VM_FILE addr writable aux with
      | (_, false) => [(read_bytes, zero_bytes)]
      | (s1, true) =>
        (read_bytes, zero_bytes) ::
          do_mmap_loop_counters alloc_ok start_addr total_page_count writable f fuel
            (set_mapped_page_count s1 start_addr total_page_count)
            (size_sub read_bytes page_read_bytes) (size_sub zero_bytes page_zero_bytes)
            ((addr + PGSIZE) % SIZE_MOD) (to_int32 (offset + page_read_bytes))
    else [(read_bytes, zero_bytes)]

/-- The counters of the loop in a call of `do_mmap`; no test is made when an
assertion fails. -/
def do_mmap_counters (fuel : Nat) (alloc_ok : Nat → Bool) (f file_length : Nat) (s : vm_state)
    (addr length : Nat) (writable : Bool) (offset : Int) : List (Nat × Nat) :=
  let start_addr := addr
  let total_page_count : Int :=
    to_int32 (if length ≤ PGSIZE then 1
      else if length % PGSIZE ≠ 0 then (length / PGSIZE + 1) % SIZE_MOD else length / PGSIZE)
  let read_bytes := if file_length < length then file_length else length
  let zero_bytes := size_sub PGSIZE (read_bytes % PGSIZE)
  if (read_bytes + zero_bytes) % SIZE_MOD % PGSIZE ≠ 0 then []
  else if addr % PGSIZE ≠ 0 then []
  else if offset % PGSIZE ≠ 0 then []
  else
    do_mmap_loop_counters alloc_ok start_addr total_page_count writable f fuel s read_bytes
      zero_bytes addr offset

/-- The subtractions `read_bytes -= page_read_bytes` and
`zero_bytes -= page_zero_bytes` of an iteration entered with the counters `c`
(and `PGSIZE - page_read_bytes` before them) stay at or above zero. -/
def no_underflow (c : Nat × Nat) : Prop :=
  let page_read_bytes := if c.1 < PGSIZE then c.1 else PGSIZE
  let page_zero_bytes := size_sub PGSIZE page_read_bytes
  page_read_bytes ≤ PGSIZE ∧ page_read_bytes ≤ c.1 ∧ page_zero_bytes ≤ c.2

instance (c : Nat × Nat) : Decidable (no_underflow c) := by
  unfold no_underflow
  exact inferInstance

/-! ## Arithmetic of the bucket count -/

theorem testBit_top {x k : Nat} (h1 : 2 ^ k ≤ x) (h2 : x < 2 ^ (k + 1)) : x.testBit k = true := by
  rw [Nat.testBit_to_div_mod]
  have h3 : x / 2 ^ k = 1 := by
    apply Nat.div_eq_of_lt_le
    · simpa using h1
    · rw [pow_succ] at h2; omega
  simp [h3]

theorem turn_off_eq {x : Nat} (h0 : 0 < x) :
    turn_off_least_1bit x = x &&& (x - 1) := by
  unfold turn_off_least_1bit size_pred
  rw [if_neg (by omega)]

theorem and_pred_pow (k : Nat) : 2 ^ k &&& (2 ^ k - 1) = 0 := by
  rw [Nat.and_pow_two_sub_one_eq_mod, Nat.mod_self]

theorem and_pred_bounds {x k : Nat} (h1 : 2 ^ k < x) (h2 : x < 2 ^ (k + 1)) :
    2 ^ k ≤ x &&& (x - 1) ∧ x &&& (x - 1) < x := by
  constructor
  · apply Nat.testBit_implies_ge
    rw [Nat.testBit_and, testBit_top (Nat.le_of_lt h1) h2, testBit_top (by omega) (by omega)]
    rfl
  · have := @Nat.and_le_right x (x - 1)
    omega

theorem is_power_of_2_iff {x k : Nat} (h1 : 2 ^ k ≤ x) (h2 : x < 2 ^ (k + 1)) :
    is_power_of_2 x = true ↔ x = 2 ^ k := by
  have hpos : 0 < x := lt_of_lt_of_le (Nat.two_pow_pos _) h1
  unfold is_power_of_2
  rw [turn_off_eq hpos]
  constructor
  · intro h
    simp only [Bool.and_eq_true, bne_iff_ne, ne_eq, beq_iff_eq] at h
    by_contra hne
    have := (and_pred_bounds (lt_of_le_of_ne h1 (Ne.symm hne)) h2).1
    omega
  · rintro rfl
    simp [and_pred_pow]

theorem rehash_round_eq {k : Nat} : ∀ (fuel x : Nat), x ≤ fuel → 2 ^ k ≤ x →
    x < 2 ^ (k + 1) → rehash_round fuel x = 2 ^ k := by
  intro fuel
  induction fuel with
  | zero =>
    intro x hf h1 _
    have : 0 < 2 ^ k := Nat.two_pow_pos _
    omega
  | succ n ih =>
    intro x hf h1 h2
    have hpos : 0 < x := lt_of_lt_of_le (Nat.two_pow_pos _) h1
    unfold rehash_round
    by_cases hp : is_power_of_2 x = true
    · rw [if_pos hp]; exact (is_power_of_2_iff h1 h2).1 hp
    · rw [if_neg hp]
      have hne : x ≠ 2 ^ k := fun h => hp ((is_power_of_2_iff h1 h2).2 h)
      have hb := and_pred_bounds (lt_of_le_of_ne h1 (Ne.symm hne)) h2
      rw [turn_off_eq hpos]
      exact ih _ (by omega) hb.1 (by omega)

/-- The bucket count `rehash` aims at is the largest power of two that does
not exceed `max (elem_cnt / 2) 4`. -/
theorem rehash_target_spec (n : Nat) :
    ∃ k, rehash_target n = 2 ^ k ∧ 2 ≤ k ∧ 2 ^ k ≤ max (n / 2) 4 ∧ max (n / 2) 4 < 2 ^ (k + 1) := by
  set m := max (n / 2) 4 with hm
  have hm4 : 4 ≤ m := le_max_right _ _
  have htgt : rehash_target n = rehash_round m m := by
    unfold rehash_target BEST_ELEMS_PER_BUCKET
    simp only
    by_cases h : n / 2 < 4
    · rw [if_pos h, hm, max_eq_right (le_of_lt h)]
    · rw [if_neg h, hm, max_eq_left (by omega)]
  refine ⟨Nat.log 2 m, ?_, ?_, ?_, ?_⟩
  · rw [htgt]
    exact rehash_round_eq m m le_rfl (Nat.pow_log_le_self 2 (by omega))
      (Nat.lt_pow_succ_log_self (by decide) m)
  · have : Nat.log 2 4 ≤ Nat.log 2 m := Nat.log_mono_right hm4
    have h4 : Nat.log 2 4 = 2 := by
      rw [show (4 : Nat) = 2 ^ 2 by norm_num, Nat.log_pow (by decide)]
    omega
  · exact Nat.pow_log_le_self 2 (by omega)
  · exact Nat.lt_pow_succ_log_self (by decide) m

/-! ## Bucket arrays -/

theorem bucket_at_mem_flatten {bs : List (List α)} {i : Nat} {e : α}
    (h : e ∈ bucket_at bs i) : e ∈ bs.flatten := by
  unfold bucket_at at h
  rw [List.getD_eq_getElem?_getD] at h
  cases hi : bs[i]? with
  | none => simp [hi] at h
  | some b =>
    simp only [hi, Option.getD_some] at h
    exact List.mem_flatten.2 ⟨b, List.getElem?_mem hi, h⟩

theorem mem_flatten_bucket_at {bs : List (List α)} {e : α} (h : e ∈ bs.flatten) :
    ∃ i, i < bs.length ∧ e ∈ bucket_at bs i := by
  obtain ⟨b, hb, he⟩ := List.mem_flatten.1 h
  obtain ⟨i, hi, rfl⟩ := List.getElem_of_mem hb
  refine ⟨i, hi, ?_⟩
  unfold bucket_at
  rw [List.getD_eq_getElem?_getD, List.getElem?_eq_getElem hi]
  exact he

theorem bucket_at_of_le {bs : List (List α)} {i : Nat} (h : bs.length ≤ i) :
    bucket_at bs i = [] := by
  unfold bucket_at
  rw [List.getD_eq_getElem?_getD, List.getElem?_eq_none h]
  rfl

theorem length_push_front (bs : List (List α)) (i : Nat) (e : α) :
    (list_push_front bs i e).length = bs.length := by
  simp [list_push_front]

theorem bucket_at_push_front (bs : List (List α)) (i j : Nat) (e : α) :
    bucket_at (list_push_front bs i e) j =
      if i = j ∧ i < bs.length then e :: bucket_at bs i else bucket_at bs j := by
  unfold list_push_front bucket_at
  simp only [List.getD_eq_getElem?_getD, List.getElem?_set]
  by_cases hij : i = j
  · subst hij
    by_cases hlt : i < bs.length
    · simp [hlt]
    · simp [hlt, List.getElem?_eq_none (Nat.le_of_not_lt hlt)]
  · simp [hij]

theorem flatten_push_front : ∀ (bs : List (List α)) (i : Nat) (e : α), i < bs.length →
    List.Perm (list_push_front bs i e).flatten (e :: bs.flatten)
  | [], i, e, h => by simp at h
  | b :: bs, 0, e, _ => by
    simp [list_push_front, bucket_at]
  | b :: bs, i + 1, e, h => by
    have ih := flatten_push_front bs i e (by simpa using h)
    have : list_push_front (b :: bs) (i + 1) e = b :: list_push_front bs i e := by
      simp [list_push_front, bucket_at]
    rw [this, List.flatten_cons, List.flatten_cons]
    exact (List.Perm.append_left b ih).trans (List.perm_middle)

theorem length_list_remove (bs : List (List α)) (e : α) :
    (list_remove bs e).length = bs.length := by
  simp [list_remove]

theorem bucket_at_list_remove (bs : List (List α)) (e : α) (j : Nat) :
    bucket_at (list_remove bs e) j = (bucket_at bs j).erase e := by
  unfold list_remove bucket_at
  simp only [List.getD_eq_getElem?_getD, List.getElem?_map]
  cases bs[j]? <;> simp

theorem flatten_list_remove (bs : List (List α)) (e : α) (hnd : bs.flatten.Nodup) :
    (list_remove bs e).flatten = bs.flatten.erase e := by
  induction bs with
  | nil => simp [list_remove]
  | cons b bs ih =>
    have hnd2 := List.nodup_append.1 (by simpa using hnd)
    have ih2 := ih hnd2.2.1
    simp only [list_remove, List.map_cons, List.flatten_cons] at ih2 ⊢
    rw [ih2]
    by_cases hb : e ∈ b
    · rw [List.erase_append_left _ hb]
      have : e ∉ bs.flatten := fun h => hnd2.2.2 hb h
      rw [List.erase_of_not_mem this]
    · rw [List.erase_append_right _ hb, List.erase_of_not_mem hb]

/-- Relinking a list of elements into a bucket array. -/
theorem foldl_push_front_spec (idx : α → Nat) : ∀ (es : List α) (bs : List (List α)),
    (∀ e ∈ es, idx e < bs.length) →
    let r := es.foldl (fun bs e => list_push_front bs (idx e) e) bs
    r.length = bs.length ∧ List.Perm r.flatten (es ++ bs.flatten) ∧
      ∀ j x, x ∈ bucket_at r j → x ∈ bucket_at bs j ∨ (x ∈ es ∧ idx x = j)
  | [], bs, _ => by simp
  | e :: es, bs, h => by
    have he : idx e < bs.length := h e (List.mem_cons_self _ _)
    have ih := foldl_push_front_spec idx es (list_push_front bs (idx e) e) (by
      intro x hx; rw [length_push_front]; exact h x (List.mem_cons_of_mem _ hx))
    simp only [List.foldl_cons]
    simp only at ih
    obtain ⟨h1, h2, h3⟩ := ih
    refine ⟨by rw [h1, length_push_front], ?_, ?_⟩
    · refine h2.trans ?_
      refine (List.Perm.append_left es (flatten_push_front bs _ e he)).trans ?_
      exact List.perm_middle
    · intro j x hx
      rcases h3 j x hx with h4 | ⟨h4, h5⟩
      · rw [bucket_at_push_front] at h4
        split at h4
        · rename_i hc
          rcases List.mem_cons.1 h4 with rfl | h6
          · exact Or.inr ⟨List.mem_cons_self _ _, hc.1⟩
          · exact Or.inl (hc.1 ▸ h6)
        · exact Or.inl h4
      · exact Or.inr ⟨List.mem_cons_of_mem _ h4, h5⟩

theorem range_foldl_bucket_at {β : Type} (f : β → List α → β) :
    ∀ (old : List (List α)) (init : β),
      (List.range old.length).foldl (fun acc i => f acc (bucket_at old i)) init = old.foldl f init := by
  intro old
  induction old using List.reverseRecOn with
  | nil => intro init; simp
  | append_singleton l b ih =>
    intro init
    rw [List.length_append, List.length_singleton, List.range_succ, List.foldl_append,
      List.foldl_append]
    have h1 : (List.range l.length).foldl (fun acc i => f acc (bucket_at (l ++ [b]) i)) init
        = (List.range l.length).foldl (fun acc i => f acc (bucket_at l i)) init := by
      apply List.foldl_ext
      intro acc i hi
      have hi2 : i < l.length := List.mem_range.1 hi
      simp [bucket_at, List.getD_eq_getElem?_getD, List.getElem?_append_left hi2]
    rw [h1, ih]
    simp [bucket_at, List.getD_eq_getElem?_getD]

/-! ## The invariant under the primitive steps -/

theorem size_pred_mod (n : Nat) (hn : 0 < n) :
    size_pred (n % SIZE_MOD) = (n - 1) % SIZE_MOD := by
  have hM : 0 < SIZE_MOD := Nat.two_pow_pos 64
  unfold size_pred
  by_cases h0 : n % SIZE_MOD = 0
  · rw [if_pos h0]
    obtain ⟨q, hq⟩ := Nat.dvd_of_mod_eq_zero h0
    have hq0 : 0 < q := by
      rcases Nat.eq_zero_or_pos q with h | h
      · rw [h, Nat.mul_zero] at hq; omega
      · exact h
    have h1 : n - 1 = (SIZE_MOD - 1) + SIZE_MOD * (q - 1) := by
      rw [hq, Nat.mul_sub, Nat.mul_one]
      have : SIZE_MOD ≤ SIZE_MOD * q := Nat.le_mul_of_pos_right _ hq0
      omega
    rw [h1, Nat.add_mul_mod_self_left, Nat.mod_eq_of_lt (by omega)]
  · rw [if_neg h0]
    have h1 : SIZE_MOD * (n / SIZE_MOD) + n % SIZE_MOD = n := Nat.div_add_mod n SIZE_MOD
    have h3 : n % SIZE_MOD < SIZE_MOD := Nat.mod_lt _ hM
    generalize n % SIZE_MOD = r at h0 h1 h3 ⊢
    generalize ht : SIZE_MOD * (n / SIZE_MOD) = t at h1
    have h2 : n - 1 = (r - 1) + t := by omega
    rw [h2, ← ht, Nat.add_mul_mod_self_left, Nat.mod_eq_of_lt (by omega)]

theorem equiv_refl {h : Hash α} (hs : StrictWeakOrder h.less) (a : α) : equiv h a a = true := by
  simp [equiv, hs.irrefl]

theorem equiv_symm {h : Hash α} {a b : α} (hab : equiv h a b = true) : equiv h b a = true := by
  simp only [equiv, Bool.and_eq_true, Bool.not_eq_true'] at hab ⊢
  exact ⟨hab.2, hab.1⟩

theorem equiv_trans {h : Hash α} (hs : StrictWeakOrder h.less) {a b c : α}
    (hab : equiv h a b = true) (hbc : equiv h b c = true) : equiv h a c = true := by
  simp only [equiv, Bool.and_eq_true, Bool.not_eq_true'] at hab hbc ⊢
  exact hs.incomp_trans a b c hab.1 hab.2 hbc.1 hbc.2

theorem find_bucket_eq_mod {h : Hash α} {k : Nat} (hb : h.bucket_cnt = 2 ^ k)
    (e : α) : find_bucket h e = h.hash e % SIZE_MOD % 2 ^ k := by
  unfold find_bucket size_pred
  have hpos : 0 < 2 ^ k := Nat.two_pow_pos k
  rw [hb, if_neg (by omega), Nat.and_pow_two_sub_one_eq_mod]

theorem find_bucket_lt {h : Hash α} (hp : ∃ k, 2 ≤ k ∧ k < 64 ∧ h.bucket_cnt = 2 ^ k) (e : α) :
    find_bucket h e < h.bucket_cnt := by
  obtain ⟨k, _, _, hb⟩ := hp
  rw [find_bucket_eq_mod hb, hb]
  exact Nat.mod_lt _ (Nat.two_pow_pos k)

theorem find_bucket_congr {h g : Hash α} (hh : g.hash = h.hash) (hb : g.bucket_cnt = h.bucket_cnt)
    (e : α) : find_bucket g e = find_bucket h e := by
  simp [find_bucket, hh, hb]

theorem find_bucket_equiv {h : Hash α} (hi : Inv h) {a b : α} (hab : equiv h a b = true) :
    find_bucket h a = find_bucket h b := by
  simp [find_bucket, hi.hash_compat a b hab]

theorem find_elem_some {h : Hash α} {e x : α} {i : Nat}
    (hf : find_elem h i (some e) = some x) : x ∈ bucket_at h.buckets i ∧ equiv h x e = true := by
  simp only [find_elem] at hf
  exact ⟨List.mem_of_find?_eq_some hf, by simpa [equiv] using List.find?_some hf⟩

theorem find_elem_none {h : Hash α} (hi : Inv h) {e : α}
    (hf : find_elem h (find_bucket h e) (some e) = none) : ∀ x ∈ elems h, equiv h x e = false := by
  intro x hx
  obtain ⟨i, _, hxi⟩ := mem_flatten_bucket_at hx
  by_contra hne
  have heq : equiv h x e = true := by simpa using hne
  have hb : find_bucket h e = i := by
    rw [← find_bucket_equiv hi heq]; exact hi.placed i x hxi
  simp only [find_elem, List.find?_eq_none] at hf
  have := hf x (hb ▸ hxi)
  simp only [equiv] at heq
  simp [heq] at this

/-- In a table satisfying the invariant, the lookup of `e` in its bucket finds
exactly the one element equivalent to `e`, if there is one. -/
theorem find_elem_of_mem {h : Hash α} (hi : Inv h) {e x : α} (hx : x ∈ elems h)
    (hxe : equiv h x e = true) : find_elem h (find_bucket h e) (some e) = some x := by
  cases hf : find_elem h (find_bucket h e) (some e) with
  | none => have := find_elem_none hi hf x hx; simp [hxe] at this
  | some y =>
    obtain ⟨hy, hye⟩ := find_elem_some hf
    have hyx : equiv h y x = true := equiv_trans hi.swo hye (equiv_symm hxe)
    rw [hi.noequiv y (bucket_at_mem_flatten hy) x hx hyx]

theorem Inv_init_table (hash : α → Nat) (less : α → α → Bool) (hs : StrictWeakOrder less)
    (hc : ∀ a b, less a b = false → less b a = false → hash a = hash b) :
    Inv (init_table hash less) where
  swo := hs
  hash_compat := by
    intro a b hab
    simp only [equiv, init_table, Bool.and_eq_true, Bool.not_eq_true'] at hab
    exact hc a b hab.1 hab.2
  pow2 := ⟨2, le_rfl, by decide, rfl⟩
  len := rfl
  placed := by
    intro i e he
    have := bucket_at_mem_flatten he
    simp [init_table] at this
  nodup := by simp [elems, init_table]
  noequiv := by simp [elems, init_table]
  cnt := by simp [elems, init_table]

theorem Inv_insert_elem {h : Hash α} (hi : Inv h) (new : α)
    (hfresh : ∀ x ∈ elems h, equiv h x new = false) :
    Inv (insert_elem h (find_bucket h new) new) ∧
      List.Perm (elems (insert_elem h (find_bucket h new) new)) (new :: elems h) := by
  have hlt : find_bucket h new < h.buckets.length := by
    rw [hi.len]; exact find_bucket_lt hi.pow2 new
  have hperm : List.Perm (elems (insert_elem h (find_bucket h new) new)) (new :: elems h) :=
    flatten_push_front h.buckets _ new hlt
  have hnew : new ∉ elems h := fun hm => by
    have := hfresh new hm
    rw [equiv_refl hi.swo] at this
    exact Bool.noConfusion this
  refine ⟨?_, hperm⟩
  exact {
    swo := hi.swo
    hash_compat := hi.hash_compat
    pow2 := hi.pow2
    len := by simp [insert_elem, length_push_front, hi.len]
    placed := by
      intro i e he
      simp only [insert_elem, bucket_at_push_front] at he
      have hfb : ∀ x, find_bucket (insert_elem h (find_bucket h new) new) x = find_bucket h x :=
        fun x => rfl
      rw [hfb]
      split at he
      · rename_i hc
        rcases List.mem_cons.1 he with rfl | he2
        · exact hc.1
        · rw [← hc.1]; exact hi.placed _ e he2
      · exact hi.placed i e he
    nodup := hperm.nodup_iff.2 (List.nodup_cons.2 ⟨hnew, hi.nodup⟩)
    noequiv := by
      intro a ha b hb hab
      have hab2 : equiv h a b = true := hab
      rcases List.mem_cons.1 (hperm.mem_iff.1 ha) with rfl | ha2
      · rcases List.mem_cons.1 (hperm.mem_iff.1 hb) with rfl | hb2
        · rfl
        · have := hfresh b hb2
          rw [equiv_symm hab2] at this
          exact Bool.noConfusion this
      · rcases List.mem_cons.1 (hperm.mem_iff.1 hb) with rfl | hb2
        · have := hfresh a ha2
          rw [hab2] at this
          exact Bool.noConfusion this
        · exact hi.noequiv a ha2 b hb2 hab2
    cnt := by
      rw [hperm.length_eq]
      simp only [insert_elem, hi.cnt, List.length_cons]
      exact Nat.mod_add_mod _ _ _ }

theorem remove_elem_less (h : Hash α) (e : α) : (remove_elem h e).less = h.less := rfl

theorem remove_elem_hash (h : Hash α) (e : α) : (remove_elem h e).hash = h.hash := rfl

theorem remove_elem_bucket_cnt (h : Hash α) (e : α) :
    (remove_elem h e).bucket_cnt = h.bucket_cnt := rfl

theorem remove_elem_equiv (h : Hash α) (e a b : α) :
    equiv (remove_elem h e) a b = equiv h a b := rfl

theorem Inv_remove_elem {h : Hash α} (hi : Inv h) (e : α) (he : e ∈ elems h) :
    Inv (remove_elem h e) ∧ elems (remove_elem h e) = (elems h).erase e := by
  have hel : elems (remove_elem h e) = (elems h).erase e :=
    flatten_list_remove h.buckets e hi.nodup
  have hcnt : (remove_elem h e).elem_cnt = (elems (remove_elem h e)).length % SIZE_MOD := by
    rw [hel, List.length_erase_of_mem he]
    have h0 : (remove_elem h e).elem_cnt = size_pred h.elem_cnt := rfl
    rw [h0, hi.cnt]
    exact size_pred_mod _ (List.length_pos_of_mem he)
  refine ⟨?_, hel⟩
  exact {
    swo := by rw [remove_elem_less]; exact hi.swo
    hash_compat := by
      intro a b hab
      rw [remove_elem_equiv] at hab
      rw [remove_elem_hash]
      exact hi.hash_compat a b hab
    pow2 := by rw [remove_elem_bucket_cnt]; exact hi.pow2
    len := by
      rw [remove_elem_bucket_cnt, ← hi.len]
      exact length_list_remove h.buckets e
    placed := by
      intro i x hx
      have hx2 : x ∈ (bucket_at h.buckets i).erase e := by
        rw [← bucket_at_list_remove]; exact hx
      rw [find_bucket_congr (remove_elem_hash h e) (remove_elem_bucket_cnt h e)]
      exact hi.placed i x (List.mem_of_mem_erase hx2)
    nodup := by rw [hel]; exact hi.nodup.erase e
    noequiv := by
      intro a ha b hb hab
      rw [hel] at ha hb
      rw [remove_elem_equiv] at hab
      exact hi.noequiv a (List.mem_of_mem_erase ha) b (List.mem_of_mem_erase hb) hab
    cnt := hcnt }

theorem elem_cnt_lt {h : Hash α} (hi : Inv h) : h.elem_cnt < SIZE_MOD := by
  rw [hi.cnt]; exact Nat.mod_lt _ (Nat.two_pow_pos 64)

theorem rehash_target_pow2 (n : Nat) (hn : n < SIZE_MOD) :
    ∃ k, 2 ≤ k ∧ k < 64 ∧ rehash_target n = 2 ^ k := by
  obtain ⟨k, h1, h2, h3, _⟩ := rehash_target_spec n
  refine ⟨k, h2, ?_, h1⟩
  have h4 : max (n / 2) 4 < 2 ^ 64 := by
    have h5 : n < 2 ^ 64 := hn
    have h6 : n / 2 < 2 ^ 64 := lt_of_le_of_lt (Nat.div_le_self _ _) h5
    exact max_lt h6 (by norm_num)
  exact (Nat.pow_lt_pow_iff_right (by decide)).1 (lt_of_le_of_lt h3 h4)

/-- The relinking loop of `rehash` on a bucket array of the stated length
pushes every old element, and nothing else, into the bucket its hash selects. -/
theorem rehash_move_spec (h1 : Hash α) (old : List (List α)) (n : Nat)
    (hb : h1.buckets = List.replicate n []) (hidx : ∀ e, find_bucket h1 e < n) :
    (rehash_move h1 old old.length).length = n ∧
      List.Perm (rehash_move h1 old old.length).flatten old.flatten ∧
      ∀ j x, x ∈ bucket_at (rehash_move h1 old old.length) j → find_bucket h1 x = j := by
  have hmove : rehash_move h1 old old.length
      = old.flatten.foldl (fun bs e => list_push_front bs (find_bucket h1 e) e) h1.buckets := by
    unfold rehash_move
    rw [range_foldl_bucket_at
      (fun bs b => b.foldl (fun bs e => list_push_front bs (find_bucket h1 e) e) bs) old h1.buckets,
      List.foldl_flatten]
  have hspec := foldl_push_front_spec (fun e => find_bucket h1 e) old.flatten h1.buckets (by
    intro e _; rw [hb, List.length_replicate]; exact hidx e)
  simp only at hspec
  rw [← hmove] at hspec
  obtain ⟨h2, h3, h4⟩ := hspec
  have hnil : (List.replicate n ([] : List α)).flatten = [] := by
    rw [List.flatten_eq_nil_iff]
    intro l hl
    exact (List.mem_replicate.1 hl).2
  refine ⟨by rw [h2, hb, List.length_replicate], ?_, ?_⟩
  · rw [hb, hnil, List.append_nil] at h3; exact h3
  · intro j x hx
    rcases h4 j x hx with h5 | h5
    · have := bucket_at_mem_flatten h5
      rw [hb, hnil] at this
      exact absurd this (List.not_mem_nil _)
    · exact h5.2

theorem rehash_fields (ok : Bool) (h : Hash α) :
    (rehash ok h).less = h.less ∧ (rehash ok h).hash = h.hash ∧
      (rehash ok h).elem_cnt = h.elem_cnt := by
  unfold rehash
  simp only
  split
  · exact ⟨rfl, rfl, rfl⟩
  · split
    · exact ⟨rfl, rfl, rfl⟩
    · exact ⟨rfl, rfl, rfl⟩

theorem rehash_equiv (ok : Bool) (h : Hash α) (a b : α) :
    equiv (rehash ok h) a b = equiv h a b := by
  unfold equiv; rw [(rehash_fields ok h).1]

/-- The function `rehash` keeps the invariant, the elements and the count. -/
theorem Inv_rehash {h : Hash α} (hi : Inv h) (ok : Bool) :
    Inv (rehash ok h) ∧ List.Perm (elems (rehash ok h)) (elems h) := by
  by_cases hsame : rehash_target h.elem_cnt = h.bucket_cnt
  · have : rehash ok h = h := by unfold rehash; simp only; rw [if_pos hsame]
    rw [this]; exact ⟨hi, List.Perm.refl _⟩
  cases ok with
  | false =>
    have : rehash false h = h := by unfold rehash; simp only; rw [if_neg hsame]; rfl
    rw [this]; exact ⟨hi, List.Perm.refl _⟩
  | true =>
    obtain ⟨k, hk2, hk64, hk⟩ := rehash_target_pow2 h.elem_cnt (elem_cnt_lt hi)
    let h1 : Hash α := { h with buckets := List.replicate (rehash_target h.elem_cnt) [],
                                bucket_cnt := rehash_target h.elem_cnt }
    have hre : rehash true h = { h1 with buckets := rehash_move h1 h.buckets h.bucket_cnt } := by
      unfold rehash; simp only; rw [if_neg hsame]; rfl
    have hidx1 : ∀ e, find_bucket h1 e < h1.bucket_cnt :=
      fun e => find_bucket_lt ⟨k, hk2, hk64, hk⟩ e
    have hidx : ∀ e, find_bucket h1 e < rehash_target h.elem_cnt := hidx1
    have hspec := rehash_move_spec h1 h.buckets (rehash_target h.elem_cnt) rfl hidx
    rw [hi.len] at hspec
    obtain ⟨hlen, hperm, hplaced⟩ := hspec
    have hperm2 : List.Perm (elems (rehash true h)) (elems h) := by
      rw [hre]; exact hperm
    refine ⟨?_, hperm2⟩
    exact {
      swo := by rw [(rehash_fields true h).1]; exact hi.swo
      hash_compat := by
        intro a b hab
        rw [rehash_equiv] at hab
        rw [(rehash_fields true h).2.1]
        exact hi.hash_compat a b hab
      pow2 := by rw [hre]; exact ⟨k, hk2, hk64, hk⟩
      len := by rw [hre]; exact hlen
      placed := by
        rw [hre]
        intro i e he
        exact hplaced i e he
      nodup := hperm2.nodup_iff.2 hi.nodup
      noequiv := by
        intro a ha b hb hab
        rw [rehash_equiv] at hab
        exact hi.noequiv a (hperm2.mem_iff.1 ha) b (hperm2.mem_iff.1 hb) hab
      cnt := by
        rw [(rehash_fields true h).2.2, hperm2.length_eq]; exact hi.cnt }

theorem bucket_at_set (bs : List (List α)) (i j : Nat) (b : List α) :
    bucket_at (bs.set i b) j = if i = j ∧ i < bs.length then b else bucket_at bs j := by
  unfold bucket_at
  simp only [List.getD_eq_getElem?_getD, List.getElem?_set]
  by_cases hij : i = j
  · subst hij
    by_cases hlt : i < bs.length
    · simp [hlt]
    · simp [hlt, List.getElem?_eq_none (Nat.le_of_not_lt hlt)]
  · simp [hij]

theorem bucket_at_eq_getElem (bs : List (List α)) (i : Nat) (hi : i < bs.length) :
    bucket_at bs i = bs[i] := by
  unfold bucket_at
  rw [List.getD_eq_getElem?_getD, List.getElem?_eq_getElem hi]
  rfl

theorem take_succ_flatten (bs : List (List α)) (n : Nat) :
    (bs.take (n + 1)).flatten = (bs.take n).flatten ++ bucket_at bs n := by
  rw [List.take_succ, List.flatten_append]
  unfold bucket_at
  rw [List.getD_eq_getElem?_getD]
  cases bs[n]? <;> simp

/-- The loop of `hash_clear` over the first `n` buckets. -/
theorem hash_clear_loop_spec (d : Bool) (bs : List (List α)) : ∀ n : Nat,
    let r := (List.range n).foldl
      (fun (acc : List (List α) × List α) i =>
        (acc.1.set i [], acc.2 ++ (if d then bucket_at acc.1 i else [])))
      (bs, [])
    r.1.length = bs.length ∧ (∀ i, bucket_at r.1 i = if i < n then [] else bucket_at bs i) ∧
      r.2 = if d then (bs.take n).flatten else [] := by
  intro n
  induction n with
  | zero => simp
  | succ n ih =>
    simp only at ih ⊢
    rw [List.range_succ, List.foldl_append]
    simp only [List.foldl_cons, List.foldl_nil]
    obtain ⟨h1, h2, h3⟩ := ih
    refine ⟨by rw [List.length_set, h1], ?_, ?_⟩
    · intro i
      rw [bucket_at_set, h2 i, h1]
      by_cases hin : n = i
      · subst hin
        by_cases hlt : n < bs.length
        · simp [hlt]
        · simp [hlt, bucket_at_of_le (Nat.le_of_not_lt hlt)]
      · by_cases hlt : i < n
        · simp [hin, hlt, Nat.lt_succ_of_lt hlt]
        · have : ¬ i < n + 1 := by omega
          simp [hin, hlt, this]
    · rw [h3, h2 n]
      cases d with
      | false => simp
      | true => simp [take_succ_flatten]

theorem hash_clear_fold {h : Hash α} (hlen : h.buckets.length = h.bucket_cnt) (d : Bool) :
    (List.range h.bucket_cnt).foldl
      (fun (acc : List (List α) × List α) i =>
        (acc.1.set i [], acc.2 ++ (if d then bucket_at acc.1 i else [])))
      (h.buckets, [])
    = (List.replicate h.bucket_cnt [], if d then elems h else []) := by
  obtain ⟨h1, h2, h3⟩ := hash_clear_loop_spec d h.buckets h.bucket_cnt
  apply Prod.ext
  · apply List.ext_getElem
    · rw [h1, hlen, List.length_replicate]
    · intro i hi1 hi2
      have := h2 i
      rw [List.length_replicate] at hi2
      rw [if_pos hi2] at this
      rw [bucket_at_eq_getElem _ _ hi1] at this
      rw [this]
      exact (List.getElem_replicate _ _).symm
  · rw [h3, ← hlen, List.take_length]
    rfl

theorem hash_clear_eq {h : Hash α} (hlen : h.buckets.length = h.bucket_cnt) (d : Bool) :
    hash_clear h d = ({ elem_cnt := 0, bucket_cnt := h.bucket_cnt,
                        buckets := List.replicate h.bucket_cnt [], hash := h.hash,
                        less := h.less }, if d then elems h else []) := by
  unfold hash_clear
  simp only [hash_clear_fold hlen d]

theorem hash_clear_buckets {h : Hash α} (hlen : h.buckets.length = h.bucket_cnt) (d : Bool) :
    (hash_clear h d).1.buckets = List.replicate h.bucket_cnt [] ∧
      (hash_clear h d).2 = if d then elems h else [] := by
  rw [hash_clear_eq hlen d]
  exact ⟨rfl, rfl⟩

theorem flatten_replicate_nil (n : Nat) : (List.replicate n ([] : List α)).flatten = [] := by
  rw [List.flatten_eq_nil_iff]
  intro l hl
  exact (List.mem_replicate.1 hl).2

theorem hash_clear_elems {h : Hash α} (hlen : h.buckets.length = h.bucket_cnt) (d : Bool) :
    elems (hash_clear h d).1 = [] := by
  unfold elems
  rw [(hash_clear_buckets hlen d).1, flatten_replicate_nil]

theorem Inv_hash_clear {h : Hash α} (hi : Inv h) (d : Bool) : Inv (hash_clear h d).1 where
  swo := hi.swo
  hash_compat := hi.hash_compat
  pow2 := hi.pow2
  len := by
    rw [(hash_clear_buckets hi.len d).1, List.length_replicate]; rfl
  placed := by
    intro i e he
    have := bucket_at_mem_flatten he
    rw [(hash_clear_buckets hi.len d).1, flatten_replicate_nil] at this
    exact absurd this (List.not_mem_nil _)
  nodup := by rw [hash_clear_elems hi.len]; exact List.nodup_nil
  noequiv := by
    intro a ha
    rw [hash_clear_elems hi.len] at ha
    exact absurd ha (List.not_mem_nil _)
  cnt := by
    rw [hash_clear_elems hi.len]; rfl

theorem hash_init_eq (hash : α → Nat) (less : α → α → Bool) :
    hash_init true hash less = some (init_table hash less) := by
  have hlen : (init_table hash less).buckets.length = (init_table hash less).bucket_cnt := rfl
  have hb := hash_clear_eq hlen false
  unfold hash_init
  simp only [if_true]
  show some (hash_clear (init_table hash less) false).1 = _
  rw [hb]
  rfl

/-! ## The invariant under the operations -/

theorem find_elem_eq_some_iff {h : Hash α} (hi : Inv h) (e x : α) :
    find_elem h (find_bucket h e) (some e) = some x ↔ x ∈ elems h ∧ equiv h x e = true := by
  constructor
  · intro hf
    obtain ⟨h1, h2⟩ := find_elem_some hf
    exact ⟨bucket_at_mem_flatten h1, h2⟩
  · rintro ⟨h1, h2⟩
    exact find_elem_of_mem hi h1 h2

theorem find_elem_eq_none_iff {h : Hash α} (hi : Inv h) (e : α) :
    find_elem h (find_bucket h e) (some e) = none ↔ ∀ x ∈ elems h, equiv h x e = false := by
  constructor
  · exact find_elem_none hi
  · intro hall
    cases hf : find_elem h (find_bucket h e) (some e) with
    | none => rfl
    | some y =>
      obtain ⟨h1, h2⟩ := (find_elem_eq_some_iff hi e y).1 hf
      rw [hall y h1] at h2
      exact Bool.noConfusion h2

theorem hash_insert_found {h : Hash α} {new old : α}
    (hf : find_elem h (find_bucket h new) (some new) = some old) (ok : Bool) :
    hash_insert ok h new = (rehash ok h, some old) := by
  unfold hash_insert
  simp only [hf]
  rfl

theorem hash_insert_fresh {h : Hash α} {new : α}
    (hf : find_elem h (find_bucket h new) (some new) = none) (ok : Bool) :
    hash_insert ok h new = (rehash ok (insert_elem h (find_bucket h new) new), none) := by
  unfold hash_insert
  simp only [hf]
  rfl

theorem hash_replace_found {h : Hash α} {new old : α}
    (hf : find_elem h (find_bucket h new) (some new) = some old) (ok : Bool) :
    hash_replace ok h new
      = (rehash ok (insert_elem (remove_elem h old) (find_bucket h new) new), some old) := by
  unfold hash_replace
  simp only [hf]

theorem hash_replace_fresh {h : Hash α} {new : α}
    (hf : find_elem h (find_bucket h new) (some new) = none) (ok : Bool) :
    hash_replace ok h new = (rehash ok (insert_elem h (find_bucket h new) new), none) := by
  unfold hash_replace
  simp only [hf]

theorem hash_delete_found {h : Hash α} {e x : α}
    (hf : find_elem h (find_bucket h e) (some e) = some x) (ok : Bool) :
    hash_delete ok h e = (rehash ok (remove_elem h x), some x) := by
  unfold hash_delete
  simp only [hf]

theorem hash_delete_absent {h : Hash α} {e : α}
    (hf : find_elem h (find_bucket h e) (some e) = none) (ok : Bool) :
    hash_delete ok h e = (h, none) := by
  unfold hash_delete
  simp only [hf]

/-- Removing the element found for `new` leaves no element equivalent to `new`. -/
theorem fresh_after_remove {h : Hash α} (hi : Inv h) {new old : α} (ho : old ∈ elems h)
    (he : equiv h old new = true) :
    ∀ x ∈ elems (remove_elem h old), equiv (remove_elem h old) x new = false := by
  intro x hx
  rw [(Inv_remove_elem hi old ho).2] at hx
  rw [remove_elem_equiv]
  have hx2 := (hi.nodup.mem_erase_iff).1 hx
  by_contra hne
  have hxe : equiv h x new = true := by simpa using hne
  exact hx2.1 (hi.noequiv x hx2.2 old ho (equiv_trans hi.swo hxe (equiv_symm he)))

/-- The table `hash_replace` builds before its `rehash` when it found `old`. -/
theorem replace_core {h : Hash α} (hi : Inv h) {new old : α} (ho : old ∈ elems h)
    (he : equiv h old new = true) :
    Inv (insert_elem (remove_elem h old) (find_bucket h new) new) ∧
      List.Perm (elems (insert_elem (remove_elem h old) (find_bucket h new) new))
        (new :: (elems h).erase old) := by
  obtain ⟨hi2, hel⟩ := Inv_remove_elem hi old ho
  have hfb : find_bucket (remove_elem h old) new = find_bucket h new :=
    find_bucket_congr (remove_elem_hash h old) (remove_elem_bucket_cnt h old) new
  obtain ⟨hi3, hp⟩ := Inv_insert_elem hi2 new (fresh_after_remove hi ho he)
  rw [hfb, hel] at hp
  rw [hfb] at hi3
  exact ⟨hi3, hp⟩

theorem Inv_hash_insert {h : Hash α} (hi : Inv h) (ok : Bool) (new : α) :
    Inv (hash_insert ok h new).1 := by
  cases hf : find_elem h (find_bucket h new) (some new) with
  | none =>
    rw [hash_insert_fresh hf]
    exact (Inv_rehash (Inv_insert_elem hi new ((find_elem_eq_none_iff hi new).1 hf)).1 ok).1
  | some old =>
    rw [hash_insert_found hf]
    exact (Inv_rehash hi ok).1

theorem Inv_hash_replace {h : Hash α} (hi : Inv h) (ok : Bool) (new : α) :
    Inv (hash_replace ok h new).1 := by
  cases hf : find_elem h (find_bucket h new) (some new) with
  | none =>
    rw [hash_replace_fresh hf]
    exact (Inv_rehash (Inv_insert_elem hi new ((find_elem_eq_none_iff hi new).1 hf)).1 ok).1
  | some old =>
    rw [hash_replace_found hf]
    obtain ⟨h1, h2⟩ := (find_elem_eq_some_iff hi new old).1 hf
    exact (Inv_rehash (replace_core hi h1 h2).1 ok).1

theorem Inv_hash_delete {h : Hash α} (hi : Inv h) (ok : Bool) (e : α) :
    Inv (hash_delete ok h e).1 := by
  cases hf : find_elem h (find_bucket h e) (some e) with
  | none => rw [hash_delete_absent hf]; exact hi
  | some x =>
    rw [hash_delete_found hf]
    obtain ⟨h1, _⟩ := (find_elem_eq_some_iff hi e x).1 hf
    exact (Inv_rehash (Inv_remove_elem hi x h1).1 ok).1

theorem Inv_apply {h : Hash α} (hi : Inv h) (op : Op α) : Inv (Op.apply h op) := by
  cases op with
  | insert new ok => exact Inv_hash_insert hi ok new
  | replace new ok => exact Inv_hash_replace hi ok new
  | delete e ok => exact Inv_hash_delete hi ok e
  | clear d => exact Inv_hash_clear hi d

theorem Inv_run {h : Hash α} (hi : Inv h) (ops : List (Op α)) : Inv (run h ops) := by
  induction ops generalizing h with
  | nil => exact hi
  | cons op ops ih => exact ih (Inv_apply hi op)

/-- Every table reachable from `hash_init` satisfies the invariant. -/
theorem Inv_reachable (hash : α → Nat) (less : α → α → Bool) (hs : StrictWeakOrder less)
    (hc : ∀ a b, less a b = false → less b a = false → hash a = hash b) (h0 : Hash α)
    (hinit : hash_init true hash less = some h0) (ops : List (Op α)) : Inv (run h0 ops) := by
  rw [hash_init_eq] at hinit
  cases hinit
  exact Inv_run (Inv_init_table hash less hs hc) ops

theorem hash_find_eq {h : Hash α} (hi : Inv h) (hsmall : (elems h).length < SIZE_MOD) (e : α) :
    (hash_find h e).2 = find_elem h (find_bucket h e) (some e) := by
  unfold hash_find hash_empty
  by_cases h0 : h.elem_cnt = 0
  · have hnil : elems h = [] := by
      rw [hi.cnt, Nat.mod_eq_of_lt hsmall] at h0
      exact List.length_eq_zero.1 h0
    have : find_elem h (find_bucket h e) (some e) = none := by
      rw [find_elem_eq_none_iff hi]
      intro x hx; rw [hnil] at hx; exact absurd hx (List.not_mem_nil _)
    simp [h0, this]
  · simp [h0]

/-! ## Iteration -/

theorem drop_succ_buckets (bs : List (List α)) (b : Nat) (hb : b < bs.length) :
    bs.drop b = bucket_at bs b :: bs.drop (b + 1) := by
  rw [bucket_at_eq_getElem bs b hb]
  exact List.drop_eq_getElem_cons hb

/-- The loop of `hash_next`, entered on the tail sentinel of bucket `b`, stops
on the first element of the next non-empty bucket, or on the null pointer when
there is none. -/
theorem hash_next_loop_tail (h : Hash α) (hlen : h.buckets.length = h.bucket_cnt) :
    ∀ (m b fuel : Nat), h.bucket_cnt - b = m → b < h.bucket_cnt → m + 1 ≤ fuel →
      ((h.buckets.drop (b + 1)).flatten = [] →
        hash_cur h (hash_next_loop h fuel ⟨b, some ((bucket_at h.buckets b).length + 1)⟩)
          = none) ∧
      (∀ x xs, (h.buckets.drop (b + 1)).flatten = x :: xs →
        hash_cur h (hash_next_loop h fuel ⟨b, some ((bucket_at h.buckets b).length + 1)⟩)
          = some x ∧
        valid_iterator h
          (hash_next_loop h fuel ⟨b, some ((bucket_at h.buckets b).length + 1)⟩) ∧
        remaining h (hash_next_loop h fuel ⟨b, some ((bucket_at h.buckets b).length + 1)⟩)
          = xs) := by
  intro m
  induction m with
  | zero => intro b fuel h1 h2 _; omega
  | succ m ih =>
    intro b fuel h1 h2 h3
    obtain ⟨f, rfl⟩ : ∃ f, fuel = f + 1 := ⟨fuel - 1, by omega⟩
    unfold hash_next_loop
    simp only [if_true]
    by_cases hend : b + 1 ≥ h.bucket_cnt
    · rw [if_pos hend]
      have hnil : h.buckets.drop (b + 1) = [] := List.drop_eq_nil_of_le (by omega)
      rw [hnil]
      exact ⟨fun _ => rfl, fun x xs hc => by simp at hc⟩
    · rw [if_neg hend]
      have hb1 : b + 1 < h.buckets.length := by omega
      rw [drop_succ_buckets h.buckets (b + 1) hb1, List.flatten_cons]
      cases hbk : bucket_at h.buckets (b + 1) with
      | nil =>
        have ih2 := ih (b + 1) f (by omega) (by omega) (by omega)
        rw [hbk] at ih2
        simpa using ih2
      | cons y ys =>
        obtain ⟨g, rfl⟩ : ∃ g, f = g + 1 := ⟨f - 1, by omega⟩
        have hstop : hash_next_loop h (g + 1) ⟨b + 1, some 1⟩ = ⟨b + 1, some 1⟩ := by
          unfold hash_next_loop
          simp [hbk]
        rw [hstop]
        refine ⟨fun hc => by simp at hc, ?_⟩
        intro x xs hx
        simp only [List.cons_append, List.cons.injEq] at hx
        refine ⟨?_, ⟨hb1, 1, rfl, by simp [hbk]⟩, ?_⟩
        · simp [hash_cur, hbk, hx.1]
        · simp [remaining, hbk, hx.2]

/-- One call of `hash_next` on a valid cursor returns the next element still to
be visited, if any, and leaves a valid cursor after it. -/
theorem hash_next_spec (h : Hash α) (hlen : h.buckets.length = h.bucket_cnt)
    (i : hash_iterator) (hv : valid_iterator h i) :
    (remaining h i = [] → (hash_next h i).2 = none) ∧
    (∀ x xs, remaining h i = x :: xs →
      (hash_next h i).2 = some x ∧ valid_iterator h (hash_next h i).1 ∧
      remaining h (hash_next h i).1 = xs) := by
  obtain ⟨b, el⟩ := i
  obtain ⟨hb, p, hp, hple⟩ := hv
  simp only at hb hp hple
  subst hp
  have hnext : hash_next h ⟨b, some p⟩
      = (hash_next_loop h (h.bucket_cnt + 1) ⟨b, some (p + 1)⟩,
         hash_cur h (hash_next_loop h (h.bucket_cnt + 1) ⟨b, some (p + 1)⟩)) := rfl
  rw [hnext]
  dsimp only
  have hrem : remaining h ⟨b, some p⟩
      = (bucket_at h.buckets b).drop p ++ (h.buckets.drop (b + 1)).flatten := rfl
  rw [hrem]
  by_cases hlt : p < (bucket_at h.buckets b).length
  · have hstop : hash_next_loop h (h.bucket_cnt + 1) ⟨b, some (p + 1)⟩ = ⟨b, some (p + 1)⟩ := by
      unfold hash_next_loop
      have : ¬ (p = (bucket_at h.buckets b).length) := by omega
      simp [this]
    rw [hstop]
    have hd := List.drop_eq_getElem_cons hlt
    refine ⟨fun hc => by rw [hd] at hc; exact List.noConfusion hc, ?_⟩
    intro x xs hx
    rw [hd, List.cons_append] at hx
    injection hx with hx1 hx2
    refine ⟨?_, ⟨hb, p + 1, rfl, hlt⟩, ?_⟩
    · simp [hash_cur, List.getElem?_eq_getElem hlt, hx1]
    · simp [remaining, hx2]
  · have hpe : p = (bucket_at h.buckets b).length := by omega
    have hdrop : (bucket_at h.buckets b).drop p = [] := List.drop_eq_nil_of_le (by omega)
    rw [hdrop, List.nil_append, hpe]
    exact hash_next_loop_tail h hlen (h.bucket_cnt - b) b (h.bucket_cnt + 1) rfl
      (by omega) (by omega)

/-- The iteration idiom, started on a valid cursor with enough fuel, returns
exactly the elements that remain after the cursor and ends on a null return. -/
theorem hash_iterate_loop_spec (h : Hash α) (hlen : h.buckets.length = h.bucket_cnt) :
    ∀ (fuel : Nat) (i : hash_iterator), valid_iterator h i →
      (remaining h i).length < fuel → hash_iterate_loop h fuel i = some (remaining h i) := by
  intro fuel
  induction fuel with
  | zero => intro i _ hf; omega
  | succ f ih =>
    intro i hv hf
    obtain ⟨h1, h2⟩ := hash_next_spec h hlen i hv
    unfold hash_iterate_loop
    cases hr : remaining h i with
    | nil =>
      have := h1 hr
      rcases hn : hash_next h i with ⟨i1, r⟩
      rw [hn] at this
      simp only at this
      subst this
      rfl
    | cons x xs =>
      obtain ⟨g1, g2, g3⟩ := h2 x xs hr
      rcases hn : hash_next h i with ⟨i1, r⟩
      rw [hn] at g1 g2 g3
      simp only at g1 g2 g3
      subst g1
      simp only
      rw [ih i1 g2 (by rw [g3]; rw [hr] at hf; simpa using hf), g3]
      rfl

theorem hash_iterate_eq (h : Hash α) (hlen : h.buckets.length = h.bucket_cnt)
    (hpos : 0 < h.bucket_cnt) (fuel : Nat) (hf : (elems h).length < fuel) :
    hash_iterate fuel h = some (elems h) := by
  have hrem : remaining h (hash_first h) = elems h := by
    unfold remaining hash_first elems
    simp only [List.drop_zero]
    rw [← List.flatten_cons, ← drop_succ_buckets h.buckets 0 (by omega), List.drop_zero]
  unfold hash_iterate
  rw [hash_iterate_loop_spec h hlen fuel (hash_first h)
    ⟨by show 0 < h.buckets.length; omega, 0, rfl, Nat.zero_le _⟩ (by rw [hrem]; exact hf), hrem]

/-! ## The example tables -/

theorem key_less_swo : StrictWeakOrder key_less where
  irrefl := by intro a; simp [key_less]
  trans := by
    intro a b c h1 h2
    simp only [key_less, decide_eq_true_eq] at h1 h2 ⊢
    omega
  incomp_trans := by
    intro a b c h1 h2 h3 h4
    simp only [key_less, decide_eq_false_iff_not] at h1 h2 h3 h4 ⊢
    omega

theorem key_hash_compat (a b : Nat × Nat) (h1 : key_less a b = false)
    (h2 : key_less b a = false) : key_hash a = key_hash b := by
  simp only [key_less, decide_eq_false_iff_not] at h1 h2
  simp only [key_hash]
  omega

theorem key_table_elems : elems key_table = [(5, 0), (1, 0), (2, 0)] := by decide

theorem key_table_WF : WF key_table := by
  refine ⟨Inv_run (Inv_init_table key_hash key_less key_less_swo key_hash_compat) _, ?_⟩
  rw [key_table_elems]
  decide

/-! ## Claims about the hash table -/

theorem succ_mod_of_lt {n : Nat} (h : n + 1 < SIZE_MOD) :
    (n % SIZE_MOD + 1) % SIZE_MOD = n + 1 := by
  rw [Nat.mod_eq_of_lt (Nat.lt_of_succ_lt h), Nat.mod_eq_of_lt h]

theorem hash_size_eq {h : Hash α} (hi : Inv h) (hsmall : (elems h).length < SIZE_MOD) :
    hash_size h = (elems h).length := by
  unfold hash_size
  rw [hi.cnt, Nat.mod_eq_of_lt hsmall]

/-- What `hash_insert` does when an equivalent element is present. -/
theorem hash_insert_present {h : Hash α} (hi : Inv h) {new old : α} (ho : old ∈ elems h)
    (he : equiv h old new = true) (ok : Bool) :
    (hash_insert ok h new).2 = some old ∧
      List.Perm (elems (hash_insert ok h new).1) (elems h) ∧
      hash_size (hash_insert ok h new).1 = hash_size h := by
  have hf := (find_elem_eq_some_iff hi new old).2 ⟨ho, he⟩
  rw [hash_insert_found hf]
  exact ⟨rfl, (Inv_rehash hi ok).2, (rehash_fields ok h).2.2⟩

/-- What `hash_insert` does when no equivalent element is present. -/
theorem hash_insert_absent {h : Hash α} (hi : Inv h) {new : α}
    (hfresh : ∀ x ∈ elems h, equiv h x new = false) (ok : Bool) :
    (hash_insert ok h new).2 = none ∧
      List.Perm (elems (hash_insert ok h new).1) (new :: elems h) ∧
      (hash_insert ok h new).1.elem_cnt = (h.elem_cnt + 1) % SIZE_MOD ∧
      ∀ a b, equiv (hash_insert ok h new).1 a b = equiv h a b := by
  have hf := (find_elem_eq_none_iff hi new).2 hfresh
  rw [hash_insert_fresh hf]
  obtain ⟨hi2, hp⟩ := Inv_insert_elem hi new hfresh
  refine ⟨rfl, (Inv_rehash hi2 ok).2.trans hp, (rehash_fields ok _).2.2, ?_⟩
  intro a b
  rw [rehash_equiv]
  rfl

/-- C1 (`hash_insert`).  For a well-formed table `h` and an element `new`:
if `h` holds an element `old` equivalent to `new`, `hash_insert` returns `old`
and leaves the elements and `hash_size` as they were; if it holds none,
`hash_insert` returns nothing, `new` is linked in (the elements are those of
`h` and `new`) and `hash_size` has grown by exactly one.  In particular a
second insert of an element `b` equivalent to a freshly inserted `new` returns
`new` and the table still holds `new` once and not `b`. -/
theorem hash_insert_contract (h : Hash α) (hwf : WF h) (new : α) (ok : Bool) :
    (∀ old ∈ elems h, equiv h old new = true →
      (hash_insert ok h new).2 = some old ∧
      List.Perm (elems (hash_insert ok h new).1) (elems h) ∧
      hash_size (hash_insert ok h new).1 = hash_size h) ∧
    ((∀ x ∈ elems h, equiv h x new = false) →
      (hash_insert ok h new).2 = none ∧
      new ∈ elems (hash_insert ok h new).1 ∧
      List.Perm (elems (hash_insert ok h new).1) (new :: elems h) ∧
      hash_size (hash_insert ok h new).1 = hash_size h + 1) ∧
    (∀ (b : α) (ok2 : Bool), (∀ x ∈ elems h, equiv h x new = false) →
      equiv h new b = true →
      (hash_insert ok2 (hash_insert ok h new).1 b).2 = some new ∧
      List.Perm (elems (hash_insert ok2 (hash_insert ok h new).1 b).1) (new :: elems h) ∧
      hash_size (hash_insert ok2 (hash_insert ok h new).1 b).1 = hash_size h + 1) := by
  obtain ⟨hi, hroom⟩ := hwf
  have hfresh_case : (∀ x ∈ elems h, equiv h x new = false) →
      (hash_insert ok h new).2 = none ∧
      new ∈ elems (hash_insert ok h new).1 ∧
      List.Perm (elems (hash_insert ok h new).1) (new :: elems h) ∧
      hash_size (hash_insert ok h new).1 = hash_size h + 1 := by
    intro hfresh
    obtain ⟨h1, h2, h3, _⟩ := hash_insert_absent hi hfresh ok
    refine ⟨h1, h2.mem_iff.2 (List.mem_cons_self _ _), h2, ?_⟩
    unfold hash_size
    rw [h3, hi.cnt, succ_mod_of_lt hroom, Nat.mod_eq_of_lt (Nat.lt_of_succ_lt hroom)]
  refine ⟨fun old ho he => hash_insert_present hi ho he ok, hfresh_case, ?_⟩
  intro b ok2 hfresh hb
  obtain ⟨_, hmem, hperm, hsize⟩ := hfresh_case hfresh
  obtain ⟨_, _, _, heq⟩ := hash_insert_absent hi hfresh ok
  have hi1 : Inv (hash_insert ok h new).1 := Inv_hash_insert hi ok new
  obtain ⟨g1, g2, g3⟩ := hash_insert_present hi1 hmem (by rw [heq]; exact hb) ok2
  exact ⟨g1, g2.trans hperm, by rw [g3, hsize]⟩

/-- C1 at the example table: inserting `(1, 9)` returns the equivalent record
`(1, 0)`, inserting `(7, 0)` is a fresh insert that adds one to `hash_size`,
and a following insert of the equivalent `(7, 1)` returns `(7, 0)`. -/
theorem hash_insert_contract_witness :
    WF key_table ∧
      (hash_insert true key_table (1, 9)).2 = some (1, 0) ∧
      (hash_insert true key_table (7, 0)).2 = none ∧
      hash_size (hash_insert true key_table (7, 0)).1 = hash_size key_table + 1 ∧
      (hash_insert true (hash_insert true key_table (7, 0)).1 (7, 1)).2 = some (7, 0) :=
  ⟨key_table_WF,
   ((hash_insert_contract key_table key_table_WF (1, 9) true).1 (1, 0)
      (by decide) (by decide)).1,
   ((hash_insert_contract key_table key_table_WF (7, 0) true).2.1 (by decide)).1,
   ((hash_insert_contract key_table key_table_WF (7, 0) true).2.1 (by decide)).2.2.2,
   ((hash_insert_contract key_table key_table_WF (7, 0) true).2.2 (7, 1) true
      (by decide) (by decide)).1⟩

/-- C2 (`hash_find`).  For a well-formed table `h` and a probe `e`:
`hash_find` returns `x` exactly when `x` is an element of the table equivalent
to `e`; it returns nothing exactly when no element of the table is equivalent
to `e`, in particular whenever the table is empty; and the table it leaves is
the table it was given. -/
theorem hash_find_contract (h : Hash α) (hwf : WF h) (e : α) :
    (∀ x, (hash_find h e).2 = some x ↔ (x ∈ elems h ∧ equiv h x e = true)) ∧
    ((hash_find h e).2 = none ↔ ∀ x ∈ elems h, equiv h x e = false) ∧
    (hash_empty h = true → (hash_find h e).2 = none) ∧
    (elems h = [] → (hash_find h e).2 = none) ∧
    (hash_find h e).1 = h := by
  obtain ⟨hi, hroom⟩ := hwf
  have hsmall : (elems h).length < SIZE_MOD := Nat.lt_of_succ_lt hroom
  have hfe := hash_find_eq hi hsmall e
  refine ⟨?_, ?_, ?_, ?_, ?_⟩
  · intro x; rw [hfe]; exact find_elem_eq_some_iff hi e x
  · rw [hfe]; exact find_elem_eq_none_iff hi e
  · intro hempty
    unfold hash_find
    rw [if_pos hempty]
  · intro hnil
    rw [hfe, find_elem_eq_none_iff hi]
    intro x hx
    rw [hnil] at hx
    exact absurd hx (List.not_mem_nil _)
  · unfold hash_find
    split <;> rfl

/-- C2 at the example table: the probe `(2, 7)` finds the record `(2, 0)`, the
probe `(3, 0)` finds nothing. -/
theorem hash_find_contract_witness :
    WF key_table ∧ (hash_find key_table (2, 7)).2 = some (2, 0) ∧
      (hash_find key_table (3, 0)).2 = none ∧ (hash_find key_table (2, 7)).1 = key_table :=
  ⟨key_table_WF,
   ((hash_find_contract key_table key_table_WF (2, 7)).1 (2, 0)).2 ⟨by decide, by decide⟩,
   (hash_find_contract key_table key_table_WF (3, 0)).2.1.2 (by decide),
   (hash_find_contract key_table key_table_WF (2, 7)).2.2.2.2⟩

/-- C3, as stated, fails when `new` is itself the element linked in the table:
`hash_replace` returns it as the replaced element and links it again, so the
returned element is still in the table. -/
theorem hash_replace_returned_still_linked :
    WF key_table ∧ (hash_replace true key_table (1, 0)).2 = some (1, 0) ∧
      (1, 0) ∈ elems (hash_replace true key_table (1, 0)).1 :=
  ⟨key_table_WF, by decide, by decide⟩

/-- C3 (`hash_replace`), amended.  For a well-formed table `h` and an element
`new`: `hash_replace` returns the element of the table equivalent to `new`, or
nothing when there is none; afterwards `new` is in the table, the returned
element is not unless it is `new` itself, `hash_find` of any element
equivalent to `new` returns `new`, and `hash_size` is unchanged when something
was replaced and one larger otherwise. -/
theorem hash_replace_contract (h : Hash α) (hwf : WF h) (new : α) (ok : Bool) :
    (∀ old, (hash_replace ok h new).2 = some old ↔ (old ∈ elems h ∧ equiv h old new = true)) ∧
    ((hash_replace ok h new).2 = none ↔ ∀ x ∈ elems h, equiv h x new = false) ∧
    new ∈ elems (hash_replace ok h new).1 ∧
    (∀ old, (hash_replace ok h new).2 = some old → old ≠ new →
      old ∉ elems (hash_replace ok h new).1) ∧
    (∀ e, equiv h e new = true → (hash_find (hash_replace ok h new).1 e).2 = some new) ∧
    (∀ old, (hash_replace ok h new).2 = some old →
      hash_size (hash_replace ok h new).1 = hash_size h) ∧
    ((hash_replace ok h new).2 = none →
      hash_size (hash_replace ok h new).1 = hash_size h + 1) := by
  obtain ⟨hi, hroom⟩ := hwf
  have hsmall : (elems h).length < SIZE_MOD := Nat.lt_of_succ_lt hroom
  have hinv : Inv (hash_replace ok h new).1 := Inv_hash_replace hi ok new
  have hless : (hash_replace ok h new).1.less = h.less := by
    unfold hash_replace
    simp only
    rw [(rehash_fields ok _).1]
    cases find_elem h (find_bucket h new) (some new) <;> rfl
  have heqv : ∀ a b, equiv (hash_replace ok h new).1 a b = equiv h a b := by
    intro a b; unfold equiv; rw [hless]
  cases hf : find_elem h (find_bucket h new) (some new) with
  | none =>
    have hfresh := (find_elem_eq_none_iff hi new).1 hf
    have hrep := hash_replace_fresh hf ok
    obtain ⟨hi2, hp⟩ := Inv_insert_elem hi new hfresh
    have hperm : List.Perm (elems (hash_replace ok h new).1) (new :: elems h) := by
      rw [hrep]; exact (Inv_rehash hi2 ok).2.trans hp
    have hlen : (elems (hash_replace ok h new).1).length = (elems h).length + 1 := by
      rw [hperm.length_eq]; rfl
    have hnew : new ∈ elems (hash_replace ok h new).1 :=
      hperm.mem_iff.2 (List.mem_cons_self _ _)
    have hret : (hash_replace ok h new).2 = none := by rw [hrep]
    refine ⟨?_, ?_, hnew, ?_, ?_, ?_, ?_⟩
    · intro old
      rw [hret]
      constructor
      · intro hc; exact Option.noConfusion hc
      · rintro ⟨h1, h2⟩
        rw [hfresh old h1] at h2
        exact Bool.noConfusion h2
    · rw [hret]; exact ⟨fun _ => hfresh, fun _ => rfl⟩
    · intro old hc; rw [hret] at hc; exact Option.noConfusion hc
    · intro e he
      rw [hash_find_eq hinv (by rw [hlen]; exact hroom) e, find_elem_eq_some_iff hinv]
      exact ⟨hnew, by rw [heqv]; exact equiv_symm he⟩
    · intro old hc; rw [hret] at hc; exact Option.noConfusion hc
    · intro _
      rw [hash_size_eq hinv (by rw [hlen]; exact hroom), hash_size_eq hi hsmall, hlen]
  | some o =>
    obtain ⟨ho, hoe⟩ := (find_elem_eq_some_iff hi new o).1 hf
    have hrep := hash_replace_found hf ok
    obtain ⟨hi2, hp⟩ := replace_core hi ho hoe
    have hperm : List.Perm (elems (hash_replace ok h new).1) (new :: (elems h).erase o) := by
      rw [hrep]; exact (Inv_rehash hi2 ok).2.trans hp
    have hlen : (elems (hash_replace ok h new).1).length = (elems h).length := by
      rw [hperm.length_eq, List.length_cons, List.length_erase_of_mem ho]
      have := List.length_pos_of_mem ho
      omega
    have hnew : new ∈ elems (hash_replace ok h new).1 :=
      hperm.mem_iff.2 (List.mem_cons_self _ _)
    have hret : (hash_replace ok h new).2 = some o := by rw [hrep]
    refine ⟨?_, ?_, hnew, ?_, ?_, ?_, ?_⟩
    · intro old
      rw [hret]
      constructor
      · intro hc; cases hc; exact ⟨ho, hoe⟩
      · rintro ⟨h1, h2⟩
        rw [hi.noequiv o ho old h1 (equiv_trans hi.swo hoe (equiv_symm h2))]
    · rw [hret]
      constructor
      · intro hc; exact Option.noConfusion hc
      · intro hall
        have := hall o ho
        rw [hoe] at this
        exact Bool.noConfusion this
    · intro old hc hne hmem
      rw [hret] at hc
      cases hc
      rcases List.mem_cons.1 (hperm.mem_iff.1 hmem) with h1 | h1
      · exact hne h1
      · exact ((hi.nodup.mem_erase_iff).1 h1).1 rfl
    · intro e he
      rw [hash_find_eq hinv (by rw [hlen]; exact hsmall) e, find_elem_eq_some_iff hinv]
      exact ⟨hnew, by rw [heqv]; exact equiv_symm he⟩
    · intro old _
      rw [hash_size_eq hinv (by rw [hlen]; exact hsmall), hash_size_eq hi hsmall, hlen]
    · intro hc; rw [hret] at hc; exact Option.noConfusion hc

/-- C3 (amended) at the example table: replacing with `(2, 9)` returns the
record `(2, 0)`, which is no longer linked, and the probe `(2, 4)` then finds
`(2, 9)`. -/
theorem hash_replace_contract_witness :
    WF key_table ∧ (hash_replace true key_table (2, 9)).2 = some (2, 0) ∧
      (2, 0) ∉ elems (hash_replace true key_table (2, 9)).1 ∧
      (hash_find (hash_replace true key_table (2, 9)).1 (2, 4)).2 = some (2, 9) :=
  ⟨key_table_WF,
   ((hash_replace_contract key_table key_table_WF (2, 9) true).1 (2, 0)).2
     ⟨by decide, by decide⟩,
   (hash_replace_contract key_table key_table_WF (2, 9) true).2.2.2.1 (2, 0)
     (by decide) (by decide),
   (hash_replace_contract key_table key_table_WF (2, 9) true).2.2.2.2.1 (2, 4) (by decide)⟩

/-- C4 (`hash_delete`).  For a well-formed table `h` and a probe `e`: if the
table holds an element `x` equivalent to `e`, `hash_delete` returns `x`, `x`
is no longer in the table, the table holds exactly the other elements, and
`hash_size` has dropped by exactly one; if it holds none (as when it is
empty), `hash_delete` returns nothing and the table is the one it was given. -/
theorem hash_delete_contract (h : Hash α) (hwf : WF h) (e : α) (ok : Bool) :
    (∀ x ∈ elems h, equiv h x e = true →
      (hash_delete ok h e).2 = some x ∧
      x ∉ elems (hash_delete ok h e).1 ∧
      (∀ y, y ∈ elems (hash_delete ok h e).1 ↔ (y ∈ elems h ∧ y ≠ x)) ∧
      hash_size (hash_delete ok h e).1 + 1 = hash_size h) ∧
    ((∀ x ∈ elems h, equiv h x e = false) → hash_delete ok h e = (h, none)) ∧
    (elems h = [] → hash_delete ok h e = (h, none)) := by
  obtain ⟨hi, hroom⟩ := hwf
  have hsmall : (elems h).length < SIZE_MOD := Nat.lt_of_succ_lt hroom
  have habsent : (∀ x ∈ elems h, equiv h x e = false) → hash_delete ok h e = (h, none) :=
    fun hall => hash_delete_absent ((find_elem_eq_none_iff hi e).2 hall) ok
  refine ⟨?_, habsent, ?_⟩
  · intro x hx hxe
    have hf := (find_elem_eq_some_iff hi e x).2 ⟨hx, hxe⟩
    have hdel := hash_delete_found hf ok
    obtain ⟨hi2, hel⟩ := Inv_remove_elem hi x hx
    have hperm : List.Perm (elems (hash_delete ok h e).1) ((elems h).erase x) := by
      rw [hdel, ← hel]; exact (Inv_rehash hi2 ok).2
    have hmem : ∀ y, y ∈ elems (hash_delete ok h e).1 ↔ (y ∈ elems h ∧ y ≠ x) := by
      intro y
      rw [hperm.mem_iff, hi.nodup.mem_erase_iff]
      exact and_comm
    have hlen : (elems (hash_delete ok h e).1).length + 1 = (elems h).length := by
      rw [hperm.length_eq, List.length_erase_of_mem hx]
      have := List.length_pos_of_mem hx
      omega
    refine ⟨by rw [hdel], fun hc => ((hmem x).1 hc).2 rfl, hmem, ?_⟩
    rw [hash_size_eq (Inv_hash_delete hi ok e) (by omega), hash_size_eq hi hsmall, hlen]
  · intro hnil
    apply habsent
    intro x hx
    rw [hnil] at hx
    exact absurd hx (List.not_mem_nil _)

/-- C4 at the example table: deleting with the probe `(5, 3)` returns and
unlinks `(5, 0)`; deleting with the probe `(4, 0)` changes nothing. -/
theorem hash_delete_contract_witness :
    WF key_table ∧ (hash_delete true key_table (5, 3)).2 = some (5, 0) ∧
      (5, 0) ∉ elems (hash_delete true key_table (5, 3)).1 ∧
      hash_delete true key_table (4, 0) = (key_table, none) :=
  ⟨key_table_WF,
   ((hash_delete_contract key_table key_table_WF (5, 3) true).1 (5, 0)
     (by decide) (by decide)).1,
   ((hash_delete_contract key_table key_table_WF (5, 3) true).1 (5, 0)
     (by decide) (by decide)).2.1,
   (hash_delete_contract key_table key_table_WF (4, 0) true).2.1 (by decide)⟩

theorem apply_less (h : Hash α) (op : Op α) : (Op.apply h op).less = h.less := by
  cases op with
  | insert new ok =>
    show (hash_insert ok h new).1.less = h.less
    unfold hash_insert
    simp only
    rw [(rehash_fields ok _).1]
    split <;> rfl
  | replace new ok =>
    show (hash_replace ok h new).1.less = h.less
    unfold hash_replace
    simp only
    rw [(rehash_fields ok _).1]
    cases find_elem h (find_bucket h new) (some new) <;> rfl
  | delete e ok =>
    show (hash_delete ok h e).1.less = h.less
    unfold hash_delete
    simp only
    cases find_elem h (find_bucket h e) (some e) with
    | none => rfl
    | some f => exact (rehash_fields ok _).1
  | clear d => rfl

theorem run_less (h : Hash α) (ops : List (Op α)) : (run h ops).less = h.less := by
  induction ops generalizing h with
  | nil => rfl
  | cons op ops ih =>
    show (run (Op.apply h op) ops).less = h.less
    rw [ih, apply_less]

/-- C5 (no duplicate keys).  Starting from the table `hash_init` produces, with
a strict weak order `less` and a hash function that agrees on equivalent
elements, after every sequence of `hash_insert`, `hash_replace`, `hash_delete`
and `hash_clear` calls, whatever the allocations in `rehash` do, every element
is linked once and any two distinct elements of the table are ordered by
`less` one way or the other: no two of them are equivalent. -/
theorem no_duplicate_keys (hash : α → Nat) (less : α → α → Bool) (hs : StrictWeakOrder less)
    (hc : ∀ a b, less a b = false → less b a = false → hash a = hash b) (h0 : Hash α)
    (hinit : hash_init true hash less = some h0) (ops : List (Op α)) :
    (elems (run h0 ops)).Nodup ∧
      ∀ a ∈ elems (run h0 ops), ∀ b ∈ elems (run h0 ops), a ≠ b →
        ¬ (less a b = false ∧ less b a = false) := by
  have hi := Inv_reachable hash less hs hc h0 hinit ops
  refine ⟨hi.nodup, ?_⟩
  intro a ha b hb hne hab
  apply hne
  apply hi.noequiv a ha b hb
  have hl : (run h0 ops).less = less := by
    rw [run_less]
    rw [hash_init_eq] at hinit
    cases hinit
    rfl
  unfold equiv
  rw [hl, hab.1, hab.2]
  rfl

/-- C5 at the example order: after inserting `(1, 0)`, inserting the equivalent
`(1, 1)`, replacing with `(1, 2)` and inserting `(2, 0)` under failing
allocations, the two records held are not equivalent. -/
theorem no_duplicate_keys_witness :
    (elems (run (init_table key_hash key_less)
        [Op.insert (1, 0) true, Op.insert (1, 1) false, Op.replace (1, 2) false,
         Op.insert (2, 0) false])).Nodup ∧
      ¬ (key_less (2, 0) (1, 2) = false ∧ key_less (1, 2) (2, 0) = false) :=
  ⟨(no_duplicate_keys key_hash key_less key_less_swo key_hash_compat
      (init_table key_hash key_less) (hash_init_eq key_hash key_less)
      [Op.insert (1, 0) true, Op.insert (1, 1) false, Op.replace (1, 2) false,
       Op.insert (2, 0) false]).1,
   (no_duplicate_keys key_hash key_less key_less_swo key_hash_compat
      (init_table key_hash key_less) (hash_init_eq key_hash key_less)
      [Op.insert (1, 0) true, Op.insert (1, 1) false, Op.replace (1, 2) false,
       Op.insert (2, 0) false]).2 (2, 0) (by decide) (1, 2) (by decide) (by decide)⟩

/-! ### Bucket count -/

theorem size_pred_lt {x : Nat} (hx : x < SIZE_MOD) : size_pred x < SIZE_MOD := by
  unfold size_pred
  have hM : 0 < SIZE_MOD := Nat.two_pow_pos 64
  split <;> omega

theorem rehash_bucket_cnt (ok : Bool) (h : Hash α) :
    (rehash ok h).bucket_cnt = h.bucket_cnt ∨
      (rehash ok h).bucket_cnt = rehash_target h.elem_cnt := by
  unfold rehash
  simp only
  split
  · exact Or.inl rfl
  · split
    · exact Or.inl rfl
    · exact Or.inr rfl

theorem rehash_true_bucket_cnt (h : Hash α) :
    (rehash true h).bucket_cnt = rehash_target h.elem_cnt := by
  unfold rehash
  simp only
  split
  · rename_i hsame; exact hsame.symm
  · rfl

/-- The part of the invariant that needs nothing of `hash` and `less`. -/
theorem cnt_inv_rehash (ok : Bool) {h : Hash α}
    (hb : h.elem_cnt < SIZE_MOD ∧ ∃ k, 2 ≤ k ∧ h.bucket_cnt = 2 ^ k) :
    (rehash ok h).elem_cnt < SIZE_MOD ∧ ∃ k, 2 ≤ k ∧ (rehash ok h).bucket_cnt = 2 ^ k := by
  refine ⟨by rw [(rehash_fields ok h).2.2]; exact hb.1, ?_⟩
  rcases rehash_bucket_cnt ok h with h1 | h1
  · rw [h1]; exact hb.2
  · rw [h1]
    obtain ⟨k, hk, _, hk2⟩ := rehash_target_pow2 h.elem_cnt hb.1
    exact ⟨k, hk, hk2⟩

theorem cnt_inv_apply {h : Hash α}
    (hb : h.elem_cnt < SIZE_MOD ∧ ∃ k, 2 ≤ k ∧ h.bucket_cnt = 2 ^ k) (op : Op α) :
    (Op.apply h op).elem_cnt < SIZE_MOD ∧ ∃ k, 2 ≤ k ∧ (Op.apply h op).bucket_cnt = 2 ^ k := by
  have hM : 0 < SIZE_MOD := Nat.two_pow_pos 64
  have hins : ∀ (g : Hash α) (i : Nat) (e : α), (∃ k, 2 ≤ k ∧ g.bucket_cnt = 2 ^ k) →
      (insert_elem g i e).elem_cnt < SIZE_MOD ∧
        ∃ k, 2 ≤ k ∧ (insert_elem g i e).bucket_cnt = 2 ^ k :=
    fun g i e hg => ⟨Nat.mod_lt _ hM, hg⟩
  have hrem : ∀ (g : Hash α) (e : α),
      (g.elem_cnt < SIZE_MOD ∧ ∃ k, 2 ≤ k ∧ g.bucket_cnt = 2 ^ k) →
      (remove_elem g e).elem_cnt < SIZE_MOD ∧
        ∃ k, 2 ≤ k ∧ (remove_elem g e).bucket_cnt = 2 ^ k :=
    fun g e hg => ⟨size_pred_lt hg.1, hg.2⟩
  cases op with
  | insert new ok =>
    show (hash_insert ok h new).1.elem_cnt < SIZE_MOD ∧
      ∃ k, 2 ≤ k ∧ (hash_insert ok h new).1.bucket_cnt = 2 ^ k
    cases hf : find_elem h (find_bucket h new) (some new) with
    | none => rw [hash_insert_fresh hf]; exact cnt_inv_rehash ok (hins h _ new hb.2)
    | some o => rw [hash_insert_found hf]; exact cnt_inv_rehash ok hb
  | replace new ok =>
    show (hash_replace ok h new).1.elem_cnt < SIZE_MOD ∧
      ∃ k, 2 ≤ k ∧ (hash_replace ok h new).1.bucket_cnt = 2 ^ k
    cases hf : find_elem h (find_bucket h new) (some new) with
    | none => rw [hash_replace_fresh hf]; exact cnt_inv_rehash ok (hins h _ new hb.2)
    | some o =>
      rw [hash_replace_found hf]
      exact cnt_inv_rehash ok (hins _ _ new (hrem h o hb).2)
  | delete e ok =>
    show (hash_delete ok h e).1.elem_cnt < SIZE_MOD ∧
      ∃ k, 2 ≤ k ∧ (hash_delete ok h e).1.bucket_cnt = 2 ^ k
    cases hf : find_elem h (find_bucket h e) (some e) with
    | none => rw [hash_delete_absent hf]; exact hb
    | some o => rw [hash_delete_found hf]; exact cnt_inv_rehash ok (hrem h o hb)
  | clear d => exact ⟨hM, hb.2⟩

theorem cnt_inv_run {h : Hash α}
    (hb : h.elem_cnt < SIZE_MOD ∧ ∃ k, 2 ≤ k ∧ h.bucket_cnt = 2 ^ k) (ops : List (Op α)) :
    (run h ops).elem_cnt < SIZE_MOD ∧ ∃ k, 2 ≤ k ∧ (run h ops).bucket_cnt = 2 ^ k := by
  induction ops generalizing h with
  | nil => exact hb
  | cons op ops ih => exact ih (cnt_inv_apply hb op)

/-- C7 (bucket count).  The table `hash_init` creates has exactly 4 buckets,
and after every sequence of `hash_insert`, `hash_replace`, `hash_delete` and
`hash_clear` calls, whatever the allocations in `rehash` do, `bucket_cnt` is a
power of two and at least 4. -/
theorem bucket_cnt_invariant (hash : α → Nat) (less : α → α → Bool) (h0 : Hash α)
    (hinit : hash_init true hash less = some h0) (ops : List (Op α)) :
    h0.bucket_cnt = 4 ∧ h0.buckets.length = 4 ∧
      (∃ k, (run h0 ops).bucket_cnt = 2 ^ k) ∧ 4 ≤ (run h0 ops).bucket_cnt ∧
      is_power_of_2 (run h0 ops).bucket_cnt = true := by
  rw [hash_init_eq] at hinit
  cases hinit
  have hb : (init_table hash less).elem_cnt < SIZE_MOD ∧
      ∃ k, 2 ≤ k ∧ (init_table hash less).bucket_cnt = 2 ^ k :=
    ⟨Nat.two_pow_pos 64, 2, le_rfl, rfl⟩
  obtain ⟨hlt, k, hk, hk2⟩ := cnt_inv_run hb ops
  have h4 : 4 ≤ (run (init_table hash less) ops).bucket_cnt := by
    rw [hk2]
    calc 4 = 2 ^ 2 := rfl
      _ ≤ 2 ^ k := Nat.pow_le_pow_right (by decide) hk
  refine ⟨rfl, by simp [init_table], ⟨k, hk2⟩, h4, ?_⟩
  rw [hk2]
  unfold is_power_of_2
  rw [turn_off_eq (Nat.two_pow_pos k), and_pred_pow]
  have : 2 ^ k ≠ 0 := Nat.pos_iff_ne_zero.1 (Nat.two_pow_pos k)
  simp [this]

/-- C7 at the example table of twenty records: the fresh table has 4 buckets
and the table of twenty records at least 4. -/
theorem bucket_cnt_invariant_witness :
    (init_table key_hash key_less).bucket_cnt = 4 ∧
      4 ≤ (run (init_table key_hash key_less)
        ((List.range 20).map (fun i => Op.insert (i, 0) true))).bucket_cnt :=
  ⟨(bucket_cnt_invariant key_hash key_less (init_table key_hash key_less)
      (hash_init_eq key_hash key_less) []).1,
   (bucket_cnt_invariant key_hash key_less (init_table key_hash key_less)
      (hash_init_eq key_hash key_less)
      ((List.range 20).map (fun i => Op.insert (i, 0) true))).2.2.2.1⟩

/-- C8, as stated, fails: after the fourteenth insert, with every allocation
succeeding, the table has 14 elements and 4 buckets, and 4 is not the power of
two nearest to `14 / 2 = 7`, which is 8. -/
theorem rehash_target_not_nearest :
    hash_size (hash_insert true (key_table_upto 13) (13, 0)).1 = 14 ∧
      (hash_insert true (key_table_upto 13) (13, 0)).1.bucket_cnt = 4 ∧
      ¬ nearest_pow2 (hash_insert true (key_table_upto 13) (13, 0)).1.bucket_cnt
          (hash_size (hash_insert true (key_table_upto 13) (13, 0)).1 / 2) := by
  have h1 : hash_size (hash_insert true (key_table_upto 13) (13, 0)).1 = 14 := by decide
  have h2 : (hash_insert true (key_table_upto 13) (13, 0)).1.bucket_cnt = 4 := by decide
  refine ⟨h1, h2, ?_⟩
  rw [h1, h2]
  rintro ⟨_, hk⟩
  exact absurd (hk 3) (by decide)

theorem largest_pow2_le_target (n : Nat) : largest_pow2_le (rehash_target n) (max (n / 2) 4) := by
  obtain ⟨k, h1, _, h3, h4⟩ := rehash_target_spec n
  exact ⟨k, h1, h3, h4⟩

theorem rehash_true_largest (h : Hash α) :
    largest_pow2_le (rehash true h).bucket_cnt (max ((rehash true h).elem_cnt / 2) 4) := by
  rw [rehash_true_bucket_cnt, (rehash_fields true h).2.2]
  exact largest_pow2_le_target h.elem_cnt

/-- C8 (rehash target), amended.  After every `hash_insert`, `hash_replace` or
successful `hash_delete` in which the allocation of `rehash` succeeds,
`bucket_cnt` is the largest power of two that does not exceed
`max (elem_cnt / 2) 4`, where `elem_cnt` is the count after the mutation: the
count over two is rounded down to a power of two, not to the nearest one. -/
theorem rehash_target_after_mutation (h : Hash α) (e : α) :
    largest_pow2_le (hash_insert true h e).1.bucket_cnt
      (max ((hash_insert true h e).1.elem_cnt / 2) 4) ∧
    largest_pow2_le (hash_replace true h e).1.bucket_cnt
      (max ((hash_replace true h e).1.elem_cnt / 2) 4) ∧
    ((hash_delete true h e).2 ≠ none →
      largest_pow2_le (hash_delete true h e).1.bucket_cnt
        (max ((hash_delete true h e).1.elem_cnt / 2) 4)) := by
  refine ⟨?_, ?_, ?_⟩
  · cases hf : find_elem h (find_bucket h e) (some e) with
    | none => rw [hash_insert_fresh hf]; exact rehash_true_largest _
    | some o => rw [hash_insert_found hf]; exact rehash_true_largest _
  · cases hf : find_elem h (find_bucket h e) (some e) with
    | none => rw [hash_replace_fresh hf]; exact rehash_true_largest _
    | some o => rw [hash_replace_found hf]; exact rehash_true_largest _
  · cases hf : find_elem h (find_bucket h e) (some e) with
    | none => rw [hash_delete_absent hf]; intro hc; exact absurd rfl hc
    | some o => rw [hash_delete_found hf]; intro _; exact rehash_true_largest _

/-- C9 (allocation failure in `rehash` is not fatal).  When the allocation
fails `rehash` returns the table it was given.  So for a well-formed table `h`,
each of `hash_insert`, `hash_replace` and `hash_delete` run with a failing
allocation keeps the bucket array length and `bucket_cnt`, leaves a table that
satisfies the invariant and holds exactly the elements its contract asks for,
and `hash_find` of every element then in the table returns that element. -/
theorem rehash_failure_nonfatal (h : Hash α) (hwf : WF h) (e : α) :
    rehash false h = h ∧
    ((hash_insert false h e).1.bucket_cnt = h.bucket_cnt ∧
      (hash_insert false h e).1.buckets.length = h.buckets.length ∧
      Inv (hash_insert false h e).1 ∧
      (∀ y, y ∈ elems (hash_insert false h e).1 ↔
        (y ∈ elems h ∨ (y = e ∧ ∀ x ∈ elems h, equiv h x e = false))) ∧
      ∀ y ∈ elems (hash_insert false h e).1, (hash_find (hash_insert false h e).1 y).2 = some y) ∧
    ((hash_replace false h e).1.bucket_cnt = h.bucket_cnt ∧
      (hash_replace false h e).1.buckets.length = h.buckets.length ∧
      Inv (hash_replace false h e).1 ∧
      (∀ y, y ∈ elems (hash_replace false h e).1 ↔
        (y = e ∨ (y ∈ elems h ∧ equiv h y e = false))) ∧
      ∀ y ∈ elems (hash_replace false h e).1,
        (hash_find (hash_replace false h e).1 y).2 = some y) ∧
    ((hash_delete false h e).1.bucket_cnt = h.bucket_cnt ∧
      (hash_delete false h e).1.buckets.length = h.buckets.length ∧
      Inv (hash_delete false h e).1 ∧
      (∀ y, y ∈ elems (hash_delete false h e).1 ↔ (y ∈ elems h ∧ equiv h y e = false)) ∧
      ∀ y ∈ elems (hash_delete false h e).1,
        (hash_find (hash_delete false h e).1 y).2 = some y) := by
  obtain ⟨hi, hroom⟩ := hwf
  have hre : ∀ g : Hash α, rehash false g = g := by
    intro g
    unfold rehash
    simp only
    split
    · rfl
    · rfl
  have hfind : ∀ g : Hash α, Inv g → (elems g).length < SIZE_MOD →
      ∀ y ∈ elems g, (hash_find g y).2 = some y := by
    intro g hg hsmall y hy
    rw [hash_find_eq hg hsmall y, find_elem_eq_some_iff hg]
    exact ⟨hy, equiv_refl hg.swo y⟩
  have hlenI : ∀ (g : Hash α) (i : Nat) (x : α),
      (insert_elem g i x).buckets.length = g.buckets.length :=
    fun g i x => length_push_front g.buckets i x
  have hlenR : ∀ (g : Hash α) (x : α), (remove_elem g x).buckets.length = g.buckets.length :=
    fun g x => length_list_remove g.buckets x
  have hdec : ∀ y, equiv h y e = false ∨ equiv h y e = true := by
    intro y; cases equiv h y e <;> simp
  refine ⟨hre h, ?_, ?_, ?_⟩
  · have hinv := Inv_hash_insert hi false e
    cases hf : find_elem h (find_bucket h e) (some e) with
    | none =>
      have hfresh := (find_elem_eq_none_iff hi e).1 hf
      obtain ⟨_, hp⟩ := Inv_insert_elem hi e hfresh
      rw [hash_insert_fresh hf, hre] at hinv ⊢
      refine ⟨rfl, hlenI _ _ _, hinv, ?_, hfind _ hinv (by rw [hp.length_eq]; exact hroom)⟩
      intro y
      rw [hp.mem_iff, List.mem_cons]
      constructor
      · rintro (h1 | h1)
        · exact Or.inr ⟨h1, hfresh⟩
        · exact Or.inl h1
      · rintro (h1 | h1)
        · exact Or.inr h1
        · exact Or.inl h1.1
    | some o =>
      obtain ⟨ho, hoe⟩ := (find_elem_eq_some_iff hi e o).1 hf
      rw [hash_insert_found hf, hre] at hinv ⊢
      refine ⟨rfl, rfl, hi, ?_, hfind _ hi (Nat.lt_of_succ_lt hroom)⟩
      intro y
      constructor
      · exact Or.inl
      · rintro (h1 | h1)
        · exact h1
        · have := h1.2 o ho
          rw [hoe] at this
          exact Bool.noConfusion this
  · have hinv := Inv_hash_replace hi false e
    cases hf : find_elem h (find_bucket h e) (some e) with
    | none =>
      have hfresh := (find_elem_eq_none_iff hi e).1 hf
      obtain ⟨_, hp⟩ := Inv_insert_elem hi e hfresh
      rw [hash_replace_fresh hf, hre] at hinv ⊢
      refine ⟨rfl, hlenI _ _ _, hinv, ?_, hfind _ hinv (by rw [hp.length_eq]; exact hroom)⟩
      intro y
      rw [hp.mem_iff, List.mem_cons]
      constructor
      · rintro (h1 | h1)
        · exact Or.inl h1
        · exact Or.inr ⟨h1, hfresh y h1⟩
      · rintro (h1 | h1)
        · exact Or.inl h1
        · exact Or.inr h1.1
    | some o =>
      obtain ⟨ho, hoe⟩ := (find_elem_eq_some_iff hi e o).1 hf
      obtain ⟨_, hp⟩ := replace_core hi ho hoe
      rw [hash_replace_found hf, hre] at hinv ⊢
      have hlen : (elems (insert_elem (remove_elem h o) (find_bucket h e) e)).length
          < SIZE_MOD := by
        rw [hp.length_eq, List.length_cons, List.length_erase_of_mem ho]
        have := List.length_pos_of_mem ho
        omega
      refine ⟨rfl, by rw [hlenI, hlenR], hinv, ?_, hfind _ hinv hlen⟩
      intro y
      rw [hp.mem_iff, List.mem_cons, hi.nodup.mem_erase_iff]
      constructor
      · rintro (h1 | ⟨h1, h2⟩)
        · exact Or.inl h1
        · refine Or.inr ⟨h2, ?_⟩
          rcases hdec y with h3 | h3
          · exact h3
          · exact absurd (hi.noequiv y h2 o ho (equiv_trans hi.swo h3 (equiv_symm hoe))) h1
      · rintro (h1 | ⟨h1, h2⟩)
        · exact Or.inl h1
        · refine Or.inr ⟨?_, h1⟩
          rintro rfl
          rw [hoe] at h2
          exact Bool.noConfusion h2
  · have hinv := Inv_hash_delete hi false e
    cases hf : find_elem h (find_bucket h e) (some e) with
    | none =>
      have hfresh := (find_elem_eq_none_iff hi e).1 hf
      rw [hash_delete_absent hf] at hinv ⊢
      refine ⟨rfl, rfl, hi, ?_, hfind _ hi (Nat.lt_of_succ_lt hroom)⟩
      intro y
      exact ⟨fun h1 => ⟨h1, hfresh y h1⟩, fun h1 => h1.1⟩
    | some o =>
      obtain ⟨ho, hoe⟩ := (find_elem_eq_some_iff hi e o).1 hf
      obtain ⟨_, hel⟩ := Inv_remove_elem hi o ho
      rw [hash_delete_found hf, hre] at hinv ⊢
      have hlen : (elems (remove_elem h o)).length < SIZE_MOD := by
        rw [hel, List.length_erase_of_mem ho]
        omega
      refine ⟨rfl, hlenR _ _, hinv, ?_, hfind _ hinv hlen⟩
      intro y
      rw [hel, hi.nodup.mem_erase_iff]
      constructor
      · rintro ⟨h1, h2⟩
        refine ⟨h2, ?_⟩
        rcases hdec y with h3 | h3
        · exact h3
        · exact absurd (hi.noequiv y h2 o ho (equiv_trans hi.swo h3 (equiv_symm hoe))) h1
      · rintro ⟨h1, h2⟩
        refine ⟨?_, h1⟩
        rintro rfl
        rw [hoe] at h2
        exact Bool.noConfusion h2

/-- The example table of the fifteen records `(0, 0)`, ..., `(14, 0)` is
well-formed. -/
theorem key_table_upto_15_WF : WF (key_table_upto 15) := by
  refine ⟨Inv_run (Inv_init_table key_hash key_less key_less_swo key_hash_compat) _, ?_⟩
  have hlen : (elems (key_table_upto 15)).length = 15 := by decide
  rw [hlen]
  decide

/-- C9 at the example table of the fifteen records `(0, 0)`, ..., `(14, 0)`,
which has 4 buckets.  The insert of `(15, 0)` makes 16 elements, so `rehash`
aims at `16 / 2 = 8` buckets and reaches its allocation: when the allocation
succeeds the table has 8 buckets afterwards, and when it fails the table keeps
its 4 buckets and its bucket array, holds the new record, and `hash_find`
returns the new record `(15, 0)` and the old record `(3, 0)`. -/
theorem rehash_failure_nonfatal_witness :
    WF (key_table_upto 15) ∧
      (key_table_upto 15).bucket_cnt = 4 ∧
      (hash_insert true (key_table_upto 15) (15, 0)).1.bucket_cnt = 8 ∧
      (hash_insert false (key_table_upto 15) (15, 0)).1.bucket_cnt
        = (key_table_upto 15).bucket_cnt ∧
      (hash_insert false (key_table_upto 15) (15, 0)).1.buckets.length
        = (key_table_upto 15).buckets.length ∧
      (hash_find (hash_insert false (key_table_upto 15) (15, 0)).1 (15, 0)).2 = some (15, 0) ∧
      (hash_find (hash_insert false (key_table_upto 15) (15, 0)).1 (3, 0)).2 = some (3, 0) :=
  ⟨key_table_upto_15_WF, by decide, by decide,
   (rehash_failure_nonfatal (key_table_upto 15) key_table_upto_15_WF (15, 0)).2.1.1,
   (rehash_failure_nonfatal (key_table_upto 15) key_table_upto_15_WF (15, 0)).2.1.2.1,
   (rehash_failure_nonfatal (key_table_upto 15) key_table_upto_15_WF (15, 0)).2.1.2.2.2.2
     (15, 0) (by decide),
   (rehash_failure_nonfatal (key_table_upto 15) key_table_upto_15_WF (15, 0)).2.1.2.2.2.2
     (3, 0) (by decide)⟩

/-- Inserting pairwise inequivalent elements, none of them equivalent to an
element of the table, links all of them. -/
theorem run_inserts_perm (alloc : α → Bool) : ∀ (xs : List α) (h : Hash α), Inv h →
    (∀ x ∈ xs, ∀ y ∈ elems h, equiv h y x = false) →
    xs.Pairwise (fun a b => equiv h a b = false) →
    Inv (run h (xs.map (fun x => Op.insert x (alloc x)))) ∧
      List.Perm (elems (run h (xs.map (fun x => Op.insert x (alloc x))))) (xs ++ elems h)
  | [], h, hi, _, _ => ⟨hi, List.Perm.refl _⟩
  | x :: xs, h, hi, hfresh, hpw => by
    have hx : ∀ y ∈ elems h, equiv h y x = false := hfresh x (List.mem_cons_self _ _)
    obtain ⟨_, hp, _, heq⟩ := hash_insert_absent hi hx (alloc x)
    have hi1 : Inv (hash_insert (alloc x) h x).1 := Inv_hash_insert hi (alloc x) x
    obtain ⟨hpx, hpxs⟩ := List.pairwise_cons.1 hpw
    have ih := run_inserts_perm alloc xs (hash_insert (alloc x) h x).1 hi1 (by
        intro x1 hx1 y hy
        rw [heq]
        rcases List.mem_cons.1 (hp.mem_iff.1 hy) with h1 | h1
        · rw [h1]; exact hpx x1 hx1
        · exact hfresh x1 (List.mem_cons_of_mem _ hx1) y h1)
      (hpxs.imp (fun {a b} hab => by rw [heq]; exact hab))
    refine ⟨ih.1, ?_⟩
    have hrun : run h ((x :: xs).map (fun x => Op.insert x (alloc x)))
        = run (hash_insert (alloc x) h x).1 (xs.map (fun x => Op.insert x (alloc x))) := rfl
    rw [hrun]
    refine ih.2.trans ?_
    refine (List.Perm.append_left xs hp).trans ?_
    exact List.perm_middle

/-- C6 (iteration).  For a table reached from `hash_init` by inserts,
replaces, deletes and clears: `hash_first` followed by `hash_next` until it
returns nothing yields, given fuel for one call more than there are elements,
exactly the chains of the buckets in bucket order (every linked element once,
nothing else); no element occurs twice; when the number of elements fits a
`size_t`, `hash_size` is the number of elements yielded and `elem_cnt` is the
sum of the chain lengths; and inserting the elements of the table into a fresh
table in any order yields, on iteration, the same elements up to order. -/
theorem hash_iteration_complete (hash : α → Nat) (less : α → α → Bool)
    (hs : StrictWeakOrder less)
    (hc : ∀ a b, less a b = false → less b a = false → hash a = hash b) (h0 : Hash α)
    (hinit : hash_init true hash less = some h0) (ops : List (Op α)) :
    (∀ fuel, (elems (run h0 ops)).length < fuel →
      hash_iterate fuel (run h0 ops) = some (run h0 ops).buckets.flatten) ∧
    (run h0 ops).buckets.flatten.Nodup ∧
    ((elems (run h0 ops)).length < SIZE_MOD →
      hash_size (run h0 ops) = (run h0 ops).buckets.flatten.length ∧
      (run h0 ops).elem_cnt = ((run h0 ops).buckets.map List.length).sum) ∧
    (∀ (xs : List α) (alloc : α → Bool) (fuel : Nat),
      List.Perm xs (elems (run h0 ops)) → xs.length < fuel →
      ∃ ys, hash_iterate fuel (run h0 (xs.map (fun x => Op.insert x (alloc x)))) = some ys ∧
        List.Perm ys (elems (run h0 ops))) := by
  have hi := Inv_reachable hash less hs hc h0 hinit ops
  have hpos : ∀ g : Hash α, Inv g → 0 < g.bucket_cnt := by
    intro g hg
    obtain ⟨k, _, _, hk⟩ := hg.pow2
    rw [hk]; exact Nat.two_pow_pos k
  refine ⟨?_, hi.nodup, ?_, ?_⟩
  · intro fuel hf
    exact hash_iterate_eq _ hi.len (hpos _ hi) fuel hf
  · intro hsmall
    have h1 := hash_size_eq hi hsmall
    refine ⟨h1, ?_⟩
    rw [← List.length_flatten]
    exact h1
  · intro xs alloc fuel hperm hf
    rw [hash_init_eq] at hinit
    cases hinit
    have hi0 : Inv (init_table hash less) := Inv_init_table hash less hs hc
    have hl : (run (init_table hash less) ops).less = less := by rw [run_less]; rfl
    have hpw : xs.Pairwise (fun a b => equiv (init_table hash less) a b = false) := by
      have hnd : xs.Nodup := hperm.nodup_iff.2 hi.nodup
      refine List.Pairwise.imp_of_mem ?_ hnd
      intro a b ha hb hne
      by_contra hcon
      have heq : equiv (init_table hash less) a b = true := by simpa using hcon
      apply hne
      apply hi.noequiv a (hperm.mem_iff.1 ha) b (hperm.mem_iff.1 hb)
      unfold equiv at heq ⊢
      rw [hl]
      exact heq
    obtain ⟨hi2, hp2⟩ := run_inserts_perm alloc xs (init_table hash less) hi0 (by
      intro x _ y hy
      simp [elems, init_table] at hy) hpw
    have hel0 : elems (init_table hash less) = [] := by simp [elems, init_table]
    rw [hel0, List.append_nil] at hp2
    refine ⟨_, hash_iterate_eq _ hi2.len (hpos _ hi2) fuel (by rw [hp2.length_eq]; exact hf), ?_⟩
    exact hp2.trans hperm

/-- C6 at the example order: iterating the table of the records `(0, 0)` to
`(5, 0)` yields its six elements bucket by bucket. -/
theorem hash_iteration_complete_witness :
    hash_iterate 7 (key_table_upto 6) = some (key_table_upto 6).buckets.flatten ∧
      (key_table_upto 6).buckets.flatten = [(4, 0), (0, 0), (5, 0), (1, 0), (2, 0), (3, 0)] ∧
      hash_size (key_table_upto 6) = 6 :=
  ⟨(hash_iteration_complete key_hash key_less key_less_swo key_hash_compat
      (init_table key_hash key_less) (hash_init_eq key_hash key_less)
      ((List.range 6).map (fun i => Op.insert (i, 0) true))).1 7 (by decide),
   by decide,
   ((hash_iteration_complete key_hash key_less key_less_swo key_hash_compat
      (init_table key_hash key_less) (hash_init_eq key_hash key_less)
      ((List.range 6).map (fun i => Op.insert (i, 0) true))).2.2.1 (by decide)).1.trans
      (by decide)⟩

/-! ## Claims about file-backed pages -/

theorem file_backed_destroy_spt (s : vm_state) (p : page) :
    (file_backed_destroy s p).spt = s.spt := by
  unfold file_backed_destroy
  simp only
  split <;> rfl

theorem do_munmap_loop_spt (od : page → vm_state → vm_state) :
    ∀ (n : Nat) (s : vm_state) (addr : Nat), (do_munmap_loop od n s addr).spt = s.spt := by
  intro n
  induction n with
  | zero => intro s addr; rfl
  | succ n ih =>
    intro s addr
    unfold do_munmap_loop
    simp only
    rw [ih]
    cases hf : spt_find_page s addr with
    | none => rfl
    | some cur =>
      simp only
      by_cases ht : page_get_type cur = vm_type.VM_FILE
      · rw [if_pos ht]
        have hop : cur.operations = vm_type.VM_FILE := ht
        unfold destroy
        simp only [hop]
        exact file_backed_destroy_spt _ cur
      · rw [if_neg ht]

/-- The function `do_munmap` never unlinks a descriptor: the supplemental page
table it leaves is the one it was given. -/
theorem do_munmap_spt (od : page → vm_state → vm_state) (s : vm_state) (addr : Nat) :
    (do_munmap od s addr).spt = s.spt := by
  unfold do_munmap
  cases spt_find_page s addr with
  | none => rfl
  | some p =>
    simp only
    split
    · rfl
    · exact do_munmap_loop_spt od _ s addr

/-- C10, evaluated on the code.  `do_mmap` of 5000 bytes at the page-aligned
address 65536 on a thread without pages succeeds and registers the pages at
65536 and 69632.  After `do_munmap (65536)` both are still registered: straight
after the mapping, and also once both pages have been faulted in, when
`do_munmap` does invoke `destroy` on both. -/
theorem mmap_munmap_leaves_pages :
    do_mmap 10 (fun _ => true) 7 10000 empty_vm 65536 5000 true 0
      = mmap_result.returned mapped_example (some 65536) ∧
    spt_find_page empty_vm 65536 = none ∧ spt_find_page empty_vm 69632 = none ∧
    (spt_find_page mapped_example 65536).isSome = true ∧
    (spt_find_page mapped_example 69632).isSome = true ∧
    (spt_find_page (do_munmap (fun _ s => s) mapped_example 65536) 65536).isSome = true ∧
    (spt_find_page (do_munmap (fun _ s => s) mapped_example 65536) 69632).isSome = true ∧
    (do_munmap (fun _ s => s) (fault_in (fault_in mapped_example 65536) 69632) 65536).destroyed
      = [65536, 69632] ∧
    (spt_find_page
      (do_munmap (fun _ s => s) (fault_in (fault_in mapped_example 65536) 69632) 65536)
      65536).isSome = true ∧
    (spt_find_page
      (do_munmap (fun _ s => s) (fault_in (fault_in mapped_example 65536) 69632) 65536)
      69632).isSome = true := by
  refine ⟨?_, ?_, ?_, ?_, ?_, ?_, ?_, ?_, ?_, ?_⟩ <;> decide

/-! ## Claims about the hash functions and `hash_clear` -/

theorem hash_bytes_loop_eq : ∀ (buf : List Nat) (hash : Nat),
    hash_bytes_loop buf buf.length hash
      = (buf.map (fun b => b % 256)).foldl
          (fun hash b => ((hash * FNV_64_PRIME) % SIZE_MOD) ^^^ b) hash
  | [], hash => rfl
  | b :: buf, hash => by
    simp only [List.length_cons, hash_bytes_loop, List.map_cons, List.foldl_cons]
    exact hash_bytes_loop_eq buf _

theorem hash_string_loop_eq : ∀ (body rest : List Nat) (hash : Nat),
    (∀ c ∈ body, c % 256 ≠ 0) →
    hash_string_loop (body ++ 0 :: rest) hash = some (hash_bytes_loop body body.length hash)
  | [], rest, hash, _ => by simp [hash_string_loop, hash_bytes_loop]
  | c :: body, rest, hash, hne => by
    have hc : c % 256 ≠ 0 := hne c (List.mem_cons_self _ _)
    simp only [List.cons_append, hash_string_loop, if_neg hc, List.length_cons, hash_bytes_loop]
    exact hash_string_loop_eq body rest _ (fun x hx => hne x (List.mem_cons_of_mem _ hx))

/-- C19, as stated, fails: `hash_bytes` multiplies by the prime before it XORs
the byte in, which is FNV-1, not FNV-1a.  On the one byte `97` (the letter a)
it returns the published FNV-1 value, not the FNV-1a value. -/
theorem hash_bytes_not_fnv1a :
    hash_bytes [97] 1 = 0xaf63bd4c8601b7be ∧ fnv1a_64 [97] = 0xaf63dc4c8601ec8c ∧
      hash_bytes [97] 1 ≠ fnv1a_64 [97] := by
  refine ⟨?_, ?_, ?_⟩ <;> decide

/-- C19 (hash functions), amended.  The function `hash_bytes` is the 64-bit
FNV-1 hash: from the offset basis `0xcbf29ce484222325`, for each byte in order,
it first multiplies by the prime `0x100000001B3` modulo `2 ^ 64` and then XORs
the byte in.  The function `hash_string` returns `hash_bytes` over the bytes
before the terminator, and `hash_int` is `hash_bytes` over the four bytes of
its argument. -/
theorem hash_bytes_is_fnv1 :
    (∀ buf : List Nat, hash_bytes buf buf.length = fnv1_64 (buf.map (fun b => b % 256))) ∧
    (∀ body rest : List Nat, (∀ c ∈ body, c % 256 ≠ 0) →
      hash_string (body ++ 0 :: rest) = some (hash_bytes body body.length)) ∧
    (∀ i : Int, hash_int i = hash_bytes (int_bytes i) (int_bytes i).length ∧
      (int_bytes i).length = 4 ∧ ∀ b ∈ int_bytes i, b < 256) ∧
    FNV_64_BASIS = 0xcbf29ce484222325 ∧ FNV_64_PRIME = 0x100000001B3 := by
  refine ⟨fun buf => hash_bytes_loop_eq buf FNV_64_BASIS,
    fun body rest hne => hash_string_loop_eq body rest FNV_64_BASIS hne, ?_, rfl, rfl⟩
  intro i
  refine ⟨rfl, rfl, ?_⟩
  intro b hb
  simp only [int_bytes, List.mem_cons, List.mem_singleton, List.not_mem_nil, or_false] at hb
  rcases hb with h | h | h | h <;> (rw [h]; exact Nat.mod_lt _ (by decide))

/-- C19 (amended) on the string `ab`: `hash_string` and `hash_bytes` agree on
the FNV-1 value of the two bytes. -/
theorem hash_bytes_is_fnv1_witness :
    hash_bytes [97, 98] 2 = fnv1_64 [97, 98] ∧
      hash_string [97, 98, 0, 99] = some (hash_bytes [97, 98] 2) :=
  ⟨hash_bytes_is_fnv1.1 [97, 98], hash_bytes_is_fnv1.2.1 [97, 98] [99] (by decide)⟩

/-- C20 (`hash_clear`).  For a well-formed table `h`: after `hash_clear`,
`hash_size` is 0, every bucket chain is empty, `hash_find` returns nothing for
every probe, the iteration yields nothing, `bucket_cnt` and the bucket array
length are those of `h`; with a destructor, the destructor calls are exactly
the elements of `h`, each once, in bucket order then chain order; without one,
no call is made. -/
theorem hash_clear_contract (h : Hash α) (hwf : WF h) (destructor : Bool) :
    hash_size (hash_clear h destructor).1 = 0 ∧
    (∀ i, bucket_at (hash_clear h destructor).1.buckets i = []) ∧
    elems (hash_clear h destructor).1 = [] ∧
    (∀ e, (hash_find (hash_clear h destructor).1 e).2 = none) ∧
    (∀ fuel, 0 < fuel → hash_iterate fuel (hash_clear h destructor).1 = some []) ∧
    (hash_clear h destructor).1.bucket_cnt = h.bucket_cnt ∧
    (hash_clear h destructor).1.buckets.length = h.buckets.length ∧
    (destructor = true →
      (hash_clear h destructor).2 = elems h ∧ (hash_clear h destructor).2.Nodup ∧
      ∀ x, x ∈ (hash_clear h destructor).2 ↔ x ∈ elems h) ∧
    (destructor = false → (hash_clear h destructor).2 = []) := by
  obtain ⟨hi, _⟩ := hwf
  have heq := hash_clear_eq hi.len destructor
  have hinv := Inv_hash_clear hi destructor
  have hel := hash_clear_elems hi.len destructor
  have hpos : 0 < (hash_clear h destructor).1.bucket_cnt := by
    obtain ⟨k, _, _, hk⟩ := hinv.pow2
    rw [hk]; exact Nat.two_pow_pos k
  refine ⟨by rw [heq]; rfl, ?_, hel, ?_, ?_, by rw [heq], ?_, ?_, ?_⟩
  · intro i
    by_contra hne
    obtain ⟨x, hx⟩ := List.exists_mem_of_ne_nil _ hne
    have := bucket_at_mem_flatten hx
    have hnil : (hash_clear h destructor).1.buckets.flatten = [] := hel
    rw [hnil] at this
    exact absurd this (List.not_mem_nil _)
  · intro e
    unfold hash_find hash_empty
    rw [heq]
    simp
  · intro fuel hf
    have := hash_iterate_eq _ hinv.len hpos fuel (by rw [hel]; exact hf)
    rw [this, hel]
  · rw [heq, List.length_replicate]; exact hi.len.symm
  · intro hd
    subst hd
    rw [heq]
    exact ⟨rfl, hi.nodup, fun x => Iff.rfl⟩
  · intro hd
    subst hd
    rw [heq]
    rfl

/-- C20 at the example table: clearing it with a destructor calls the
destructor on its three records and leaves an empty table of 4 buckets. -/
theorem hash_clear_contract_witness :
    WF key_table ∧ hash_size (hash_clear key_table true).1 = 0 ∧
      (hash_clear key_table true).2 = [(5, 0), (1, 0), (2, 0)] ∧
      (hash_find (hash_clear key_table true).1 (1, 0)).2 = none ∧
      (hash_clear key_table true).1.bucket_cnt = 4 :=
  ⟨key_table_WF,
   (hash_clear_contract key_table key_table_WF true).1,
   ((hash_clear_contract key_table key_table_WF true).2.2.2.2.2.2.2.1 rfl).1.trans
     key_table_elems,
   (hash_clear_contract key_table key_table_WF true).2.2.2.1 (1, 0),
   (hash_clear_contract key_table key_table_WF true).2.2.2.2.2.1.trans (by decide)⟩

/-! ## The pages `do_mmap` registers -/

theorem to_int32_of_range {x : Int} (h1 : -2147483648 ≤ x) (h2 : x < 2147483648) :
    to_int32 x = x := by
  unfold to_int32
  omega

theorem size_sub_of_le {a b : Nat} (h : b ≤ a) : size_sub a b = a - b := by
  unfold size_sub
  rw [if_pos h]

theorem vm_alloc_eq (ok : Bool) (s : vm_state) (va : Nat) (w : Bool) (aux : lazy_load_arg) :
    vm_alloc_page_with_initializer ok s vm_type.VM_FILE va w aux
      = if ok = true ∧ spt_find_page s va = none
        then ({ s with spt := s.spt ++ [pending_file_page va w aux] }, true)
        else (s, false) := by
  unfold vm_alloc_page_with_initializer
  cases ok with
  | false => simp
  | true =>
    cases hf : spt_find_page s va with
    | none => simp [pending_file_page]
    | some q => simp

theorem spt_find_page_append (s : vm_state) (l : List page) (va : Nat) :
    spt_find_page { s with spt := s.spt ++ l } va
      = (spt_find_page s va).or (l.find? (fun p => p.va == va)) := by
  unfold spt_find_page
  simp only [List.find?_append]

/-- Storing the count the first page already holds changes nothing. -/
theorem set_mapped_page_count_same (s : vm_state) (va : Nat) (c : Int) (q : page)
    (hq : spt_find_page s va = some q) (hc : q.mapped_page_count = c) :
    set_mapped_page_count s va c = s := by
  unfold set_mapped_page_count
  have hmap : s.spt.map (fun p =>
      if p.va == va ∧ (spt_find_page s va) = some p then { p with mapped_page_count := c }
      else p) = s.spt := by
    conv_rhs => rw [← List.map_id s.spt]
    apply List.map_congr_left
    intro p _
    by_cases hp : (p.va == va) = true ∧ spt_find_page s va = some p
    · rw [if_pos hp]
      have hpq : p = q := by
        have := hp.2
        rw [hq] at this
        exact (Option.some.inj this).symm
      subst hpq
      rw [← hc]
      rfl
    · rw [if_neg hp]
      rfl
  rw [hmap]

/-- Storing the count after the first registration sets it on the page just
registered and on no other. -/
theorem set_mapped_page_count_first (s : vm_state) (va : Nat) (c : Int) (p0 : page)
    (hnone : spt_find_page s va = none) (hva : p0.va = va) :
    set_mapped_page_count { s with spt := s.spt ++ [p0] } va c
      = { s with spt := s.spt ++ [{ p0 with mapped_page_count := c }] } := by
  have hfind : spt_find_page { s with spt := s.spt ++ [p0] } va = some p0 := by
    rw [spt_find_page_append, hnone]
    simp [hva]
  unfold set_mapped_page_count
  rw [hfind]
  simp only [List.map_append, List.map_cons, List.map_nil]
  have hold : s.spt.map (fun p =>
      if p.va == va ∧ some p0 = some p then { p with mapped_page_count := c } else p)
      = s.spt := by
    conv_rhs => rw [← List.map_id s.spt]
    apply List.map_congr_left
    intro p hp
    have hne : ¬ ((p.va == va) = true) := by
      intro hc
      unfold spt_find_page at hnone
      rw [List.find?_eq_none] at hnone
      exact hnone p hp hc
    rw [if_neg (fun h => hne h.1)]
    rfl
  rw [hold]
  simp [hva]

theorem do_mmap_loop_done (alloc_ok : Nat → Bool) (start : Nat) (count : Int) (w : Bool)
    (f fuel : Nat) (s : vm_state) (a : Nat) (off : Int) :
    do_mmap_loop alloc_ok start count w f fuel s 0 0 a off
      = mmap_result.returned s (some start) := by
  cases fuel <;> simp [do_mmap_loop]

theorem do_mmap_loop_step (alloc_ok : Nat → Bool) (start : Nat) (count : Int) (w : Bool)
    (f fuel : Nat) (s : vm_state) (rb zb a : Nat) (off : Int) (h : rb > 0 ∨ zb > 0) :
    do_mmap_loop alloc_ok start count w f (fuel + 1) s rb zb a off
      = if alloc_ok a = true ∧ spt_find_page s a = none then
          do_mmap_loop alloc_ok start count w f fuel
            (set_mapped_page_count
              { s with spt := s.spt ++ [pending_file_page a w
                { file := f, ofs := off,
                  read_bytes := if rb < PGSIZE then rb else PGSIZE,
                  zero_bytes := size_sub PGSIZE (if rb < PGSIZE then rb else PGSIZE) }] }
              start count)
            (size_sub rb (if rb < PGSIZE then rb else PGSIZE))
            (size_sub zb (size_sub PGSIZE (if rb < PGSIZE then rb else PGSIZE)))
            ((a + PGSIZE) % SIZE_MOD)
            (to_int32 (off + (if rb < PGSIZE then rb else PGSIZE : Nat)))
        else mmap_result.returned s none := by
  rw [do_mmap_loop]
  simp only [if_pos h, vm_alloc_eq]
  split_ifs <;> rfl

theorem mmap_pages_succ (w : Bool) (f n a : Nat) (off : Int) (rb : Nat) :
    mmap_pages w f (n + 1) a off rb
      = pending_file_page a w
          { file := f, ofs := off, read_bytes := if rb < PGSIZE then rb else PGSIZE,
            zero_bytes := size_sub PGSIZE (if rb < PGSIZE then rb else PGSIZE) } ::
        mmap_pages w f n ((a + PGSIZE) % SIZE_MOD)
          (to_int32 (off + (if rb < PGSIZE then rb else PGSIZE : Nat)))
          (size_sub rb (if rb < PGSIZE then rb else PGSIZE)) := rfl

theorem fresh_pages_cons (s : vm_state) (q : page) (l : List page)
    (hq : spt_find_page s q.va = none)
    (hl : fresh_pages { s with spt := s.spt ++ [q] } l) : fresh_pages s (q :: l) := by
  have hsplit : ∀ p ∈ l, spt_find_page s p.va = none ∧ q.va ≠ p.va := by
    intro p hp
    have h1 := hl.1 p hp
    rw [spt_find_page_append] at h1
    cases hs : spt_find_page s p.va with
    | some x => rw [hs] at h1; exact Option.noConfusion h1
    | none =>
      rw [hs] at h1
      refine ⟨rfl, ?_⟩
      intro hva
      simp [hva] at h1
  refine ⟨?_, ?_⟩
  · intro p hp
    rcases List.mem_cons.1 hp with rfl | hp2
    · exact hq
    · exact (hsplit p hp2).1
  · rw [List.map_cons, List.nodup_cons]
    refine ⟨?_, hl.2⟩
    intro hmem
    obtain ⟨p, hp, hva⟩ := List.mem_map.1 hmem
    exact (hsplit p hp).2 hva.symm

/-- A descriptor of a list of fresh pages appended to the page table is the
one `spt_find_page` returns for its address. -/
theorem spt_find_page_fresh (s : vm_state) : ∀ (l : List page) (i : Nat) (p : page),
    fresh_pages s l → l[i]? = some p →
    spt_find_page { s with spt := s.spt ++ l } p.va = some p := by
  intro l i p hf hp
  have hmem : p ∈ l := List.getElem?_mem hp
  rw [spt_find_page_append, hf.1 p hmem]
  show l.find? (fun q => q.va == p.va) = some p
  clear hp
  induction l with
  | nil => exact absurd hmem (List.not_mem_nil _)
  | cons q l ih =>
    have hnd : q.va ∉ l.map (fun p => p.va) ∧ (l.map (fun p => p.va)).Nodup :=
      List.nodup_cons.1 hf.2
    rcases List.mem_cons.1 hmem with rfl | hp2
    · simp
    · have hne : ¬ (q.va = p.va) := by
        intro hva
        exact hnd.1 (hva ▸ List.mem_map.2 ⟨p, hp2, rfl⟩)
      rw [List.find?_cons_of_neg _ (by simpa using hne)]
      exact ih ⟨fun x hx => hf.1 x (List.mem_cons_of_mem _ hx), hnd.2⟩ hp2

/-- The loop of `do_mmap`, once the count is stored on the first page: when it
returns an address, it has appended to the page table exactly the descriptors
of `read_bytes / PGSIZE + 1` iterations. -/
theorem do_mmap_loop_rest (alloc_ok : Nat → Bool) (start : Nat) (count : Int) (w : Bool)
    (f : Nat) : ∀ (fuel : Nat) (s : vm_state) (rb zb a : Nat) (off : Int) (s1 : vm_state)
      (r : Nat),
    zb = size_sub PGSIZE (rb % PGSIZE) →
    (∃ q, spt_find_page s start = some q ∧ q.mapped_page_count = count) →
    do_mmap_loop alloc_ok start count w f fuel s rb zb a off
      = mmap_result.returned s1 (some r) →
    r = start ∧ s1 = { s with spt := s.spt ++ mmap_pages w f (rb / PGSIZE + 1) a off rb } ∧
      fresh_pages s (mmap_pages w f (rb / PGSIZE + 1) a off rb) := by
  intro fuel
  induction fuel with
  | zero =>
    intro s rb zb a off s1 r hzb _ hret
    have hlt : rb % PGSIZE < PGSIZE := Nat.mod_lt _ (by decide)
    have hz : zb > 0 := by
      rw [hzb, size_sub_of_le (Nat.le_of_lt hlt)]
      omega
    simp [do_mmap_loop, hz] at hret
  | succ fuel ih =>
    intro s rb zb a off s1 r hzb hfirst hret
    obtain ⟨q, hq, hqc⟩ := hfirst
    have hlt : rb % PGSIZE < PGSIZE := Nat.mod_lt _ (by decide)
    have hzv : zb = PGSIZE - rb % PGSIZE := by
      rw [hzb, size_sub_of_le (Nat.le_of_lt hlt)]
    have hz : zb > 0 := by omega
    rw [do_mmap_loop_step _ _ _ _ _ _ _ _ _ _ _ (Or.inr hz)] at hret
    by_cases hreg : alloc_ok a = true ∧ spt_find_page s a = none
    · rw [if_pos hreg] at hret
      have hfind : ∀ p : page, spt_find_page { s with spt := s.spt ++ [p] } start = some q := by
        intro p
        rw [spt_find_page_append, hq]
        rfl
      rw [set_mapped_page_count_same _ start count q (hfind _) hqc] at hret
      by_cases hsmall : rb < PGSIZE
      · simp only [if_pos hsmall] at hret
        have h1 : size_sub rb rb = 0 := by rw [size_sub_of_le le_rfl, Nat.sub_self]
        have h2 : size_sub zb (size_sub PGSIZE rb) = 0 := by
          rw [size_sub_of_le (Nat.le_of_lt hsmall), hzv, Nat.mod_eq_of_lt hsmall,
            size_sub_of_le le_rfl, Nat.sub_self]
        rw [h1, h2, do_mmap_loop_done] at hret
        injection hret with hs hr
        have hdiv : rb / PGSIZE = 0 := Nat.div_eq_of_lt hsmall
        refine ⟨(Option.some.inj hr).symm, ?_, ?_⟩
        · rw [← hs, hdiv, mmap_pages_succ, if_pos hsmall]
          rfl
        · rw [hdiv, mmap_pages_succ, if_pos hsmall]
          exact fresh_pages_cons s _ [] hreg.2 ⟨fun p hp => absurd hp (List.not_mem_nil _),
            List.nodup_nil⟩
      · simp only [if_neg hsmall] at hret
        have hge : PGSIZE ≤ rb := Nat.le_of_not_lt hsmall
        have h1 : size_sub rb PGSIZE = rb - PGSIZE := size_sub_of_le hge
        have h2 : size_sub zb (size_sub PGSIZE PGSIZE) = zb := by
          rw [size_sub_of_le le_rfl, Nat.sub_self, size_sub_of_le (Nat.zero_le _), Nat.sub_zero]
        have hmod : (rb - PGSIZE) % PGSIZE = rb % PGSIZE := by
          have := Nat.sub_add_cancel hge
          conv_rhs => rw [← this]
          rw [Nat.add_mod_right]
        have hdiv : rb / PGSIZE = (rb - PGSIZE) / PGSIZE + 1 := by
          have := Nat.sub_add_cancel hge
          conv_lhs => rw [← this]
          rw [Nat.add_div_right _ (by decide)]
        rw [h1, h2] at hret
        obtain ⟨hr, hs, hfr⟩ := ih _ (rb - PGSIZE) zb _ _ s1 r (by rw [hmod]; exact hzb)
          ⟨q, hfind _, hqc⟩ hret
        refine ⟨hr, ?_, ?_⟩
        · rw [hs, hdiv, mmap_pages_succ w f ((rb - PGSIZE) / PGSIZE + 1), if_neg hsmall, h1]
          simp only [List.append_assoc, List.singleton_append]
        · rw [hdiv, mmap_pages_succ w f ((rb - PGSIZE) / PGSIZE + 1), if_neg hsmall, h1]
          exact fresh_pages_cons s _ _ hreg.2 hfr
    · rw [if_neg hreg] at hret
      injection hret with _ hr
      exact Option.noConfusion hr

/-- The descriptors a successful `do_mmap` appends to the page table: those of
the loop, with the page count stored on the first. -/
theorem do_mmap_success (fuel : Nat) (alloc_ok : Nat → Bool) (f flen : Nat) (s : vm_state)
    (addr length : Nat) (w : Bool) (offset : Int) (s1 : vm_state) (r : Nat)
    (hret : do_mmap fuel alloc_ok f flen s addr length w offset
      = mmap_result.returned s1 (some r)) :
    r = addr ∧ spt_find_page s addr = none ∧ addr % PGSIZE = 0 ∧ offset % PGSIZE = 0 ∧
    ∃ first rest,
      mmap_pages w f ((if flen < length then flen else length) / PGSIZE + 1) addr offset
        (if flen < length then flen else length) = first :: rest ∧
      s1 = { s with spt := s.spt ++
        { first with mapped_page_count := mmap_page_count length } :: rest } ∧
      fresh_pages s ({ first with mapped_page_count := mmap_page_count length } :: rest) := by
  unfold do_mmap at hret
  simp only at hret
  generalize hR : (if flen < length then flen else length) = R at hret ⊢
  have hcount : (to_int32 (if length ≤ PGSIZE then 1
      else if length % PGSIZE ≠ 0 then (length / PGSIZE + 1) % SIZE_MOD else length / PGSIZE))
      = mmap_page_count length := rfl
  rw [hcount] at hret
  by_cases hassert : (R + size_sub PGSIZE (R % PGSIZE)) % SIZE_MOD % PGSIZE ≠ 0
  · rw [if_pos hassert] at hret
    exact mmap_result.noConfusion hret
  rw [if_neg hassert] at hret
  by_cases haddr : addr % PGSIZE ≠ 0
  · rw [if_pos haddr] at hret
    exact mmap_result.noConfusion hret
  rw [if_neg haddr] at hret
  by_cases hoff : offset % PGSIZE ≠ 0
  · rw [if_pos hoff] at hret
    exact mmap_result.noConfusion hret
  rw [if_neg hoff] at hret
  have haddr2 : addr % PGSIZE = 0 := not_not.1 haddr
  have hoff2 : offset % PGSIZE = 0 := not_not.1 hoff
  have hlt : R % PGSIZE < PGSIZE := Nat.mod_lt _ (by decide)
  have hzv : size_sub PGSIZE (R % PGSIZE) = PGSIZE - R % PGSIZE :=
    size_sub_of_le (Nat.le_of_lt hlt)
  have hz : size_sub PGSIZE (R % PGSIZE) > 0 := by rw [hzv]; omega
  cases fuel with
  | zero => simp [do_mmap_loop, hz] at hret
  | succ fuel =>
    rw [do_mmap_loop_step _ _ _ _ _ _ _ _ _ _ _ (Or.inr hz)] at hret
    by_cases hreg : alloc_ok addr = true ∧ spt_find_page s addr = none
    · rw [if_pos hreg] at hret
      rw [set_mapped_page_count_first s addr (mmap_page_count length) _ hreg.2 rfl] at hret
      have hfind : ∃ q, spt_find_page
          { s with spt := s.spt ++ [{ pending_file_page addr w
              { file := f, ofs := offset, read_bytes := if R < PGSIZE then R else PGSIZE,
                zero_bytes := size_sub PGSIZE (if R < PGSIZE then R else PGSIZE) }
            with mapped_page_count := mmap_page_count length }] } addr = some q ∧
          q.mapped_page_count = mmap_page_count length := by
        refine ⟨{ pending_file_page addr w
              { file := f, ofs := offset, read_bytes := if R < PGSIZE then R else PGSIZE,
                zero_bytes := size_sub PGSIZE (if R < PGSIZE then R else PGSIZE) }
            with mapped_page_count := mmap_page_count length }, ?_, rfl⟩
        rw [spt_find_page_append, hreg.2]
        simp [pending_file_page]
      by_cases hsmall : R < PGSIZE
      · simp only [if_pos hsmall] at hret hfind
        have h1 : size_sub R R = 0 := by rw [size_sub_of_le le_rfl, Nat.sub_self]
        have h2 : size_sub (size_sub PGSIZE (R % PGSIZE)) (size_sub PGSIZE R) = 0 := by
          rw [Nat.mod_eq_of_lt hsmall, size_sub_of_le le_rfl, Nat.sub_self]
        rw [h1, h2, do_mmap_loop_done] at hret
        injection hret with hs hr
        have hdiv : R / PGSIZE = 0 := Nat.div_eq_of_lt hsmall
        refine ⟨(Option.some.inj hr).symm, hreg.2, haddr2, hoff2,
          pending_file_page addr w
            { file := f, ofs := offset, read_bytes := R, zero_bytes := size_sub PGSIZE R },
          [], ?_, hs.symm, ?_⟩
        · rw [hdiv, mmap_pages_succ, if_pos hsmall]
          rfl
        · exact fresh_pages_cons s _ [] hreg.2 ⟨fun p hp => absurd hp (List.not_mem_nil _),
            List.nodup_nil⟩
      · simp only [if_neg hsmall] at hret hfind
        have hge : PGSIZE ≤ R := Nat.le_of_not_lt hsmall
        have h1 : size_sub R PGSIZE = R - PGSIZE := size_sub_of_le hge
        have h2 : size_sub (size_sub PGSIZE (R % PGSIZE)) (size_sub PGSIZE PGSIZE)
            = size_sub PGSIZE (R % PGSIZE) := by
          rw [size_sub_of_le (le_refl PGSIZE), Nat.sub_self, size_sub_of_le (Nat.zero_le _),
            Nat.sub_zero]
        have hmod : (R - PGSIZE) % PGSIZE = R % PGSIZE := by
          have := Nat.sub_add_cancel hge
          conv_rhs => rw [← this]
          rw [Nat.add_mod_right]
        have hdiv : R / PGSIZE = (R - PGSIZE) / PGSIZE + 1 := by
          have := Nat.sub_add_cancel hge
          conv_lhs => rw [← this]
          rw [Nat.add_div_right _ (by decide)]
        rw [h1, h2] at hret
        obtain ⟨hr, hs, hfr⟩ := do_mmap_loop_rest alloc_ok addr (mmap_page_count length) w f
          fuel _ (R - PGSIZE) _ _ _ s1 r (by rw [hmod]) hfind hret
        refine ⟨hr, hreg.2, haddr2, hoff2,
          pending_file_page addr w
            { file := f, ofs := offset, read_bytes := PGSIZE,
              zero_bytes := size_sub PGSIZE PGSIZE },
          mmap_pages w f ((R - PGSIZE) / PGSIZE + 1) ((addr + PGSIZE) % SIZE_MOD)
            (to_int32 (offset + (PGSIZE : Nat))) (R - PGSIZE), ?_, ?_, ?_⟩
        · rw [hdiv, mmap_pages_succ w f ((R - PGSIZE) / PGSIZE + 1), if_neg hsmall, h1]
        · rw [hs]
          simp only [List.append_assoc, List.singleton_append]
        · exact fresh_pages_cons s _ _ hreg.2 hfr
    · rw [if_neg hreg] at hret
      injection hret with _ hr
      exact Option.noConfusion hr

/-- The loop of `do_mmap` ends within `read_bytes / PGSIZE + 1` iterations: with
that much fuel it returns. -/
theorem do_mmap_loop_fuel (alloc_ok : Nat → Bool) (start : Nat) (count : Int) (w : Bool)
    (f : Nat) : ∀ (fuel : Nat) (s : vm_state) (rb zb a : Nat) (off : Int),
    zb = size_sub PGSIZE (rb % PGSIZE) → rb / PGSIZE < fuel →
    do_mmap_loop alloc_ok start count w f fuel s rb zb a off ≠ mmap_result.out_of_fuel := by
  intro fuel
  induction fuel with
  | zero => intro s rb zb a off _ hf; exact absurd hf (Nat.not_lt_zero _)
  | succ fuel ih =>
    intro s rb zb a off hzb hf
    have hlt : rb % PGSIZE < PGSIZE := Nat.mod_lt _ (by decide)
    have hzv : zb = PGSIZE - rb % PGSIZE := by
      rw [hzb, size_sub_of_le (Nat.le_of_lt hlt)]
    have hz : zb > 0 := by omega
    rw [do_mmap_loop_step _ _ _ _ _ _ _ _ _ _ _ (Or.inr hz)]
    by_cases hreg : alloc_ok a = true ∧ spt_find_page s a = none
    · rw [if_pos hreg]
      by_cases hsmall : rb < PGSIZE
      · simp only [if_pos hsmall]
        have h1 : size_sub rb rb = 0 := by rw [size_sub_of_le le_rfl, Nat.sub_self]
        have h2 : size_sub zb (size_sub PGSIZE rb) = 0 := by
          rw [size_sub_of_le (Nat.le_of_lt hsmall), hzv, Nat.mod_eq_of_lt hsmall,
            size_sub_of_le le_rfl, Nat.sub_self]
        rw [h1, h2, do_mmap_loop_done]
        exact fun h => mmap_result.noConfusion h
      · simp only [if_neg hsmall]
        have hge : PGSIZE ≤ rb := Nat.le_of_not_lt hsmall
        have h1 : size_sub rb PGSIZE = rb - PGSIZE := size_sub_of_le hge
        have h2 : size_sub zb (size_sub PGSIZE PGSIZE) = zb := by
          rw [size_sub_of_le le_rfl, Nat.sub_self, size_sub_of_le (Nat.zero_le _), Nat.sub_zero]
        have hmod : (rb - PGSIZE) % PGSIZE = rb % PGSIZE := by
          have := Nat.sub_add_cancel hge
          conv_rhs => rw [← this]
          rw [Nat.add_mod_right]
        have hdiv : rb / PGSIZE = (rb - PGSIZE) / PGSIZE + 1 := by
          have := Nat.sub_add_cancel hge
          conv_lhs => rw [← this]
          rw [Nat.add_div_right _ (by decide)]
        rw [h1, h2]
        exact ih _ (rb - PGSIZE) zb _ _ (by rw [hmod]; exact hzb) (by omega)
    · rw [if_neg hreg]
      exact fun h => mmap_result.noConfusion h

/-- A call of `do_mmap` with fuel for `min (file_length, length) / PGSIZE + 1`
iterations does not run out of fuel. -/
theorem do_mmap_fuel (fuel : Nat) (alloc_ok : Nat → Bool) (f flen : Nat) (s : vm_state)
    (addr length : Nat) (w : Bool) (offset : Int)
    (hf : (if flen < length then flen else length) / PGSIZE < fuel) :
    do_mmap fuel alloc_ok f flen s addr length w offset ≠ mmap_result.out_of_fuel := by
  unfold do_mmap
  simp only
  generalize hR : (if flen < length then flen else length) = R at hf ⊢
  by_cases hassert : (R + size_sub PGSIZE (R % PGSIZE)) % SIZE_MOD % PGSIZE ≠ 0
  · rw [if_pos hassert]
    exact fun h => mmap_result.noConfusion h
  rw [if_neg hassert]
  by_cases haddr : addr % PGSIZE ≠ 0
  · rw [if_pos haddr]
    exact fun h => mmap_result.noConfusion h
  rw [if_neg haddr]
  by_cases hoff : offset % PGSIZE ≠ 0
  · rw [if_pos hoff]
    exact fun h => mmap_result.noConfusion h
  rw [if_neg hoff]
  exact do_mmap_loop_fuel alloc_ok addr _ w f fuel s R _ addr offset rfl hf

theorem mmap_pages_length (w : Bool) (f : Nat) : ∀ (n a : Nat) (off : Int) (rb : Nat),
    (mmap_pages w f n a off rb).length = n
  | 0, _, _, _ => rfl
  | n + 1, a, off, rb => by
    rw [mmap_pages_succ, List.length_cons, mmap_pages_length w f n]

theorem mmap_pages_count_zero (w : Bool) (f : Nat) : ∀ (n a : Nat) (off : Int) (rb : Nat),
    ∀ p ∈ mmap_pages w f n a off rb, p.mapped_page_count = 0
  | 0, _, _, _ => fun p hp => absurd hp (List.not_mem_nil _)
  | n + 1, a, off, rb => by
    intro p hp
    rw [mmap_pages_succ] at hp
    rcases List.mem_cons.1 hp with rfl | hp2
    · rfl
    · exact mmap_pages_count_zero w f n _ _ _ p hp2

/-- The `i`-th descriptor of the loop of `do_mmap`, when every page before the
last is read in full and neither the address nor the `off_t` arithmetic
wraps. -/
theorem mmap_pages_get (w : Bool) (f : Nat) : ∀ (n a : Nat) (off : Int) (rb i : Nat),
    i < n → (n - 1) * PGSIZE ≤ rb → a + (n - 1) * PGSIZE < SIZE_MOD →
    -2147483648 ≤ off → off + ((n - 1) * PGSIZE : Nat) < 2147483648 →
    (mmap_pages w f n a off rb)[i]? = some (pending_file_page (a + i * PGSIZE) w
      { file := f, ofs := off + (i * PGSIZE : Nat),
        read_bytes := min PGSIZE (rb - i * PGSIZE),
        zero_bytes := PGSIZE - min PGSIZE (rb - i * PGSIZE) }) := by
  intro n
  induction n with
  | zero => intro a off rb i hi; omega
  | succ n ih =>
    intro a off rb i hi hfull haddr hlo hhi
    rw [mmap_pages_succ]
    have hprb : (if rb < PGSIZE then rb else PGSIZE) = min PGSIZE rb := by
      unfold PGSIZE; split <;> omega
    have hzero : size_sub PGSIZE (min PGSIZE rb) = PGSIZE - min PGSIZE rb :=
      size_sub_of_le (Nat.min_le_left _ _)
    cases i with
    | zero =>
      simp only [List.getElem?_cons_zero, hprb, hzero, Nat.zero_mul, Nat.add_zero, Nat.sub_zero,
        Nat.cast_zero, Int.add_zero]
    | succ j =>
      have hn : 1 ≤ n := by omega
      have hge : PGSIZE ≤ rb := by
        have : 1 * PGSIZE ≤ (n + 1 - 1) * PGSIZE := Nat.mul_le_mul_right _ (by omega)
        omega
      have hbig : ¬ rb < PGSIZE := by omega
      have hmul : (n + 1 - 1) * PGSIZE = (n - 1) * PGSIZE + PGSIZE := by
        have : n + 1 - 1 = (n - 1) + 1 := by omega
        rw [this, Nat.add_mul, Nat.one_mul]
      rw [hmul] at hfull haddr hhi
      have ha : (a + PGSIZE) % SIZE_MOD = a + PGSIZE := Nat.mod_eq_of_lt (by omega)
      have hoff : to_int32 (off + (PGSIZE : Nat)) = off + (PGSIZE : Nat) := by
        apply to_int32_of_range
        · have : (0 : Int) ≤ (PGSIZE : Nat) := Int.ofNat_nonneg _
          omega
        · push_cast at hhi ⊢
          have : (0 : Int) ≤ ((n - 1 : Nat) : Int) * (PGSIZE : Int) :=
            Int.mul_nonneg (Int.ofNat_nonneg _) (Int.ofNat_nonneg _)
          push_cast at this
          omega
      simp only [List.getElem?_cons_succ, if_neg hbig, ha, hoff, size_sub_of_le hge]
      rw [ih (a + PGSIZE) (off + (PGSIZE : Nat)) (rb - PGSIZE) j (by omega) (by omega) (by omega)
        (by have : (0 : Int) ≤ (PGSIZE : Nat) := Int.ofNat_nonneg _; omega)
        (by push_cast at hhi ⊢; omega)]
      have e1 : a + PGSIZE + j * PGSIZE = a + (j + 1) * PGSIZE := by
        rw [Nat.add_mul, Nat.one_mul]; omega
      have e2 : rb - PGSIZE - j * PGSIZE = rb - (j + 1) * PGSIZE := by
        rw [Nat.add_mul, Nat.one_mul]; omega
      have e3 : off + (PGSIZE : Nat) + ((j * PGSIZE : Nat) : Int)
          = off + (((j + 1) * PGSIZE : Nat) : Int) := by
        push_cast; ring
      rw [e1, e2, e3]

/-- The read counts of the descriptors of the loop of `do_mmap` add up to
`read_bytes`. -/
theorem mmap_pages_read_sum (w : Bool) (f : Nat) : ∀ (n a : Nat) (off : Int) (rb : Nat),
    rb / PGSIZE = n →
    ((mmap_pages w f (n + 1) a off rb).map (fun p => p.uninit_aux.read_bytes)).sum = rb := by
  intro n
  induction n with
  | zero =>
    intro a off rb hdiv
    have hsmall : rb < PGSIZE := by
      unfold PGSIZE at hdiv ⊢; omega
    simp [mmap_pages, pending_file_page, hsmall]
  | succ n ih =>
    intro a off rb hdiv
    have hge : PGSIZE ≤ rb := by
      unfold PGSIZE at hdiv ⊢; omega
    have hbig : ¬ rb < PGSIZE := by omega
    rw [mmap_pages_succ, List.map_cons, List.sum_cons, if_neg hbig, size_sub_of_le hge,
      ih _ _ (rb - PGSIZE) (by unfold PGSIZE at hdiv hge ⊢; omega)]
    show PGSIZE + (rb - PGSIZE) = rb
    omega

/-! ## Claims about `do_mmap`, `do_munmap` and the page operations -/

theorem read_bytes_eq_min (flen length : Nat) :
    (if flen < length then flen else length) = min flen length := by
  split <;> omega

theorem mmap_page_count_eq (length : Nat) (hlen : 0 < length)
    (hfit : pages_ceil length < 2147483648) :
    mmap_page_count length = (pages_ceil length : Int) := by
  unfold mmap_page_count pages_ceil to_int32 PGSIZE SIZE_MOD at *
  split_ifs <;> omega

/-- C11, evaluated on the code.  For a file of 10000 bytes, `do_mmap` of
exactly 4096 bytes at 65536 succeeds, registers two pages (at 65536 and 69632)
and stores the page count 1 on the first.  Once both pages are faulted in,
`do_munmap (65536)` invokes `destroy` on the page at 65536 only: the page at
69632 is never destroyed and its mapping stays installed.  For a file of 100
bytes, `do_mmap` of 4097 bytes registers one page and stores the count 2. -/
theorem munmap_misses_registered_page :
    do_mmap 10 (fun _ => true) 7 10000 empty_vm 65536 4096 true 0
      = mmap_result.returned mapped_one_page (some 65536) ∧
    mapped_one_page.spt.map (fun p => p.va) = [65536, 69632] ∧
    (spt_find_page mapped_one_page 65536).map (fun p => p.mapped_page_count) = some 1 ∧
    (do_munmap (fun _ s => s) (fault_in (fault_in mapped_one_page 65536) 69632) 65536).destroyed
      = [65536] ∧
    69632 ∈ (do_munmap (fun _ s => s)
      (fault_in (fault_in mapped_one_page 65536) 69632) 65536).present ∧
    mapped_short_file.spt.map (fun p => p.va) = [65536] ∧
    (spt_find_page mapped_short_file 65536).map (fun p => p.mapped_page_count) = some 2 := by
  refine ⟨?_, ?_, ?_, ?_, ?_, ?_, ?_⟩ <;> decide

/-- C12 (`file_backed_destroy`).  For every state and page:
`file_backed_destroy` issues a write exactly when the page's address is dirty;
then it is the one write of `read_bytes` bytes from the page's address at the
stored offset `ofs` of the backing file, and the dirty bit is cleared
afterwards; when the address is not dirty no write is issued and the dirty
bits are kept; in both cases the mapping of the page's address is removed, the
other mappings are kept, and the descriptors of the page table are
unchanged. -/
theorem file_backed_destroy_policy (s : vm_state) (p : page) :
    (pml4_is_dirty s p.va = true →
      (file_backed_destroy s p).writes
        = s.writes ++ [{ file := p.file.file, buffer := p.va, size := p.file.read_bytes,
                         ofs := p.file.ofs }] ∧
      pml4_is_dirty (file_backed_destroy s p) p.va = false) ∧
    (pml4_is_dirty s p.va = false →
      (file_backed_destroy s p).writes = s.writes ∧
      (file_backed_destroy s p).dirty = s.dirty) ∧
    ((file_backed_destroy s p).writes ≠ s.writes ↔ pml4_is_dirty s p.va = true) ∧
    p.va ∉ (file_backed_destroy s p).present ∧
    (∀ a, a ≠ p.va → (a ∈ (file_backed_destroy s p).present ↔ a ∈ s.present)) ∧
    (file_backed_destroy s p).spt = s.spt ∧
    (file_backed_destroy s p).reads = s.reads ∧
    (file_backed_destroy s p).destroyed = s.destroyed := by
  cases hd : pml4_is_dirty s p.va with
  | true =>
    have hfd : file_backed_destroy s p
        = pml4_clear_page (pml4_set_dirty
            (file_write_at s p.file.file p.va p.file.read_bytes p.file.ofs) p.va false) p.va := by
      unfold file_backed_destroy
      simp only [hd, if_true]
    rw [hfd]
    refine ⟨fun _ => ⟨rfl, ?_⟩, fun h => Bool.noConfusion h, ?_, ?_, ?_, rfl, rfl, rfl⟩
    · simp [pml4_is_dirty, pml4_clear_page, pml4_set_dirty, file_write_at]
    · simp [pml4_clear_page, pml4_set_dirty, file_write_at]
    · simp [pml4_clear_page, pml4_set_dirty, file_write_at]
    · intro a ha
      simp [pml4_clear_page, pml4_set_dirty, file_write_at, ha]
  | false =>
    have hfd : file_backed_destroy s p = pml4_clear_page s p.va := by
      unfold file_backed_destroy
      simp [hd]
    rw [hfd]
    refine ⟨fun h => Bool.noConfusion h, fun _ => ⟨rfl, rfl⟩, ?_, ?_, ?_, rfl, rfl, rfl⟩
    · simp [pml4_clear_page]
    · simp [pml4_clear_page]
    · intro a ha
      simp [pml4_clear_page, ha]

/-- C13, evaluated on the code.  For a file of 10000 bytes, `do_mmap` of
exactly `PGSIZE` bytes at 65536 registers two descriptors, at 65536 and at
69632, not one.  For a file of 100 bytes, `do_mmap` of `PGSIZE + 1` bytes
registers one descriptor, at 65536, and none at 69632. -/
theorem mmap_boundary_page_counts :
    PGSIZE = 4096 ∧
    do_mmap 10 (fun _ => true) 7 10000 empty_vm 65536 4096 true 0
      = mmap_result.returned mapped_one_page (some 65536) ∧
    mapped_one_page.spt.length = 2 ∧
    (spt_find_page mapped_one_page 69632).isSome = true ∧
    do_mmap 10 (fun _ => true) 7 100 empty_vm 65536 4097 true 0
      = mmap_result.returned mapped_short_file (some 65536) ∧
    mapped_short_file.spt.length = 1 ∧
    spt_find_page mapped_short_file 69632 = none := by
  refine ⟨?_, ?_, ?_, ?_, ?_, ?_, ?_⟩ <;> decide

/-- C14, as stated, fails for a length whose page count does not fit an
`int`: `do_mmap` of `2 ^ 43` bytes succeeds and stores `-2147483648` on the
first page, while the number of pages rounded up is `2147483648`. -/
theorem mmap_page_count_wraps :
    (∃ s, do_mmap 10 (fun _ => true) 7 100 empty_vm 65536 8796093022208 true 0
      = mmap_result.returned s (some 65536) ∧
      (spt_find_page s 65536).map (fun p => p.mapped_page_count) = some (-2147483648)) ∧
    pages_ceil 8796093022208 = 2147483648 :=
  ⟨⟨(do_mmap 10 (fun _ => true) 7 100 empty_vm 65536 8796093022208 true 0).state,
    by decide, by decide⟩, by decide⟩

/-- C14 (page count), amended.  For every length greater than 0 whose number
of pages rounded up fits an `int`, the page count `do_mmap` computes is
`length / PGSIZE` rounded up (1 for `PGSIZE`, 2 for `PGSIZE + 1`); after a
successful `do_mmap` the descriptor `spt_find_page` returns for the starting
address is the first one registered and holds that count, and every other
descriptor the call registered lies at another address and holds the count 0
of a fresh descriptor. -/
theorem mmap_page_count_stored (fuel : Nat) (alloc_ok : Nat → Bool) (f flen : Nat)
    (s : vm_state) (addr length : Nat) (w : Bool) (offset : Int) (s1 : vm_state) (r : Nat)
    (hlen : 0 < length) (hfit : pages_ceil length < 2147483648)
    (hret : do_mmap fuel alloc_ok f flen s addr length w offset
      = mmap_result.returned s1 (some r)) :
    mmap_page_count length = (pages_ceil length : Int) ∧
    mmap_page_count PGSIZE = 1 ∧ mmap_page_count (PGSIZE + 1) = 2 ∧
    ∃ first rest, s1.spt = s.spt ++ first :: rest ∧ r = addr ∧ first.va = addr ∧
      spt_find_page s1 addr = some first ∧
      first.mapped_page_count = (pages_ceil length : Int) ∧
      ∀ p ∈ rest, p.va ≠ addr ∧ p.mapped_page_count = 0 := by
  have hcnt := mmap_page_count_eq length hlen hfit
  obtain ⟨hr, _, _, _, first, rest, hpages, hs1, hfresh⟩ :=
    do_mmap_success fuel alloc_ok f flen s addr length w offset s1 r hret
  have hfirst : first.va = addr := by
    rw [mmap_pages_succ] at hpages
    injection hpages with h1 _
    rw [← h1]; rfl
  have hrest : ∀ p ∈ rest, p.mapped_page_count = 0 := by
    intro p hp
    apply mmap_pages_count_zero w f _ addr offset (if flen < length then flen else length) p
    rw [hpages]
    exact List.mem_cons_of_mem _ hp
  refine ⟨hcnt, by decide, by decide,
    { first with mapped_page_count := mmap_page_count length }, rest, by rw [hs1], hr, hfirst,
    ?_, hcnt, ?_⟩
  · rw [hs1]
    have := spt_find_page_fresh s _ 0 { first with mapped_page_count := mmap_page_count length }
      hfresh (List.getElem?_cons_zero)
    rw [← hfirst]
    exact this
  · intro p hp
    refine ⟨?_, hrest p hp⟩
    have hnd := List.nodup_cons.1 hfresh.2
    intro hva
    apply hnd.1
    rw [List.mem_map]
    exact ⟨p, hp, by rw [hva]; exact hfirst.symm⟩

/-- C14 (amended) at the example mapping of 5000 bytes: the count stored on the
page at 65536 is 2. -/
theorem mmap_page_count_stored_witness :
    do_mmap 10 (fun _ => true) 7 10000 empty_vm 65536 5000 true 0
      = mmap_result.returned mapped_example (some 65536) ∧
    mmap_page_count 5000 = 2 ∧ pages_ceil 5000 = 2 :=
  ⟨by decide,
   (mmap_page_count_stored 10 (fun _ => true) 7 10000 empty_vm 65536 5000 true 0 mapped_example
      65536 (by decide) (by decide) (by decide)).1.trans (by decide),
   by decide⟩

/-- C15, as stated, fails when the `off_t` arithmetic wraps: for a file of 8192
bytes, `do_mmap` of 8192 bytes at offset 2147479552 succeeds and registers the
second page with the offset `-2147483648`, not `offset + PGSIZE`. -/
theorem mmap_page_offset_wraps :
    (∃ s, do_mmap 10 (fun _ => true) 7 8192 empty_vm 65536 8192 true 2147479552
      = mmap_result.returned s (some 65536) ∧
      (spt_find_page s (65536 + 1 * PGSIZE)).map (fun p => p.uninit_aux.ofs)
        = some (-2147483648)) ∧
    (2147479552 : Int) + (1 * PGSIZE : Nat) = 2147483648 :=
  ⟨⟨(do_mmap 10 (fun _ => true) 7 8192 empty_vm 65536 8192 true 2147479552).state,
    by decide, by decide⟩, by decide⟩

/-- C15 (read/zero split), amended.  Let `R = min (file_length, length)`.  When
neither the address arithmetic nor the `off_t` arithmetic wraps on the way to
the last page, a successful `do_mmap` appends `R / PGSIZE + 1` descriptors to
the page table, and for every `i` up to `R / PGSIZE` the `i`-th of them is the
one registered at `addr + i * PGSIZE`, pending with a file-backed target, with
the reopened handle, `ofs = offset + i * PGSIZE`,
`read_bytes = min (PGSIZE, R - i * PGSIZE)` and
`zero_bytes = PGSIZE - read_bytes`; so each page has
`read_bytes + zero_bytes = PGSIZE`, and the `read_bytes` add up to `R`. -/
theorem mmap_page_split (fuel : Nat) (alloc_ok : Nat → Bool) (f flen : Nat)
    (s : vm_state) (addr length : Nat) (w : Bool) (offset : Int) (s1 : vm_state) (r : Nat)
    (hret : do_mmap fuel alloc_ok f flen s addr length w offset
      = mmap_result.returned s1 (some r))
    (haddr : addr + (min flen length / PGSIZE) * PGSIZE < SIZE_MOD)
    (hlo : -2147483648 ≤ offset)
    (hhi : offset + ((min flen length / PGSIZE) * PGSIZE : Nat) < 2147483648) :
    ∃ pages, s1.spt = s.spt ++ pages ∧ pages.length = min flen length / PGSIZE + 1 ∧
      (∀ i, i ≤ min flen length / PGSIZE → ∃ p, pages[i]? = some p ∧
        spt_find_page s1 (addr + i * PGSIZE) = some p ∧
        p.va = addr + i * PGSIZE ∧ p.operations = vm_type.VM_UNINIT ∧
        p.uninit_type = vm_type.VM_FILE ∧
        p.uninit_aux = { file := f, ofs := offset + (i * PGSIZE : Nat),
                         read_bytes := min PGSIZE (min flen length - i * PGSIZE),
                         zero_bytes := PGSIZE - min PGSIZE (min flen length - i * PGSIZE) } ∧
        p.uninit_aux.read_bytes + p.uninit_aux.zero_bytes = PGSIZE) ∧
      (pages.map (fun p => p.uninit_aux.read_bytes)).sum = min flen length := by
  obtain ⟨_, _, _, _, first, rest, hpages, hs1, hfresh⟩ :=
    do_mmap_success fuel alloc_ok f flen s addr length w offset s1 r hret
  rw [read_bytes_eq_min] at hpages
  generalize hR : min flen length = R at *
  have hfull : (R / PGSIZE + 1 - 1) * PGSIZE ≤ R := by
    rw [Nat.add_sub_cancel]; exact Nat.div_mul_le_self R PGSIZE
  have hget : ∀ i, i ≤ R / PGSIZE →
      (first :: rest)[i]? = some (pending_file_page (addr + i * PGSIZE) w
        { file := f, ofs := offset + (i * PGSIZE : Nat),
          read_bytes := min PGSIZE (R - i * PGSIZE),
          zero_bytes := PGSIZE - min PGSIZE (R - i * PGSIZE) }) := by
    intro i hi
    rw [← hpages]
    exact mmap_pages_get w f (R / PGSIZE + 1) addr offset R i (by omega) hfull
      (by rw [Nat.add_sub_cancel]; exact haddr) hlo (by rw [Nat.add_sub_cancel]; exact hhi)
  have hlen : (first :: rest).length = R / PGSIZE + 1 := by
    rw [← hpages, mmap_pages_length]
  have hsum : ((first :: rest).map (fun p => p.uninit_aux.read_bytes)).sum = R := by
    rw [← hpages]
    exact mmap_pages_read_sum w f (R / PGSIZE) addr offset R rfl
  refine ⟨{ first with mapped_page_count := mmap_page_count length } :: rest, by rw [hs1],
    hlen, ?_, hsum⟩
  intro i hi
  have hg := hget i hi
  have hsplit : min PGSIZE (R - i * PGSIZE) + (PGSIZE - min PGSIZE (R - i * PGSIZE)) = PGSIZE :=
    Nat.add_sub_cancel' (Nat.min_le_left _ _)
  cases i with
  | zero =>
    have hf0 : first = pending_file_page (addr + 0 * PGSIZE) w
        { file := f, ofs := offset + (0 * PGSIZE : Nat),
          read_bytes := min PGSIZE (R - 0 * PGSIZE),
          zero_bytes := PGSIZE - min PGSIZE (R - 0 * PGSIZE) } := by
      simpa using hg
    refine ⟨{ first with mapped_page_count := mmap_page_count length },
      List.getElem?_cons_zero, ?_,
      by rw [hf0]; rfl, by rw [hf0]; rfl, by rw [hf0]; rfl, by rw [hf0]; rfl,
      by rw [hf0]; exact hsplit⟩
    have := spt_find_page_fresh s _ 0 { first with mapped_page_count := mmap_page_count length }
      hfresh (List.getElem?_cons_zero)
    rw [hs1]
    have hva : ({ first with mapped_page_count := mmap_page_count length } : page).va
        = addr + 0 * PGSIZE := by rw [hf0]; rfl
    rw [← hva]
    exact this
  | succ j =>
    have hgj : ({ first with mapped_page_count := mmap_page_count length } :: rest)[j + 1]?
        = some (pending_file_page (addr + (j + 1) * PGSIZE) w
          { file := f, ofs := offset + ((j + 1) * PGSIZE : Nat),
            read_bytes := min PGSIZE (R - (j + 1) * PGSIZE),
            zero_bytes := PGSIZE - min PGSIZE (R - (j + 1) * PGSIZE) }) := by
      rw [List.getElem?_cons_succ] at hg ⊢
      exact hg
    refine ⟨_, hgj, ?_, rfl, rfl, rfl, rfl, hsplit⟩
    have := spt_find_page_fresh s _ (j + 1) _ hfresh hgj
    rw [hs1]
    exact this

/-- C15 (amended) at the example mapping of 5000 bytes of a file of 10000
bytes at 65536: the page at 69632 reads 904 bytes at offset 4096 and zeroes
3192. -/
theorem mmap_page_split_witness :
    do_mmap 10 (fun _ => true) 7 10000 empty_vm 65536 5000 true 0
      = mmap_result.returned mapped_example (some 65536) ∧
    ∃ pages, mapped_example.spt = empty_vm.spt ++ pages ∧
      pages.length = min 10000 5000 / PGSIZE + 1 ∧
      (pages.map (fun p => p.uninit_aux.read_bytes)).sum = min 10000 5000 :=
  ⟨by decide,
   (mmap_page_split 10 (fun _ => true) 7 10000 empty_vm 65536 5000 true 0 mapped_example 65536
      (by decide) (by decide) (by decide) (by decide)).imp
      (fun _ h => ⟨h.1, h.2.1, h.2.2.2⟩)⟩

/-- C16 (`do_munmap` on an unmapped or not file-backed address).  When the page
table holds no descriptor at `addr`, or holds one whose `page_get_type` is not
file-backed, `do_munmap (addr)` returns the state it was given: `destroy` is
invoked on no page, and the page table, the mappings, the dirty bits and the
file writes are unchanged. -/
theorem do_munmap_noop (od : page → vm_state → vm_state) (s : vm_state) (addr : Nat)
    (h : spt_find_page s addr = none ∨
      ∃ p, spt_find_page s addr = some p ∧ page_get_type p ≠ vm_type.VM_FILE) :
    do_munmap od s addr = s ∧
    (do_munmap od s addr).destroyed = s.destroyed ∧
    (do_munmap od s addr).spt = s.spt ∧
    (do_munmap od s addr).present = s.present ∧
    (do_munmap od s addr).dirty = s.dirty ∧
    (do_munmap od s addr).writes = s.writes := by
  have heq : do_munmap od s addr = s := by
    unfold do_munmap
    rcases h with h | ⟨p, hp, ht⟩
    · rw [h]
    · rw [hp]
      simp only
      rw [if_pos ht]
  rw [heq]
  exact ⟨rfl, rfl, rfl, rfl, rfl, rfl⟩

/-- C16 at the examples: `do_munmap` at the unmapped address 4096 and at the
address 65536 of a page that is still pending leaves the state as it was. -/
theorem do_munmap_noop_witness :
    spt_find_page mapped_example 4096 = none ∧
    do_munmap (fun _ s => s) mapped_example 4096 = mapped_example ∧
    do_munmap (fun _ s => s) mapped_example 65536 = mapped_example :=
  ⟨by decide,
   (do_munmap_noop (fun _ s => s) mapped_example 4096 (Or.inl (by decide))).1,
   (do_munmap_noop (fun _ s => s) mapped_example 65536
      (Or.inr ⟨mapped_example_first, by decide, by decide⟩)).1⟩

/-- The function `file_backed_swap_in` changes nothing and returns no value. -/
theorem file_backed_swap_in_eq (s : vm_state) (p : page) (kva : Nat) :
    file_backed_swap_in s p kva = (s, none) := rfl

/-- The function `file_backed_swap_out` changes nothing and returns no value. -/
theorem file_backed_swap_out_eq (s : vm_state) (p : page) :
    file_backed_swap_out s p = (s, none) := rfl

/-- C17, evaluated on the code.  For the file-backed page at 65536 of the
example state, whose payload asks for 4096 bytes of file 7, and a frame at
1048576, `file_backed_swap_in` issues no read, leaves the state as it was and
returns no value: it reports neither success nor failure. -/
theorem file_backed_swap_in_reads_nothing :
    dirty_page.operations = vm_type.VM_FILE ∧ dirty_page.file.read_bytes = 4096 ∧
    (file_backed_swap_in dirty_example dirty_page 1048576).1.reads = [] ∧
    (file_backed_swap_in dirty_example dirty_page 1048576).1 = dirty_example ∧
    (file_backed_swap_in dirty_example dirty_page 1048576).2 = none := by
  refine ⟨?_, ?_, ?_, ?_, ?_⟩ <;> decide

/-- C18, evaluated on the code.  For the resident file-backed page at 65536 of
the example state, whose address is dirty, `file_backed_swap_out` issues no
write, keeps the dirty bit and leaves the mapping installed, whereas
`file_backed_destroy` on the same input writes the 4096 bytes back, clears the
dirty bit and removes the mapping. -/
theorem file_backed_swap_out_writes_nothing :
    spt_find_page dirty_example 65536 = some dirty_page ∧
    pml4_is_dirty dirty_example 65536 = true ∧
    (file_backed_swap_out dirty_example dirty_page).1.writes = [] ∧
    pml4_is_dirty (file_backed_swap_out dirty_example dirty_page).1 65536 = true ∧
    65536 ∈ (file_backed_swap_out dirty_example dirty_page).1.present ∧
    (file_backed_swap_out dirty_example dirty_page).2 = none ∧
    (file_backed_destroy dirty_example dirty_page).writes
      = [{ file := 7, buffer := 65536, size := 4096, ofs := 0 }] ∧
    pml4_is_dirty (file_backed_destroy dirty_example dirty_page) 65536 = false ∧
    65536 ∉ (file_backed_destroy dirty_example dirty_page).present := by
  refine ⟨?_, ?_, ?_, ?_, ?_, ?_, ?_, ?_, ?_⟩ <;> decide

/-! ## Bucket placement -/

/-- An operation that calls `rehash` leaves the table `rehash` returns. -/
theorem apply_eq_rehash (h g : Hash α) (op : Op α) (hg : rehash_arg h op = some g) :
    Op.apply h op = rehash (Op.malloc_ok op) g := by
  cases op with
  | insert new ok =>
    simp only [rehash_arg, Option.some.injEq] at hg
    subst hg
    rfl
  | replace new ok =>
    simp only [rehash_arg, Option.some.injEq] at hg
    subst hg
    rfl
  | delete e ok =>
    cases hf : find_elem h (find_bucket h e) (some e) with
    | none => simp [rehash_arg, hf] at hg
    | some f =>
      simp only [rehash_arg, hf, Option.some.injEq] at hg
      subst hg
      show (hash_delete ok h e).1 = _
      rw [hash_delete_found hf]
      rfl
  | clear d => simp [rehash_arg] at hg

/-- The table handed to `rehash` satisfies the invariant. -/
theorem Inv_rehash_arg {h : Hash α} (hi : Inv h) (op : Op α) (g : Hash α)
    (hg : rehash_arg h op = some g) : Inv g := by
  cases op with
  | insert new ok =>
    simp only [rehash_arg, Option.some.injEq] at hg
    subst hg
    cases hf : find_elem h (find_bucket h new) (some new) with
    | none =>
      rw [if_pos rfl]
      exact (Inv_insert_elem hi new ((find_elem_eq_none_iff hi new).1 hf)).1
    | some old =>
      rw [if_neg (fun hc => Option.noConfusion hc)]
      exact hi
  | replace new ok =>
    simp only [rehash_arg, Option.some.injEq] at hg
    subst hg
    cases hf : find_elem h (find_bucket h new) (some new) with
    | none => exact (Inv_insert_elem hi new ((find_elem_eq_none_iff hi new).1 hf)).1
    | some old =>
      obtain ⟨h1, h2⟩ := (find_elem_eq_some_iff hi new old).1 hf
      exact (replace_core hi h1 h2).1
  | delete e ok =>
    cases hf : find_elem h (find_bucket h e) (some e) with
    | none => simp [rehash_arg, hf] at hg
    | some f =>
      simp only [rehash_arg, hf, Option.some.injEq] at hg
      subst hg
      obtain ⟨h1, _⟩ := (find_elem_eq_some_iff hi e f).1 hf
      exact (Inv_remove_elem hi f h1).1
  | clear d => simp [rehash_arg] at hg

/-- Under the invariant every element lies in the chain its hash selects. -/
theorem Inv_mem_own_bucket {h : Hash α} (hi : Inv h) {e : α} (he : e ∈ elems h) :
    e ∈ bucket_at h.buckets (find_bucket h e) := by
  obtain ⟨i, _, hei⟩ := mem_flatten_bucket_at he
  rw [hi.placed i e hei]
  exact hei

/-- C22 (bucket placement).  Starting from the table `hash_init` produces, with
a strict weak order `less` and a hash function that agrees on equivalent
elements, after every sequence of `hash_insert`, `hash_replace`, `hash_delete`
and `hash_clear` calls, whatever the allocations in `rehash` do: the index
`hash (e) & (bucket_cnt - 1)` that `find_bucket` computes is less than
`bucket_cnt` for every `e`; every element held lies in the chain of that bucket
and in no other chain; and whenever a further operation calls `rehash` and the
allocation succeeds, `rehash` keeps exactly the elements (a permutation of
them, without duplicates), installs the bucket count it aims at and leaves
every element in the chain of the bucket its hash selects under the new bucket
count. -/
theorem bucket_placement_invariant (hash : α → Nat) (less : α → α → Bool)
    (hs : StrictWeakOrder less)
    (hc : ∀ a b, less a b = false → less b a = false → hash a = hash b) (h0 : Hash α)
    (hinit : hash_init true hash less = some h0) (ops : List (Op α)) :
    (∀ e, find_bucket (run h0 ops) e < (run h0 ops).bucket_cnt) ∧
    (∀ e ∈ elems (run h0 ops),
      e ∈ bucket_at (run h0 ops).buckets (find_bucket (run h0 ops) e)) ∧
    (∀ i e, e ∈ bucket_at (run h0 ops).buckets i → i = find_bucket (run h0 ops) e) ∧
    (∀ op g, rehash_arg (run h0 ops) op = some g →
      List.Perm (elems (rehash true g)) (elems g) ∧
      (elems (rehash true g)).Nodup ∧
      (rehash true g).bucket_cnt = rehash_target g.elem_cnt ∧
      (rehash true g).buckets.length = (rehash true g).bucket_cnt ∧
      (∀ e, find_bucket (rehash true g) e < (rehash true g).bucket_cnt) ∧
      (∀ e ∈ elems g,
        e ∈ bucket_at (rehash true g).buckets (find_bucket (rehash true g) e)) ∧
      (∀ i e, e ∈ bucket_at (rehash true g).buckets i →
        i = find_bucket (rehash true g) e)) := by
  have hi := Inv_reachable hash less hs hc h0 hinit ops
  refine ⟨fun e => find_bucket_lt hi.pow2 e, fun e he => Inv_mem_own_bucket hi he,
    fun i e he => (hi.placed i e he).symm, ?_⟩
  intro op g hg
  have hig := Inv_rehash_arg hi op g hg
  obtain ⟨hir, hperm⟩ := Inv_rehash hig true
  refine ⟨hperm, hir.nodup, rehash_true_bucket_cnt g, hir.len,
    fun e => find_bucket_lt hir.pow2 e, ?_, fun i e he => (hir.placed i e he).symm⟩
  intro e he
  exact Inv_mem_own_bucket hir (hperm.symm.subset he)

/-- C22 at the example table of the fifteen records `(0, 0)`, ..., `(14, 0)`,
which has 4 buckets: the record `(5, 0)` lies in the chain of bucket
`5 & 3 = 1`, and the `rehash` that the insertion of `(15, 0)` calls installs
`16 / 2 = 8` buckets and leaves `(5, 0)` in the chain of its bucket. -/
theorem bucket_placement_invariant_witness :
    find_bucket (run (init_table key_hash key_less)
        ((List.range 15).map (fun i => Op.insert (i, 0) true))) (5, 0) = 1 ∧
    (5, 0) ∈ bucket_at (run (init_table key_hash key_less)
        ((List.range 15).map (fun i => Op.insert (i, 0) true))).buckets 1 ∧
    (rehash true (insert_elem (key_table_upto 15) 3 (15, 0))).bucket_cnt = 8 ∧
    (5, 0) ∈ bucket_at (rehash true (insert_elem (key_table_upto 15) 3 (15, 0))).buckets
      (find_bucket (rehash true (insert_elem (key_table_upto 15) 3 (15, 0))) (5, 0)) :=
  ⟨by decide,
   (bucket_placement_invariant key_hash key_less key_less_swo key_hash_compat
      (init_table key_hash key_less) (hash_init_eq key_hash key_less)
      ((List.range 15).map (fun i => Op.insert (i, 0) true))).2.1 (5, 0) (by decide),
   by decide,
   ((bucket_placement_invariant key_hash key_less key_less_swo key_hash_compat
      (init_table key_hash key_less) (hash_init_eq key_hash key_less)
      ((List.range 15).map (fun i => Op.insert (i, 0) true))).2.2.2
      (Op.insert (15, 0) true) (insert_elem (key_table_upto 15) 3 (15, 0))
      rfl).2.2.2.2.2.1 (5, 0) (by decide)⟩

/-! ## Claims about lib/string.c -/

/-- The ascending copy loop on regions with `dst < src` that do not wrap: `dst`
ends `size` bytes further, the bytes at `dst` are those that were at `src`,
and no other byte changes. -/
theorem copy_forward_spec : ∀ (size : Nat) (m : Nat → Nat) (dst src : Nat),
    dst < src → src + size < SIZE_MOD →
    (copy_forward size m dst src).2 = dst + size ∧
    (∀ i, i < size → (copy_forward size m dst src).1 (dst + i) = m (src + i)) ∧
    (∀ x, x < dst ∨ dst + size ≤ x → (copy_forward size m dst src).1 x = m x) := by
  intro size
  induction size with
  | zero =>
    intro m dst src _ _
    exact ⟨rfl, fun i hi => absurd hi (Nat.not_lt_zero _), fun x _ => rfl⟩
  | succ size ih =>
    intro m dst src hlt hfit
    have hd : (dst + 1) % SIZE_MOD = dst + 1 := Nat.mod_eq_of_lt (by omega)
    have hs : (src + 1) % SIZE_MOD = src + 1 := Nat.mod_eq_of_lt (by omega)
    have hstep : copy_forward (size + 1) m dst src
        = copy_forward size (store_byte m dst (m src)) (dst + 1) (src + 1) := by
      rw [copy_forward, hd, hs]
    obtain ⟨h1, h2, h3⟩ := ih (store_byte m dst (m src)) (dst + 1) (src + 1) (by omega) (by omega)
    rw [hstep]
    refine ⟨by rw [h1]; omega, ?_, ?_⟩
    · intro i hi
      cases i with
      | zero =>
        have e := h3 dst (Or.inl (Nat.lt_succ_self dst))
        show (copy_forward size (store_byte m dst (m src)) (dst + 1) (src + 1)).1 dst = m src
        rw [e]
        simp [store_byte]
      | succ i =>
        have := h2 i (by omega)
        rw [show dst + (i + 1) = dst + 1 + i by omega, this,
          show src + 1 + i = src + (i + 1) by omega]
        have hne : src + (i + 1) ≠ dst := by omega
        simp [store_byte, hne]
    · intro x hx
      rw [h3 x (by omega)]
      have hne : x ≠ dst := by omega
      simp [store_byte, hne]

/-- The descending copy loop, started at the ends `dst` and `src` of two
regions of `size` bytes with `src ≤ dst`: `dst` ends at the start of its
region, the bytes of that region are those that were in the region of `src`,
and no other byte changes. -/
theorem copy_backward_spec : ∀ (size : Nat) (m : Nat → Nat) (dst src : Nat),
    size ≤ src → src ≤ dst →
    (copy_backward size m dst src).2 = dst - size ∧
    (∀ i, i < size →
      (copy_backward size m dst src).1 (dst - size + i) = m (src - size + i)) ∧
    (∀ x, x < dst - size ∨ dst ≤ x → (copy_backward size m dst src).1 x = m x) := by
  intro size
  induction size with
  | zero =>
    intro m dst src _ _
    exact ⟨rfl, fun i hi => absurd hi (Nat.not_lt_zero _), fun x _ => rfl⟩
  | succ size ih =>
    intro m dst src hfit hle
    have hd : size_pred dst = dst - 1 := by unfold size_pred; rw [if_neg (by omega)]
    have hs : size_pred src = src - 1 := by unfold size_pred; rw [if_neg (by omega)]
    have hstep : copy_backward (size + 1) m dst src
        = copy_backward size (store_byte m (dst - 1) (m (src - 1))) (dst - 1) (src - 1) := by
      rw [copy_backward, hd, hs]
    obtain ⟨h1, h2, h3⟩ := ih (store_byte m (dst - 1) (m (src - 1))) (dst - 1) (src - 1)
      (by omega) (by omega)
    rw [hstep]
    refine ⟨by rw [h1]; omega, ?_, ?_⟩
    · intro i hi
      by_cases hlast : i = size
      · subst hlast
        rw [show dst - (i + 1) + i = dst - 1 by omega, h3 (dst - 1) (Or.inr le_rfl),
          show src - (i + 1) + i = src - 1 by omega]
        simp [store_byte]
      · have := h2 i (by omega)
        rw [show dst - (size + 1) + i = dst - 1 - size + i by omega, this,
          show src - 1 - size + i = src - (size + 1) + i by omega]
        have hne : src - (size + 1) + i ≠ dst - 1 := by omega
        simp [store_byte, hne]
    · intro x hx
      rw [h3 x (by omega)]
      have hne : x ≠ dst - 1 := by omega
      simp [store_byte, hne]

/-- The function `memmove` on non-null regions that do not wrap: the bytes at
`dst` afterwards are those that were at `src`, no other byte changes, and the
returned pointer is `dst` when `src ≤ dst` but `dst + size` when `dst < src`. -/
theorem memmove_spec (m : Nat → Nat) (dst src size : Nat) (hd : 0 < dst) (hs : 0 < src)
    (hdfit : dst + size < SIZE_MOD) (hsfit : src + size < SIZE_MOD) :
    ∃ m1 r, memmove m dst src size = some (m1, r) ∧
      r = (if dst < src then dst + size else dst) ∧
      (∀ i, i < size → m1 (dst + i) = m (src + i)) ∧
      (∀ x, x < dst ∨ dst + size ≤ x → m1 x = m x) := by
  have ha1 : ¬ ¬ (dst ≠ 0 ∨ size = 0) := fun h => h (Or.inl (by omega))
  have ha2 : ¬ ¬ (src ≠ 0 ∨ size = 0) := fun h => h (Or.inl (by omega))
  unfold memmove
  simp only [if_neg ha1, if_neg ha2]
  by_cases hlt : dst < src
  · obtain ⟨h1, h2, h3⟩ := copy_forward_spec size m dst src hlt hsfit
    refine ⟨(copy_forward size m dst src).1, (copy_forward size m dst src).2, ?_, ?_, h2, h3⟩
    · rw [if_pos hlt]
    · rw [if_pos hlt, h1]
  · have hle : src ≤ dst := Nat.le_of_not_lt hlt
    rw [Nat.mod_eq_of_lt hdfit, Nat.mod_eq_of_lt hsfit]
    obtain ⟨h1, h2, h3⟩ := copy_backward_spec size m (dst + size) (src + size)
      (Nat.le_add_left _ _) (by omega)
    refine ⟨(copy_backward size m (dst + size) (src + size)).1,
      (copy_backward size m (dst + size) (src + size)).2, ?_, ?_, ?_, ?_⟩
    · rw [if_neg hlt]
    · rw [if_neg hlt, h1]; omega
    · intro i hi
      have := h2 i hi
      rw [Nat.add_sub_cancel, Nat.add_sub_cancel] at this
      exact this
    · intro x hx
      exact h3 x (by omega)

/-- The function `memcpy` returns the pointer it was given. -/
theorem memcpy_returns_dst (m m1 : Nat → Nat) (dst src size r : Nat)
    (h : memcpy m dst src size = some (m1, r)) : r = dst := by
  unfold memcpy at h
  simp only at h
  split at h
  · exact Option.noConfusion h
  · split at h
    · exact Option.noConfusion h
    · injection h with h
      injection h with _ h
      exact h.symm

/-- C21 (memmove returns DST), at `memmove (8, 10, 4)` on the example memory:
the four bytes at 8 afterwards are the bytes 70, 77, 84, 91 that were at 10, but
the pointer returned is 12, the destination advanced by `size`, not the
destination 8 the call was given; `memmove (10, 8, 4)`, whose destination is
not below its source, returns its destination 10, and so does `memcpy`, which
runs the same ascending loop: `memcpy (8, 20, 4)` returns 8. -/
theorem memmove_returns_advanced_dst :
    returned_and_bytes (memmove example_memory 8 10 4) 8 = some (12, [70, 77, 84, 91]) ∧
    returned_and_bytes (memmove example_memory 10 8 4) 10 = some (10, [56, 63, 70, 77]) ∧
    returned_and_bytes (memcpy example_memory 8 20 4) 8 = some (8, [140, 147, 154, 161]) := by
  refine ⟨?_, ?_, ?_⟩ <;> decide

/-! ## Termination of the loop of `do_mmap` -/

theorem spt_find_page_eq_none (s : vm_state) (x : Nat) :
    spt_find_page s x = none ↔ ∀ p ∈ s.spt, p.va ≠ x := by
  unfold spt_find_page
  rw [List.find?_eq_none]
  constructor
  · intro h p hp hva
    exact h p hp (by simp [hva])
  · intro h p hp hva
    exact h p hp (by simpa using hva)

/-- Storing the page count changes no address of the page table. -/
theorem spt_find_page_set_count_none (s : vm_state) (va : Nat) (c : Int) (x : Nat) :
    spt_find_page (set_mapped_page_count s va c) x = none ↔ spt_find_page s x = none := by
  rw [spt_find_page_eq_none, spt_find_page_eq_none]
  unfold set_mapped_page_count
  simp only [List.mem_map]
  constructor
  · intro h p hp
    have := h _ ⟨p, hp, rfl⟩
    split at this <;> exact this
  · rintro h q ⟨p, hp, rfl⟩
    split <;> exact h p hp

theorem spt_find_page_snoc_none (s : vm_state) (p : page) (x : Nat) :
    spt_find_page { s with spt := s.spt ++ [p] } x = none ↔
      spt_find_page s x = none ∧ p.va ≠ x := by
  rw [spt_find_page_eq_none, spt_find_page_eq_none]
  simp only [List.mem_append, List.mem_singleton]
  constructor
  · intro h
    exact ⟨fun q hq => h q (Or.inl hq), h p (Or.inr rfl)⟩
  · rintro ⟨h1, h2⟩ q (hq | rfl)
    · exact h1 q hq
    · exact h2

theorem do_mmap_loop_counters_done (alloc_ok : Nat → Bool) (start : Nat) (count : Int) (w : Bool)
    (f fuel : Nat) (s : vm_state) (a : Nat) (off : Int) :
    do_mmap_loop_counters alloc_ok start count w f fuel s 0 0 a off = [(0, 0)] := by
  cases fuel <;> simp [do_mmap_loop_counters]

theorem do_mmap_loop_counters_step (alloc_ok : Nat → Bool) (start : Nat) (count : Int) (w : Bool)
    (f fuel : Nat) (s : vm_state) (rb zb a : Nat) (off : Int) (h : rb > 0 ∨ zb > 0) :
    do_mmap_loop_counters alloc_ok start count w f (fuel + 1) s rb zb a off
      = if alloc_ok a = true ∧ spt_find_page s a = none then
          (rb, zb) :: do_mmap_loop_counters alloc_ok start count w f fuel
            (set_mapped_page_count
              { s with spt := s.spt ++ [pending_file_page a w
                { file := f, ofs := off,
                  read_bytes := if rb < PGSIZE then rb else PGSIZE,
                  zero_bytes := size_sub PGSIZE (if rb < PGSIZE then rb else PGSIZE) }] }
              start count)
            (size_sub rb (if rb < PGSIZE then rb else PGSIZE))
            (size_sub zb (size_sub PGSIZE (if rb < PGSIZE then rb else PGSIZE)))
            ((a + PGSIZE) % SIZE_MOD)
            (to_int32 (off + (if rb < PGSIZE then rb else PGSIZE : Nat)))
        else [(rb, zb)] := by
  rw [do_mmap_loop_counters]
  simp only [if_pos h, vm_alloc_eq]
  split_ifs <;> rfl

/-- The recorded counters belong to the loop of `do_mmap`: the record is never
empty, and the loop returns the start address exactly when the last test of
its condition saw both counters at zero. -/
theorem do_mmap_loop_counters_last (alloc_ok : Nat → Bool) (start : Nat) (count : Int)
    (w : Bool) (f : Nat) : ∀ (fuel : Nat) (s : vm_state) (rb zb a : Nat) (off : Int),
    do_mmap_loop_counters alloc_ok start count w f fuel s rb zb a off ≠ [] ∧
    ((∃ s1, do_mmap_loop alloc_ok start count w f fuel s rb zb a off
        = mmap_result.returned s1 (some start)) ↔
      (do_mmap_loop_counters alloc_ok start count w f fuel s rb zb a off).getLast?
        = some (0, 0)) := by
  intro fuel
  induction fuel with
  | zero =>
    intro s rb zb a off
    by_cases hcond : rb > 0 ∨ zb > 0
    · have hne : (rb, zb) ≠ ((0 : Nat), (0 : Nat)) := by
        intro h
        injection h with h1 h2
        omega
      simp only [do_mmap_loop, do_mmap_loop_counters, if_pos hcond]
      refine ⟨List.cons_ne_nil _ _, ?_⟩
      constructor
      · rintro ⟨s1, h⟩
        exact mmap_result.noConfusion h
      · intro h
        exact absurd (Option.some.inj h) hne
    · have h0 : rb = 0 ∧ zb = 0 := by omega
      obtain ⟨rfl, rfl⟩ := h0
      simp [do_mmap_loop, do_mmap_loop_counters]
  | succ fuel ih =>
    intro s rb zb a off
    by_cases hcond : rb > 0 ∨ zb > 0
    · have hne : (rb, zb) ≠ ((0 : Nat), (0 : Nat)) := by
        intro h
        injection h with h1 h2
        omega
      rw [do_mmap_loop_step _ _ _ _ _ _ _ _ _ _ _ hcond,
        do_mmap_loop_counters_step _ _ _ _ _ _ _ _ _ _ _ hcond]
      by_cases hreg : alloc_ok a = true ∧ spt_find_page s a = none
      · rw [if_pos hreg, if_pos hreg]
        obtain ⟨ih1, ih2⟩ := ih
          (set_mapped_page_count
            { s with spt := s.spt ++ [pending_file_page a w
              { file := f, ofs := off,
                read_bytes := if rb < PGSIZE then rb else PGSIZE,
                zero_bytes := size_sub PGSIZE (if rb < PGSIZE then rb else PGSIZE) }] }
            start count)
          (size_sub rb (if rb < PGSIZE then rb else PGSIZE))
          (size_sub zb (size_sub PGSIZE (if rb < PGSIZE then rb else PGSIZE)))
          ((a + PGSIZE) % SIZE_MOD)
          (to_int32 (off + (if rb < PGSIZE then rb else PGSIZE : Nat)))
        refine ⟨List.cons_ne_nil _ _, ?_⟩
        rw [ih2]
        generalize do_mmap_loop_counters alloc_ok start count w f fuel
          (set_mapped_page_count
            { s with spt := s.spt ++ [pending_file_page a w
              { file := f, ofs := off,
                read_bytes := if rb < PGSIZE then rb else PGSIZE,
                zero_bytes := size_sub PGSIZE (if rb < PGSIZE then rb else PGSIZE) }] }
            start count)
          (size_sub rb (if rb < PGSIZE then rb else PGSIZE))
          (size_sub zb (size_sub PGSIZE (if rb < PGSIZE then rb else PGSIZE)))
          ((a + PGSIZE) % SIZE_MOD)
          (to_int32 (off + (if rb < PGSIZE then rb else PGSIZE : Nat))) = l at ih1 ⊢
        cases l with
        | nil => exact absurd rfl ih1
        | cons b l => rw [List.getLast?_cons_cons]
      · rw [if_neg hreg, if_neg hreg]
        refine ⟨List.cons_ne_nil _ _, ?_⟩
        constructor
        · rintro ⟨s1, h⟩
          injection h with _ h
          exact Option.noConfusion h
        · intro h
          exact absurd (Option.some.inj h) hne
    · have h0 : rb = 0 ∧ zb = 0 := by omega
      obtain ⟨rfl, rfl⟩ := h0
      rw [do_mmap_loop_done, do_mmap_loop_counters_done]
      simp

theorem counters_closed_succ (rb zb k : Nat) :
    (rb, zb) :: ((List.range (k + 1)).map (fun i => (rb - PGSIZE - i * PGSIZE, zb)) ++ [(0, 0)])
      = (List.range (k + 1 + 1)).map (fun i => (rb - i * PGSIZE, zb)) ++ [(0, 0)] := by
  generalize PGSIZE = P
  rw [List.range_succ_eq_map (k + 1), List.map_cons, List.map_map, List.cons_append,
    Nat.zero_mul, Nat.sub_zero]
  have hfun : ∀ i ∈ List.range (k + 1), (fun i => (rb - P - i * P, zb)) i
      = ((fun i => (rb - i * P, zb)) ∘ Nat.succ) i := by
    intro i _
    show (rb - P - i * P, zb) = (rb - (i + 1) * P, zb)
    rw [Nat.sub_sub, Nat.succ_mul, Nat.add_comm]
  rw [List.map_congr_left hfun]

theorem SIZE_MOD_eq : SIZE_MOD = 18446744073709551616 := by
  unfold SIZE_MOD
  norm_num

theorem PGSIZE_eq : PGSIZE = 4096 := rfl

/-- The addresses of the pages of a mapping of fewer than `2 ^ 64` bytes follow
one another modulo `2 ^ 64` and do not come back to the first. -/
theorem next_page_addr (a rb i : Nat) (hrb : rb < SIZE_MOD)
    (hge : PGSIZE ≤ rb) (hi : i ≤ (rb - PGSIZE) / PGSIZE) :
    ((a + PGSIZE) % SIZE_MOD + i * PGSIZE) % SIZE_MOD = (a + (i + 1) * PGSIZE) % SIZE_MOD ∧
    a ≠ (a + (i + 1) * PGSIZE) % SIZE_MOD := by
  rw [SIZE_MOD_eq] at hrb ⊢
  rw [PGSIZE_eq] at hge hi ⊢
  omega

/-- The loop of `do_mmap` when every registration succeeds: with fuel for more
than `read_bytes / PGSIZE` iterations it returns the start address and its
counters run through `read_bytes - i * PGSIZE` down to zero, and with less fuel
it does not end. -/
theorem do_mmap_loop_run (alloc_ok : Nat → Bool) (start : Nat) (count : Int) (w : Bool)
    (f : Nat) : ∀ (fuel : Nat) (s : vm_state) (rb zb a : Nat) (off : Int),
    zb = size_sub PGSIZE (rb % PGSIZE) → a < SIZE_MOD → rb < SIZE_MOD →
    (∀ i, i ≤ rb / PGSIZE → alloc_ok ((a + i * PGSIZE) % SIZE_MOD) = true ∧
      spt_find_page s ((a + i * PGSIZE) % SIZE_MOD) = none) →
    (rb / PGSIZE < fuel →
      (∃ s1, do_mmap_loop alloc_ok start count w f fuel s rb zb a off
        = mmap_result.returned s1 (some start)) ∧
      do_mmap_loop_counters alloc_ok start count w f fuel s rb zb a off
        = (List.range (rb / PGSIZE + 1)).map (fun i => (rb - i * PGSIZE, zb)) ++ [(0, 0)]) ∧
    (fuel ≤ rb / PGSIZE →
      do_mmap_loop alloc_ok start count w f fuel s rb zb a off = mmap_result.out_of_fuel) := by
  intro fuel
  induction fuel with
  | zero =>
    intro s rb zb a off hzb _ _ _
    have hlt : rb % PGSIZE < PGSIZE := Nat.mod_lt _ (by decide)
    have hz : zb > 0 := by
      rw [hzb, size_sub_of_le (Nat.le_of_lt hlt)]
      omega
    refine ⟨fun h => absurd h (Nat.not_lt_zero _), fun _ => ?_⟩
    simp [do_mmap_loop, hz]
  | succ fuel ih =>
    intro s rb zb a off hzb ha hrb hreg
    have hlt : rb % PGSIZE < PGSIZE := Nat.mod_lt _ (by decide)
    have hzv : zb = PGSIZE - rb % PGSIZE := by
      rw [hzb, size_sub_of_le (Nat.le_of_lt hlt)]
    have hz : zb > 0 := by omega
    have hreg0 : alloc_ok a = true ∧ spt_find_page s a = none := by
      have := hreg 0 (Nat.zero_le _)
      rw [Nat.zero_mul, Nat.add_zero, Nat.mod_eq_of_lt ha] at this
      exact this
    rw [do_mmap_loop_step _ _ _ _ _ _ _ _ _ _ _ (Or.inr hz),
      do_mmap_loop_counters_step _ _ _ _ _ _ _ _ _ _ _ (Or.inr hz), if_pos hreg0, if_pos hreg0]
    by_cases hsmall : rb < PGSIZE
    · simp only [if_pos hsmall]
      have h1 : size_sub rb rb = 0 := by rw [size_sub_of_le le_rfl, Nat.sub_self]
      have h2 : size_sub zb (size_sub PGSIZE rb) = 0 := by
        rw [size_sub_of_le (Nat.le_of_lt hsmall), hzv, Nat.mod_eq_of_lt hsmall,
          size_sub_of_le le_rfl, Nat.sub_self]
      have hdiv : rb / PGSIZE = 0 := Nat.div_eq_of_lt hsmall
      rw [h1, h2, do_mmap_loop_done, do_mmap_loop_counters_done, hdiv]
      refine ⟨fun _ => ⟨⟨_, rfl⟩, ?_⟩, fun h => absurd h (Nat.not_succ_le_zero _)⟩
      show [(rb, zb), (0, 0)] = [(rb - 0 * PGSIZE, zb)] ++ [(0, 0)]
      rw [Nat.zero_mul, Nat.sub_zero]
      rfl
    · simp only [if_neg hsmall]
      have hge : PGSIZE ≤ rb := Nat.le_of_not_lt hsmall
      have h1 : size_sub rb PGSIZE = rb - PGSIZE := size_sub_of_le hge
      have h2 : size_sub zb (size_sub PGSIZE PGSIZE) = zb := by
        rw [size_sub_of_le le_rfl, Nat.sub_self, size_sub_of_le (Nat.zero_le _), Nat.sub_zero]
      have hmod : (rb - PGSIZE) % PGSIZE = rb % PGSIZE := by
        have := Nat.sub_add_cancel hge
        conv_rhs => rw [← this]
        rw [Nat.add_mod_right]
      have hdiv : rb / PGSIZE = (rb - PGSIZE) / PGSIZE + 1 := by
        have := Nat.sub_add_cancel hge
        conv_lhs => rw [← this]
        rw [Nat.add_div_right _ (by decide)]
      rw [h1, h2]
      have hnext : ∀ i, i ≤ (rb - PGSIZE) / PGSIZE →
          ((a + PGSIZE) % SIZE_MOD + i * PGSIZE) % SIZE_MOD = (a + (i + 1) * PGSIZE) % SIZE_MOD ∧
          a ≠ (a + (i + 1) * PGSIZE) % SIZE_MOD :=
        fun i hi => next_page_addr a rb i hrb hge hi
      obtain ⟨ihA, ihB⟩ := ih
        (set_mapped_page_count
          { s with spt := s.spt ++ [pending_file_page a w
            { file := f, ofs := off, read_bytes := PGSIZE,
              zero_bytes := size_sub PGSIZE PGSIZE }] } start count)
        (rb - PGSIZE) zb ((a + PGSIZE) % SIZE_MOD) (to_int32 (off + (PGSIZE : Nat)))
        (by rw [hmod]; exact hzb) (Nat.mod_lt _ (Nat.two_pow_pos 64))
        (lt_of_le_of_lt (Nat.sub_le _ _) hrb)
        (by
          intro i hi
          obtain ⟨e1, e2⟩ := hnext i hi
          have hr := hreg (i + 1) (by rw [hdiv]; omega)
          rw [e1]
          refine ⟨hr.1, ?_⟩
          rw [spt_find_page_set_count_none, spt_find_page_snoc_none]
          exact ⟨hr.2, e2⟩)
      rw [hdiv]
      refine ⟨fun hf => ?_, fun hf => ihB (by omega)⟩
      obtain ⟨hA1, hA2⟩ := ihA (by omega)
      refine ⟨hA1, ?_⟩
      rw [hA2]
      exact counters_closed_succ rb zb _

theorem mmap_read_bytes_le (flen length : Nat) : mmap_read_bytes flen length ≤ length := by
  unfold mmap_read_bytes
  split <;> omega

/-- The first assertion of `do_mmap` holds for every initial `read_bytes`. -/
theorem mmap_assert_aligned (R : Nat) :
    (R + size_sub PGSIZE (R % PGSIZE)) % SIZE_MOD % PGSIZE = 0 := by
  have hlt : R % PGSIZE < PGSIZE := Nat.mod_lt _ (by decide)
  rw [size_sub_of_le (Nat.le_of_lt hlt), SIZE_MOD_eq]
  rw [PGSIZE_eq] at hlt ⊢
  omega

/-- With aligned arguments `do_mmap` is its loop, started from the initial
counters. -/
theorem do_mmap_eq_loop (fuel : Nat) (alloc_ok : Nat → Bool) (f flen : Nat) (s : vm_state)
    (addr length : Nat) (w : Bool) (offset : Int) (haddr : addr % PGSIZE = 0)
    (hoff : offset % PGSIZE = 0) :
    do_mmap fuel alloc_ok f flen s addr length w offset
      = do_mmap_loop alloc_ok addr (mmap_page_count length) w f fuel s
          (mmap_read_bytes flen length)
          (size_sub PGSIZE (mmap_read_bytes flen length % PGSIZE)) addr offset ∧
    do_mmap_counters fuel alloc_ok f flen s addr length w offset
      = do_mmap_loop_counters alloc_ok addr (mmap_page_count length) w f fuel s
          (mmap_read_bytes flen length)
          (size_sub PGSIZE (mmap_read_bytes flen length % PGSIZE)) addr offset := by
  have hassert := mmap_assert_aligned (mmap_read_bytes flen length)
  unfold do_mmap do_mmap_counters
  simp only
  unfold mmap_read_bytes at hassert ⊢
  rw [if_neg (not_not.2 hassert), if_neg (not_not.2 haddr), if_neg (not_not.2 hoff),
    if_neg (not_not.2 hassert), if_neg (not_not.2 haddr), if_neg (not_not.2 hoff)]
  exact ⟨rfl, rfl⟩

/-- No iteration of the loop underflows a counter. -/
theorem mmap_no_underflow (R i : Nat) (hi : i ≤ R / PGSIZE) :
    no_underflow (R - i * PGSIZE, PGSIZE - R % PGSIZE) := by
  unfold no_underflow size_sub
  simp only
  rw [PGSIZE_eq] at hi ⊢
  split_ifs <;> omega

/-- C23 (the registration loop of `do_mmap` is total).  For every file length,
every `length` and page-aligned `addr` and `offset` (all of them values of
their C types), when every registration succeeds (the allocations succeed and
no page is registered yet at the addresses of the mapping): the assertion
`(read_bytes + zero_bytes) % PGSIZE == 0` holds; with fuel for more than
`min (file_length, length) / PGSIZE` iterations `do_mmap` returns `addr`,
having registered one page in each of exactly
`min (file_length, length) / PGSIZE + 1` iterations, and the loop condition
sees the counters `(read_bytes - i * PGSIZE, zero_bytes)` and at last `(0, 0)`;
with less fuel the loop has not ended; and no iteration underflows
`read_bytes -= page_read_bytes` or `zero_bytes -= page_zero_bytes`. -/
theorem do_mmap_loop_total (alloc_ok : Nat → Bool) (f flen : Nat) (s : vm_state)
    (addr length : Nat) (w : Bool) (offset : Int)
    (hlen : length < SIZE_MOD) (haddr_lt : addr < SIZE_MOD)
    (haddr : addr % PGSIZE = 0) (hoff : offset % PGSIZE = 0)
    (hreg : ∀ i, i ≤ mmap_read_bytes flen length / PGSIZE →
      alloc_ok ((addr + i * PGSIZE) % SIZE_MOD) = true ∧
      spt_find_page s ((addr + i * PGSIZE) % SIZE_MOD) = none) :
    (mmap_read_bytes flen length
        + size_sub PGSIZE (mmap_read_bytes flen length % PGSIZE)) % SIZE_MOD % PGSIZE = 0 ∧
    (∀ fuel, mmap_read_bytes flen length / PGSIZE < fuel →
      (∃ s1, do_mmap fuel alloc_ok f flen s addr length w offset
          = mmap_result.returned s1 (some addr) ∧
        s1.spt.length = s.spt.length + (mmap_read_bytes flen length / PGSIZE + 1)) ∧
      do_mmap_counters fuel alloc_ok f flen s addr length w offset
        = (List.range (mmap_read_bytes flen length / PGSIZE + 1)).map
            (fun i => (mmap_read_bytes flen length - i * PGSIZE,
              size_sub PGSIZE (mmap_read_bytes flen length % PGSIZE))) ++ [(0, 0)]) ∧
    (∀ fuel, fuel ≤ mmap_read_bytes flen length / PGSIZE →
      do_mmap fuel alloc_ok f flen s addr length w offset = mmap_result.out_of_fuel) ∧
    (∀ i, i ≤ mmap_read_bytes flen length / PGSIZE →
      no_underflow (mmap_read_bytes flen length - i * PGSIZE,
        size_sub PGSIZE (mmap_read_bytes flen length % PGSIZE))) := by
  have hR : mmap_read_bytes flen length < SIZE_MOD :=
    lt_of_le_of_lt (mmap_read_bytes_le flen length) hlen
  have hZ : size_sub PGSIZE (mmap_read_bytes flen length % PGSIZE)
      = PGSIZE - mmap_read_bytes flen length % PGSIZE :=
    size_sub_of_le (Nat.le_of_lt (Nat.mod_lt _ (by decide)))
  refine ⟨mmap_assert_aligned _, ?_, ?_, ?_⟩
  · intro fuel hfuel
    obtain ⟨e1, e2⟩ := do_mmap_eq_loop fuel alloc_ok f flen s addr length w offset haddr hoff
    obtain ⟨⟨s1, hret⟩, hcnt⟩ := (do_mmap_loop_run alloc_ok addr (mmap_page_count length) w f fuel s
      (mmap_read_bytes flen length) _ addr offset rfl haddr_lt hR hreg).1 hfuel
    rw [← e1] at hret
    rw [← e2] at hcnt
    refine ⟨⟨s1, hret, ?_⟩, hcnt⟩
    obtain ⟨_, _, _, _, first, rest, hpages, hs1, _⟩ :=
      do_mmap_success fuel alloc_ok f flen s addr length w offset s1 addr hret
    have hlen2 := mmap_pages_length w f
      ((if flen < length then flen else length) / PGSIZE + 1) addr offset
      (if flen < length then flen else length)
    rw [hpages, List.length_cons] at hlen2
    rw [hs1]
    show (s.spt ++ _ :: rest).length = _
    rw [List.length_append, List.length_cons, hlen2]
    rfl
  · intro fuel hfuel
    rw [(do_mmap_eq_loop fuel alloc_ok f flen s addr length w offset haddr hoff).1]
    exact (do_mmap_loop_run alloc_ok addr (mmap_page_count length) w f fuel s
      (mmap_read_bytes flen length) _ addr offset rfl haddr_lt hR hreg).2 hfuel
  · intro i hi
    rw [hZ]
    exact mmap_no_underflow _ i hi

/-- C23 at the example call `do_mmap (65536, 10000, writable, file, 0)` on a
thread without pages, for a file of 9000 bytes: the loop runs
`9000 / 4096 + 1 = 3` iterations, registers 3 pages, sees the counters
`(9000, 3288)`, `(4904, 3288)`, `(808, 3288)` and `(0, 0)`, and two iterations
do not end it. -/
theorem do_mmap_loop_total_witness :
    (∃ s1, do_mmap 3 (fun _ => true) 7 9000 empty_vm 65536 10000 true 0
        = mmap_result.returned s1 (some 65536) ∧ s1.spt.length = 3) ∧
    do_mmap_counters 3 (fun _ => true) 7 9000 empty_vm 65536 10000 true 0
      = [(9000, 3288), (4904, 3288), (808, 3288), (0, 0)] ∧
    do_mmap 2 (fun _ => true) 7 9000 empty_vm 65536 10000 true 0 = mmap_result.out_of_fuel ∧
    no_underflow (808, 3288) :=
  have h := do_mmap_loop_total (fun _ => true) 7 9000 empty_vm 65536 10000 true 0
    (by decide) (by decide) (by decide) (by decide) (fun _ _ => ⟨rfl, rfl⟩)
  ⟨(h.2.1 3 (by decide)).1, (h.2.1 3 (by decide)).2, h.2.2.1 2 (by decide),
    h.2.2.2 2 (by decide)⟩

end Pintos
